import Mathlib

set_option maxHeartbeats 2000000
set_option maxRecDepth 8000

/-
Shallow embedding of `huffman.py`.

Modelling conventions:
* a Python `str` is modelled as `List Char` (a string is a sequence of
  characters; codes and encoded streams only ever hold `'0'`/`'1'`);
* a Python `dict` is modelled as an insertion-ordered association list,
  with assignment `d[k] = v` modelled by `dictInsert` (update in place if
  the key exists, append otherwise) and `d[k]` / `k in d` by `dictGet`;
* the `HuffmanNode` object graph is the inductive `PyNode`: the fields
  `char`, `freq`, `left`, `right` of `HuffmanNode.__init__`, with the
  Python value `None` in a child slot modelled by the `nil` constructor;
* exceptions are modelled by `Except`/`Option` results;
* the CPython `heapq` routines used by `from_freq` (`heapify`, `heappush`,
  `heappop` with `_siftup`/`_siftdown`, comparing nodes with
  `HuffmanNode.__lt__`, i.e. by `freq`) are transcribed literally; their
  `while` loops are driven by a fuel argument that provably dominates the
  number of iterations (`_siftdown` strictly decreases `pos`, `_siftup`
  strictly increases it below `len`, the merge loop shrinks the heap), so
  the fuel never runs out on the reachable inputs.
-/

/-- The `HuffmanNode` object of `huffman.py`: fields `char`, `freq`,
`left`, `right`; `nil` stands for the Python value `None` in a node
position. -/
inductive PyNode (α : Type) : Type where
  | nil : PyNode α
  | mk (char : Option α) (freq : Nat) (left right : PyNode α) : PyNode α
deriving DecidableEq

namespace PyNode

/-- Field access `node.char` (never applied to `None` in the source). -/
def char {α : Type} : PyNode α → Option α
  | nil => none
  | mk c _ _ _ => c

/-- Field access `node.freq`. -/
def freq {α : Type} : PyNode α → Nat
  | nil => 0
  | mk _ f _ _ => f

/-- Field access `node.left`. -/
def left {α : Type} : PyNode α → PyNode α
  | nil => nil
  | mk _ _ l _ => l

/-- Field access `node.right`. -/
def right {α : Type} : PyNode α → PyNode α
  | nil => nil
  | mk _ _ _ r => r

end PyNode

/-- Python dict assignment `d[k] = v`: replace the value in place if the
key is present, else append the binding at the end. -/
def dictInsert {α β : Type} [DecidableEq α] : List (α × β) → α → β → List (α × β)
  | [], k, v => [(k, v)]
  | (k', v') :: rest, k, v =>
    if k' = k then (k, v) :: rest else (k', v') :: dictInsert rest k v

/-- Python dict read `d.get(k)`: the value of the (unique) binding of `k`. -/
def dictGet {α β : Type} [DecidableEq α] : List (α × β) → α → Option β
  | [], _ => none
  | (k', v') :: rest, k => if k' = k then some v' else dictGet rest k

/-- Number of binary digits of `n` (0 for `n = 0`), computed with a fuel
argument so that the recursion is structural; `bitLenCore f n` is exact
whenever `n ≤ f`. -/
def bitLenCore : Nat → Nat → Nat
  | 0, _ => 0
  | f + 1, n => if n = 0 then 0 else bitLenCore f (n / 2) + 1

/-- Number of binary digits of `n` (`bitLen 0 = 0`). -/
def bitLen (n : Nat) : Nat := bitLenCore n n

/-- The low `w` binary digits of `v`, most significant first, as the
characters `'0'`/`'1'`. -/
def bitsW : Nat → Nat → List Char
  | 0, _ => []
  | w + 1, v => (if v / 2 ^ w % 2 = 1 then '1' else '0') :: bitsW w v

/-- Width of the Python format `f"{v:0{w}b}"`: at least `w`, at least one
digit, and enough digits to hold `v` in full. -/
def fmtWidth (w v : Nat) : Nat := max w (max 1 (bitLen v))

/-- The Python format expression `f"{v:0{w}b}"`: the binary digits of `v`,
left-padded with `'0'` up to width `w` (and never truncated). -/
def pyBinFormat (v w : Nat) : List Char := bitsW (fmtWidth w v) v

/-- The sort key of `canonical_huffman_codes`: Python's
`sorted(..., key=lambda x: (x[1], x[0]))`, i.e. lexicographic on
(length, symbol). -/
abbrev canonKey {α : Type} [LinearOrder α] (a b : α × Nat) : Prop :=
  a.2 < b.2 ∨ (a.2 = b.2 ∧ a.1 ≤ b.1)

/-- The `for symbol, length in sorted_symbols` loop of
`canonical_huffman_codes`, threading `code`, `prev_len` and the codebook
dict.  (On the sorted input `length - prev_len` never underflows, so
truncated `Nat` subtraction agrees with Python.) -/
def canonLoop {α : Type} [DecidableEq α] :
    List (α × Nat) → Nat → Nat → List (α × List Char) → List (α × List Char)
  | [], _, _, book => book
  | (s, len) :: rest, code, prevLen, book =>
    let code' := code <<< (len - prevLen)
    canonLoop rest (code' + 1) len (dictInsert book s (pyBinFormat code' len))

/-- `canonical_huffman_codes(symbols_with_lengths)` from `huffman.py`
(Python's `sorted` is stable; on the key `(length, symbol)` any stable
sort produces the same list, here an insertion sort). -/
def canonical_huffman_codes {α : Type} [LinearOrder α] [DecidableEq α]
    (pairs : List (α × Nat)) : List (α × List Char) :=
  canonLoop (List.insertionSort canonKey pairs) 0 0 []

/-- The value-level assignment made by the canonical-codes loop: the list
of `(symbol, length, code value)` triples in processing order. -/
def canonVals {α : Type} : List (α × Nat) → Nat → Nat → List (α × Nat × Nat)
  | [], _, _ => []
  | (s, len) :: rest, code, prevLen =>
    let code' := code <<< (len - prevLen)
    (s, len, code') :: canonVals rest (code' + 1) len

/-- Heap cell read `heap[i]` (all reads in the transcribed `heapq` code
are in range, so the `nil` default is never produced). -/
def hget {α : Type} (l : List (PyNode α)) (i : Nat) : PyNode α := l.getD i .nil

/-- The `while pos > startpos` loop of `heapq._siftdown`, followed by the
final `heap[pos] = newitem`.  `pos` strictly decreases, so fuel `pos`
always suffices. -/
def siftdownLoop {α : Type} :
    Nat → List (PyNode α) → Nat → Nat → PyNode α → List (PyNode α)
  | 0, heap, _, pos, item => heap.set pos item
  | fuel + 1, heap, start, pos, item =>
    if start < pos then
      let parentpos := (pos - 1) / 2
      let parent := hget heap parentpos
      if item.freq < parent.freq then
        siftdownLoop fuel (heap.set pos parent) start parentpos item
      else heap.set pos item
    else heap.set pos item

/-- `heapq._siftdown(heap, startpos, pos)`. -/
def pySiftdown {α : Type} (heap : List (PyNode α)) (start pos : Nat) : List (PyNode α) :=
  siftdownLoop pos heap start pos (hget heap pos)

/-- The `while childpos < endpos` loop of `heapq._siftup`, returning the
updated heap together with the final `pos`.  `pos` strictly increases and
stays below the length, so fuel `heap.length` always suffices. -/
def siftupLoop {α : Type} :
    Nat → List (PyNode α) → Nat → List (PyNode α) × Nat
  | 0, heap, pos => (heap, pos)
  | fuel + 1, heap, pos =>
    let endpos := heap.length
    let childpos := 2 * pos + 1
    if childpos < endpos then
      let rightpos := childpos + 1
      let c :=
        if rightpos < endpos ∧ ¬ (hget heap childpos).freq < (hget heap rightpos).freq
        then rightpos else childpos
      siftupLoop fuel (heap.set pos (hget heap c)) c
    else (heap, pos)

/-- `heapq._siftup(heap, pos)`: bubble the hole to a leaf, write back
`newitem`, then `_siftdown` from the original position. -/
def pySiftup {α : Type} (heap : List (PyNode α)) (pos : Nat) : List (PyNode α) :=
  let newitem := hget heap pos
  let hp := siftupLoop heap.length heap pos
  pySiftdown (hp.1.set hp.2 newitem) pos hp.2

/-- `heapq.heappush(heap, item)`. -/
def pyHeappush {α : Type} (heap : List (PyNode α)) (item : PyNode α) : List (PyNode α) :=
  let h := heap ++ [item]
  pySiftdown h 0 (h.length - 1)

/-- `heapq.heappop(heap)`: pop the last element; if the heap is still
non-empty, remember `heap[0]`, move the last element to the root and sift
up.  (Python raises `IndexError` on an empty heap; that call site is
unreachable in `from_freq`.) -/
def pyHeappop {α : Type} (heap : List (PyNode α)) : PyNode α × List (PyNode α) :=
  let lastelt := hget heap (heap.length - 1)
  match heap.dropLast with
  | [] => (lastelt, [])
  | r0 :: rs => (hget (r0 :: rs) 0, pySiftup ((r0 :: rs).set 0 lastelt) 0)

/-- The `for i in reversed(range(n//2))` loop of `heapq.heapify`. -/
def heapifyLoop {α : Type} : Nat → List (PyNode α) → List (PyNode α)
  | 0, heap => heap
  | i + 1, heap => heapifyLoop i (pySiftup heap i)

/-- `heapq.heapify(x)`. -/
def pyHeapify {α : Type} (x : List (PyNode α)) : List (PyNode α) :=
  heapifyLoop (x.length / 2) x

/-- The `while len(heap) > 1` merge loop of `HuffmanNode.from_freq`:
pop `n1`, pop `n2`, push an internal node with `left = n1`, `right = n2`
and the summed frequency.  Each pass shrinks the heap by one, so fuel
`heap.length` always suffices. -/
def mergeLoop {α : Type} : Nat → List (PyNode α) → List (PyNode α)
  | 0, heap => heap
  | fuel + 1, heap =>
    if 1 < heap.length then
      let p1 := pyHeappop heap
      let p2 := pyHeappop p1.2
      let merged : PyNode α := .mk none (p1.1.freq + p2.1.freq) p1.1 p2.1
      mergeLoop fuel (pyHeappush p2.2 merged)
    else heap

/-- `HuffmanNode.from_freq(freq_dict)`: `None` (an exception in Python)
on an empty table, otherwise heapify one leaf per entry, merge down to a
single node and return it.  The codebook the Python method caches on the
node is recomputed by the pure `generate_codes` below. -/
def from_freq {α : Type} (fd : List (α × Nat)) : Option (PyNode α) :=
  match fd with
  | [] => none
  | _ =>
    let heap := pyHeapify (fd.map fun p => PyNode.mk (some p.1) p.2 .nil .nil)
    let final := mergeLoop heap.length heap
    some (hget final 0)

/-- `HuffmanNode._build_codes(prefix, codebook)`: record `char`-marked
nodes, otherwise recurse into the children that exist, `'0'` for left
first, then `'1'` for right. -/
def buildCodes {α : Type} [DecidableEq α] :
    PyNode α → List Char → List (α × List Char) → List (α × List Char)
  | .nil, _, book => book
  | .mk (some c) _ _ _, pre, book => dictInsert book c pre
  | .mk none _ l r, pre, book => buildCodes r (pre ++ ['1']) (buildCodes l (pre ++ ['0']) book)

/-- `HuffmanNode.generate_codes(self)`: a single-leaf root gets the code
`"0"`, otherwise `_build_codes("", {})`. -/
def generate_codes {α : Type} [DecidableEq α] (t : PyNode α) : List (α × List Char) :=
  match t.char with
  | some c => [(c, ['0'])]
  | none => buildCodes t [] []

/-- The inner walk of `HuffmanNode.from_codebook` for one `(symbol, code)`
pair: descend along the bits, creating `HuffmanNode(None, 0)` children on
demand, and assign the symbol at the final node (unconditionally). -/
def insertCode {α : Type} [DecidableEq α] : List Char → PyNode α → α → PyNode α
  | [], node, s => .mk (some s) node.freq node.left node.right
  | bit :: rest, node, s =>
    if bit = '0' then
      let child := if node.left = .nil then PyNode.mk none 0 .nil .nil else node.left
      .mk node.char node.freq (insertCode rest child s) node.right
    else
      let child := if node.right = .nil then PyNode.mk none 0 .nil .nil else node.right
      .mk node.char node.freq node.left (insertCode rest child s)

/-- `HuffmanNode.from_codebook(codebook)`: start from `HuffmanNode(None, 0)`
and insert every binding in dict order. -/
def from_codebook {α : Type} [DecidableEq α] (cb : List (α × List Char)) : PyNode α :=
  cb.foldl (fun root p => insertCode p.2 root p.1) (.mk none 0 .nil .nil)

/-- The generator expression `"".join(self.codebook[c] for c in text)`. -/
def joinCodes {α : Type} [DecidableEq α] (book : List (α × List Char)) : List α → List Char
  | [] => []
  | c :: rest => ((dictGet book c).getD []) ++ joinCodes book rest

/-- `HuffmanNode.encode(self, text)`: collect the set of input symbols
missing from the codebook; raise `ValueError` (here: `Except.error` with
that set) if non-empty, else return the concatenation of the codes in
input order. -/
def encode {α : Type} [DecidableEq α] (book : List (α × List Char)) (text : List α) :
    Except (List α) (List Char) :=
  let missing := (text.filter fun c => (dictGet book c).isNone).dedup
  match missing with
  | [] => .ok (joinCodes book text)
  | _ => .error missing

/-- The three `ValueError`s of `HuffmanNode.decode`, in the vocabulary of
the specification. -/
inductive DecodeError : Type where
  | malformedBitstream : DecodeError
  | invalidPath : DecodeError
  | incompleteStream : DecodeError
deriving DecidableEq

/-- The `for bit in encoded` loop of `HuffmanNode.decode`: descend left on
`'0'`, else right; error on a missing child; on reaching a `char`-marked
node emit the symbol and reset to the root; at the end error unless the
position is back at the root.  (The Python test `node != self` is object
identity; the current node is the root or a strict descendant of it, and
a strict descendant is a smaller term, so structural equality with the
root coincides with identity.) -/
def decodeGo {α : Type} [DecidableEq α] (root : PyNode α) :
    List Char → PyNode α → List α → Except DecodeError (List α)
  | [], node, result =>
    if node = root then .ok result else .error .incompleteStream
  | bit :: rest, node, result =>
    match (if bit = '0' then node.left else node.right) with
    | .nil => .error .invalidPath
    | .mk c f l r =>
      match c with
      | some ch => decodeGo root rest root (result ++ [ch])
      | none => decodeGo root rest (.mk none f l r) result

/-- `HuffmanNode.decode(self, encoded)`: reject non-binary characters up
front, then run the traversal loop. -/
def decode {α : Type} [DecidableEq α] (root : PyNode α) (encoded : List Char) :
    Except DecodeError (List α) :=
  if encoded.all fun b => b == '0' || b == '1' then decodeGo root encoded root []
  else .error .malformedBitstream

/-- The position reached by the decode traversal (with its reset-to-root
on emitting), `none` if it ever follows a missing child; a specification
companion to `decodeGo` used to state the error conditions. -/
def walk {α : Type} (root : PyNode α) : PyNode α → List Char → Option (PyNode α)
  | node, [] => some node
  | node, bit :: rest =>
    match (if bit = '0' then node.left else node.right) with
    | .nil => none
    | .mk c f l r =>
      match c with
      | some _ => walk root root rest
      | none => walk root (.mk none f l r) rest

/-- The node reached from `t` by following a code path (no resets),
`nil` when the path leaves the tree; used to state what
`from_codebook` builds. -/
def nodeAt {α : Type} : PyNode α → List Char → PyNode α
  | t, [] => t
  | t, bit :: rest =>
    match t with
    | .nil => .nil
    | .mk _ _ l r => nodeAt (if bit = '0' then l else r) rest

/-- Numeric value of a most-significant-first binary digit string. -/
def bitVal : List Char → Nat
  | [] => 0
  | c :: rest => (if c = '1' then 1 else 0) * 2 ^ rest.length + bitVal rest

/-- Lexicographic strict order on digit strings (Python `str` `<`
restricted to the characters that occur in codes). -/
def strLt : List Char → List Char → Bool
  | [], [] => false
  | [], _ :: _ => true
  | _ :: _, [] => false
  | a :: as, b :: bs => if a < b then true else if b < a then false else strLt as bs

/-- The structural invariant of the trees `from_freq` builds: every node
is a symbol-marked leaf with no children or an unmarked node with two
children (the `freq` field is unconstrained). -/
inductive Proper {α : Type} : PyNode α → Prop where
  | leaf (c : α) (f : Nat) : Proper (.mk (some c) f .nil .nil)
  | node (f : Nat) {l r : PyNode α} : Proper l → Proper r → Proper (.mk none f l r)

/-- `PathTo t p c`: following the bits `p` from `t`, descending only
through unmarked nodes, ends at a node marked with the symbol `c`.  This
is exactly the set of bindings `_build_codes` records. -/
inductive PathTo {α : Type} : PyNode α → List Char → α → Prop where
  | here {c : α} {f : Nat} {l r : PyNode α} : PathTo (.mk (some c) f l r) [] c
  | stepL {c : α} {f : Nat} {l r : PyNode α} {p : List Char} :
      PathTo l p c → PathTo (.mk none f l r) ('0' :: p) c
  | stepR {c : α} {f : Nat} {l r : PyNode α} {p : List Char} :
      PathTo r p c → PathTo (.mk none f l r) ('1' :: p) c

/-- The weighted total code length computed in `ex2` of `huffman.py`:
`sum(freq[c] * len(codebook[c]) for c in freq)`. -/
def weightedLength {α : Type} [DecidableEq α]
    (fd : List (α × Nat)) (book : List (α × List Char)) : Nat :=
  (fd.map fun p => p.2 * ((dictGet book p.1).getD []).length).sum

/-- The frequency table `FREQ_HUFFMAN_PAPER` of `ex2`, in dict order. -/
def FREQ_HUFFMAN_PAPER : List (Char × Nat) :=
  [('a', 20), ('b', 18), ('c', 10), ('d', 10), ('e', 10), ('f', 6), ('g', 6),
   ('h', 4), ('i', 4), ('j', 4), ('k', 4), ('l', 3), ('m', 1)]

/-- The weighted total length of `ex2`: build the tree from
`FREQ_HUFFMAN_PAPER`, derive the codebook, and sum frequency times code
length (`0` is returned in the unreachable empty case). -/
def ex2Total : Nat :=
  match from_freq FREQ_HUFFMAN_PAPER with
  | some t => weightedLength FREQ_HUFFMAN_PAPER (generate_codes t)
  | none => 0

/-- Cost (weighted external path length) of a tree: every internal node
contributes the frequencies of its two subtrees.  On the trees `from_freq`
builds this equals the sum of leaf frequency times leaf depth. -/
def treeCost {α : Type} : PyNode α → Nat
  | .nil => 0
  | .mk _ _ l r => treeCost l + treeCost r + l.freq + r.freq

/-- The list of (symbol, frequency) pairs at the symbol-marked leaves of a
tree, left to right. -/
def leaves {α : Type} : PyNode α → List (α × Nat)
  | .nil => []
  | .mk (some c) f _ _ => [(c, f)]
  | .mk none _ l r => leaves l ++ leaves r

/-- The trees manipulated by `from_freq`: symbol leaves, and internal
nodes whose stored frequency is the sum of the children's. -/
inductive GoodTree {α : Type} : PyNode α → Prop where
  | leaf (c : α) (f : Nat) : GoodTree (.mk (some c) f .nil .nil)
  | node {l r : PyNode α} (hl : GoodTree l) (hr : GoodTree r) :
      GoodTree (.mk none (l.freq + r.freq) l r)

/-- `j` is a child slot of `i` in the implicit array-embedded binary tree
used by `heapq`. -/
def childIdx (i j : Nat) : Prop := j = 2 * i + 1 ∨ j = 2 * i + 2

/-- All parent-child pairs whose parent index is at least `k` are ordered
by frequency (the `heapq` invariant, restricted). -/
def PartialHeapGe {α : Type} (l : List (PyNode α)) (k : Nat) : Prop :=
  ∀ i j, k ≤ i → childIdx i j → j < l.length → (hget l i).freq ≤ (hget l j).freq

/-- The full `heapq` invariant. -/
def IsHeap {α : Type} (l : List (PyNode α)) : Prop := PartialHeapGe l 0

/-- Array-index descendant relation for the implicit binary tree. -/
inductive Desc : Nat → Nat → Prop where
  | refl (i : Nat) : Desc i i
  | step {i j k : Nat} : Desc i j → childIdx j k → Desc i k

/-- The largest length occurring in a (weight, length) list. -/
def maxLen (items : List (Nat × Nat)) : Nat := (items.map Prod.snd).foldr max 0

/-- Replace the length of the first item whose length is `M` by `v`
(weights and order untouched). -/
def replaceLen : List (Nat × Nat) → Nat → Nat → List (Nat × Nat)
  | [], _, _ => []
  | (w, l) :: rest, M, v => if l = M then (w, v) :: rest else (w, l) :: replaceLen rest M v

/-- Swap the head item's length with a maximal length of the tail, when
the tail holds a larger one (weights and order untouched). -/
def pullMax : List (Nat × Nat) → List (Nat × Nat)
  | [] => []
  | (w, l) :: rest =>
    if l < maxLen rest then (w, maxLen rest) :: replaceLen rest (maxLen rest) l
    else (w, l) :: rest

/-- Total weighted length of a (weight, length) list. -/
def wlSum (items : List (Nat × Nat)) : Nat := (items.map fun x => x.1 * x.2).sum

/-- The Kraft sum of the lengths, scaled by `2 ^ L`. -/
def kSum (L : Nat) (items : List (Nat × Nat)) : Nat :=
  (items.map fun x => 2 ^ (L - x.2)).sum

/-- A length assignment realizable by a binary prefix code: the scaled
Kraft inequality holds at some (equivalently any) common scale. -/
def FeasibleN (items : List (Nat × Nat)) : Prop :=
  ∃ L, (∀ x ∈ items, x.2 ≤ L) ∧ kSum L items ≤ 2 ^ L

/-- The (symbol, code) entries `_build_codes` contributes for the subtree
`t` under the accumulated prefix `pre`, in traversal order. -/
def codeEntries {α : Type} : PyNode α → List Char → List (α × List Char)
  | .nil, _ => []
  | .mk (some c) _ _ _, pre => [(c, pre)]
  | .mk none _ l r, pre => codeEntries l (pre ++ ['0']) ++ codeEntries r (pre ++ ['1'])

/-- Concatenated leaf lists of all trees in a heap. -/
def leavesAll {α : Type} : List (PyNode α) → List (α × Nat)
  | [] => []
  | t :: ts => leaves t ++ leavesAll ts

@[simp] lemma PyNode.char_nil {α : Type} : (PyNode.nil : PyNode α).char = none := rfl

@[simp] lemma PyNode.char_mk {α : Type} (c : Option α) (f : Nat) (l r : PyNode α) :
    (PyNode.mk c f l r).char = c := rfl

@[simp] lemma PyNode.freq_nil {α : Type} : (PyNode.nil : PyNode α).freq = 0 := rfl

@[simp] lemma PyNode.freq_mk {α : Type} (c : Option α) (f : Nat) (l r : PyNode α) :
    (PyNode.mk c f l r).freq = f := rfl

@[simp] lemma PyNode.left_nil {α : Type} : (PyNode.nil : PyNode α).left = .nil := rfl

@[simp] lemma PyNode.left_mk {α : Type} (c : Option α) (f : Nat) (l r : PyNode α) :
    (PyNode.mk c f l r).left = l := rfl

@[simp] lemma PyNode.right_nil {α : Type} : (PyNode.nil : PyNode α).right = .nil := rfl

@[simp] lemma PyNode.right_mk {α : Type} (c : Option α) (f : Nat) (l r : PyNode α) :
    (PyNode.mk c f l r).right = r := rfl

/-- Decidable equality for `Except` results (used only to state and
evaluate concrete outcomes). -/
instance {e a : Type} [DecidableEq e] [DecidableEq a] : DecidableEq (Except e a) := fun x y =>
  match x, y with
  | .ok u, .ok v =>
    if h : u = v then isTrue (by rw [h]) else isFalse (fun hc => by injection hc; exact h (by assumption))
  | .ok _, .error _ => isFalse (fun hc => Except.noConfusion hc)
  | .error _, .ok _ => isFalse (fun hc => Except.noConfusion hc)
  | .error u, .error v =>
    if h : u = v then isTrue (by rw [h]) else isFalse (fun hc => by injection hc; exact h (by assumption))

/-! Basic facts about the dict model. -/

lemma dictGet_dictInsert_self {α β : Type} [DecidableEq α]
    (book : List (α × β)) (k : α) (v : β) :
    dictGet (dictInsert book k v) k = some v := by
  induction book with
  | nil => simp [dictInsert, dictGet]
  | cons hd rest ih =>
    obtain ⟨k', v'⟩ := hd
    by_cases h : k' = k
    · simp [dictInsert, dictGet, h]
    · simp [dictInsert, dictGet, h, ih]

lemma dictGet_dictInsert_ne {α β : Type} [DecidableEq α]
    (book : List (α × β)) (k k' : α) (v : β) (h : k ≠ k') :
    dictGet (dictInsert book k v) k' = dictGet book k' := by
  induction book with
  | nil => simp [dictInsert, dictGet, h]
  | cons hd rest ih =>
    obtain ⟨k0, v0⟩ := hd
    by_cases h0 : k0 = k
    · subst h0
      simp [dictInsert, dictGet, h]
    · simp only [dictInsert, if_neg h0]
      by_cases h1 : k0 = k'
      · simp [dictGet, h1]
      · simp [dictGet, h1, ih]

lemma mem_dictInsert {α β : Type} [DecidableEq α]
    {book : List (α × β)} {k : α} {v : β} {e : α × β}
    (h : e ∈ dictInsert book k v) : e ∈ book ∨ e = (k, v) := by
  induction book with
  | nil => simpa [dictInsert] using h
  | cons hd rest ih =>
    obtain ⟨k0, v0⟩ := hd
    by_cases h0 : k0 = k
    · simp only [dictInsert, if_pos h0] at h
      rcases List.mem_cons.mp h with h | h
      · exact Or.inr h
      · exact Or.inl (List.mem_cons_of_mem _ h)
    · simp only [dictInsert, if_neg h0] at h
      rcases List.mem_cons.mp h with h | h
      · exact Or.inl (h ▸ List.mem_cons_self _ _)
      · rcases ih h with h | h
        · exact Or.inl (List.mem_cons_of_mem _ h)
        · exact Or.inr h

lemma keys_dictInsert_subset {α β : Type} [DecidableEq α]
    {book : List (α × β)} {k x : α} {v : β}
    (h : x ∈ (dictInsert book k v).map Prod.fst) :
    x ∈ book.map Prod.fst ∨ x = k := by
  rcases List.mem_map.mp h with ⟨e, he, hx⟩
  rcases mem_dictInsert he with h' | h'
  · exact Or.inl (hx ▸ List.mem_map_of_mem _ h')
  · subst h'; exact Or.inr hx.symm

lemma keys_dictInsert_nodup {α β : Type} [DecidableEq α]
    {book : List (α × β)} (k : α) (v : β)
    (h : (book.map Prod.fst).Nodup) :
    ((dictInsert book k v).map Prod.fst).Nodup := by
  induction book with
  | nil => simp [dictInsert]
  | cons hd rest ih =>
    obtain ⟨k0, v0⟩ := hd
    simp only [List.map_cons, List.nodup_cons] at h
    by_cases h0 : k0 = k
    · subst h0
      simpa [dictInsert] using h
    · simp only [dictInsert, if_neg h0, List.map_cons, List.nodup_cons]
      refine ⟨fun hx => ?_, ih h.2⟩
      rcases keys_dictInsert_subset hx with h' | h'
      · exact h.1 h'
      · exact h0 h'

lemma dictGet_mem {α β : Type} [DecidableEq α]
    {book : List (α × β)} {k : α} {v : β}
    (h : dictGet book k = some v) : (k, v) ∈ book := by
  induction book with
  | nil => simp [dictGet] at h
  | cons hd rest ih =>
    obtain ⟨k0, v0⟩ := hd
    by_cases h0 : k0 = k
    · subst h0
      simp [dictGet] at h
      subst h
      exact List.mem_cons_self _ _
    · simp only [dictGet, if_neg h0] at h
      exact List.mem_cons_of_mem _ (ih h)

lemma dictGet_of_mem_nodup {α β : Type} [DecidableEq α]
    {book : List (α × β)} {k : α} {v : β}
    (hnd : (book.map Prod.fst).Nodup) (h : (k, v) ∈ book) :
    dictGet book k = some v := by
  induction book with
  | nil => simp at h
  | cons hd rest ih =>
    obtain ⟨k0, v0⟩ := hd
    simp only [List.map_cons, List.nodup_cons] at hnd
    rcases List.mem_cons.mp h with h | h
    · rw [Prod.ext_iff] at h
      obtain ⟨h1, h2⟩ := h
      simp only at h1 h2
      subst h1; subst h2
      simp [dictGet]
    · have hne : k0 ≠ k := by
        rintro rfl
        exact hnd.1 (List.mem_map_of_mem _ h)
      simp [dictGet, hne, ih hnd.2 h]

lemma dictGet_isSome_iff {α β : Type} [DecidableEq α]
    (book : List (α × β)) (k : α) :
    (dictGet book k).isSome ↔ k ∈ book.map Prod.fst := by
  induction book with
  | nil => simp [dictGet]
  | cons hd rest ih =>
    obtain ⟨k0, v0⟩ := hd
    by_cases h0 : k0 = k
    · simp [dictGet, h0]
    · simp [dictGet, h0, ih, Ne.symm h0]

/-! Facts about `nodeAt` and `insertCode` (the `from_codebook` walk). -/

lemma nodeAt_nil {α : Type} (p : List Char) : nodeAt (PyNode.nil : PyNode α) p = .nil := by
  cases p <;> simp [nodeAt]

lemma char_insertCode_cons {α : Type} [DecidableEq α]
    (bit : Char) (rest : List Char) (node : PyNode α) (s : α) :
    (insertCode (bit :: rest) node s).char = node.char := by
  by_cases h : bit = '0' <;> simp [insertCode, h, PyNode.char]

lemma nodeAt_fresh {α : Type} (rest : List Char) (hr : rest ≠ []) :
    nodeAt (PyNode.mk (α := α) none 0 .nil .nil) rest = PyNode.nil := by
  cases rest with
  | nil => exact absurd rfl hr
  | cons b bs =>
    simp only [nodeAt]
    have : (if b = '0' then (PyNode.nil : PyNode α) else PyNode.nil) = PyNode.nil := by
      split <;> rfl
    rw [this, nodeAt_nil]

lemma nodeAt_fresh_left {α : Type} (rest : List Char) :
    (nodeAt (PyNode.mk (α := α) none 0 .nil .nil) rest).left = PyNode.nil := by
  cases rest with
  | nil => rfl
  | cons b bs =>
    rw [nodeAt_fresh _ (by simp)]
    rfl

lemma nodeAt_fresh_right {α : Type} (rest : List Char) :
    (nodeAt (PyNode.mk (α := α) none 0 .nil .nil) rest).right = PyNode.nil := by
  cases rest with
  | nil => rfl
  | cons b bs =>
    rw [nodeAt_fresh _ (by simp)]
    rfl

lemma nodeAt_fresh_char {α : Type} (rest : List Char) :
    (nodeAt (PyNode.mk (α := α) none 0 .nil .nil) rest).char = none := by
  cases rest with
  | nil => rfl
  | cons b bs =>
    rw [nodeAt_fresh _ (by simp)]
    rfl

lemma insertCode_char_at {α : Type} [DecidableEq α] :
    ∀ (code : List Char) (root : PyNode α) (s : α),
      (nodeAt (insertCode code root s) code).char = some s := by
  intro code
  induction code with
  | nil => intro root s; simp [insertCode, nodeAt, PyNode.char]
  | cons bit rest ih =>
    intro root s
    by_cases hb : bit = '0' <;>
      simp [insertCode, hb, nodeAt, ih]

lemma insertCode_children_at {α : Type} [DecidableEq α] :
    ∀ (code : List Char) (root : PyNode α) (s : α),
      (nodeAt (insertCode code root s) code).left = (nodeAt root code).left ∧
      (nodeAt (insertCode code root s) code).right = (nodeAt root code).right := by
  intro code
  induction code with
  | nil =>
    intro root s
    cases root <;> simp [insertCode, nodeAt]
  | cons bit rest ih =>
    intro root s
    have ih1 : ∀ (u : PyNode α), (nodeAt (insertCode rest u s) rest).left = (nodeAt u rest).left :=
      fun u => (ih u s).1
    have ih2 : ∀ (u : PyNode α), (nodeAt (insertCode rest u s) rest).right = (nodeAt u rest).right :=
      fun u => (ih u s).2
    by_cases hb : bit = '0'
    · cases root with
      | nil =>
        refine ⟨?_, ?_⟩
        · have h := ih1 (PyNode.mk none 0 PyNode.nil PyNode.nil)
          simp [insertCode, hb, nodeAt, nodeAt_nil, h, nodeAt_fresh_left]
        · have h := ih2 (PyNode.mk none 0 PyNode.nil PyNode.nil)
          simp [insertCode, hb, nodeAt, nodeAt_nil, h, nodeAt_fresh_right]
      | mk c f l r =>
        by_cases hl : l = PyNode.nil
        · subst hl
          refine ⟨?_, ?_⟩
          · have h := ih1 (PyNode.mk none 0 PyNode.nil PyNode.nil)
            simp [insertCode, hb, nodeAt, nodeAt_nil, h, nodeAt_fresh_left]
          · have h := ih2 (PyNode.mk none 0 PyNode.nil PyNode.nil)
            simp [insertCode, hb, nodeAt, nodeAt_nil, h, nodeAt_fresh_right]
        · exact ⟨by simp [insertCode, hb, hl, nodeAt, ih1 l],
            by simp [insertCode, hb, hl, nodeAt, ih2 l]⟩
    · cases root with
      | nil =>
        refine ⟨?_, ?_⟩
        · have h := ih1 (PyNode.mk none 0 PyNode.nil PyNode.nil)
          simp [insertCode, hb, nodeAt, nodeAt_nil, h, nodeAt_fresh_left]
        · have h := ih2 (PyNode.mk none 0 PyNode.nil PyNode.nil)
          simp [insertCode, hb, nodeAt, nodeAt_nil, h, nodeAt_fresh_right]
      | mk c f l r =>
        by_cases hr : r = PyNode.nil
        · subst hr
          refine ⟨?_, ?_⟩
          · have h := ih1 (PyNode.mk none 0 PyNode.nil PyNode.nil)
            simp [insertCode, hb, nodeAt, nodeAt_nil, h, nodeAt_fresh_left]
          · have h := ih2 (PyNode.mk none 0 PyNode.nil PyNode.nil)
            simp [insertCode, hb, nodeAt, nodeAt_nil, h, nodeAt_fresh_right]
        · exact ⟨by simp [insertCode, hb, hr, nodeAt, ih1 r],
            by simp [insertCode, hb, hr, nodeAt, ih2 r]⟩

lemma insertCode_strict_path_char {α : Type} [DecidableEq α] :
    ∀ (p q : List Char) (root : PyNode α) (s : α), q ≠ [] →
      (nodeAt (insertCode (p ++ q) root s) p).char = (nodeAt root p).char := by
  intro p
  induction p with
  | nil =>
    intro q root s hq
    cases q with
    | nil => exact absurd rfl hq
    | cons b bs => simpa [nodeAt] using char_insertCode_cons b bs root s
  | cons bit ps ih =>
    intro q root s hq
    have ihq : ∀ (u : PyNode α), (nodeAt (insertCode (ps ++ q) u s) ps).char = (nodeAt u ps).char :=
      fun u => ih q u s hq
    by_cases hb : bit = '0'
    · cases root with
      | nil =>
        simp [insertCode, hb, nodeAt, nodeAt_nil, ihq, nodeAt_fresh_char]
      | mk c f l r =>
        by_cases hl : l = PyNode.nil
        · subst hl
          simp [insertCode, hb, nodeAt, nodeAt_nil, ihq, nodeAt_fresh_char]
        · simp [insertCode, hb, hl, nodeAt, ihq]
    · cases root with
      | nil =>
        simp [insertCode, hb, nodeAt, nodeAt_nil, ihq, nodeAt_fresh_char]
      | mk c f l r =>
        by_cases hr : r = PyNode.nil
        · subst hr
          simp [insertCode, hb, nodeAt, nodeAt_nil, ihq, nodeAt_fresh_char]
        · simp [insertCode, hb, hr, nodeAt, ihq]

/-- C3 (counterexample): `from_codebook` does not fail on a codebook in
which `"0"` is a strict prefix of `"00"`; it silently builds a tree whose
node at path `0` carries the symbol `a` and also has a child carrying
`b`, and decoding `"00"` on that tree returns `"aa"` instead of any
error. -/
theorem from_codebook_conflict_no_error :
    from_codebook [(('a' : Char), ['0']), ('b', ['0', '0'])] =
      PyNode.mk none 0
        (PyNode.mk (some 'a') 0 (PyNode.mk (some 'b') 0 .nil .nil) .nil) .nil ∧
    decode (from_codebook [(('a' : Char), ['0']), ('b', ['0', '0'])]) ['0', '0'] =
      .ok ['a', 'a'] := by
  decide

/-- C3 (amended): tree reconstruction from a codebook never fails.  For
every starting tree, code and symbol, the `from_codebook` insertion walk
assigns the symbol at the end of the code path, overwriting any previous
marking there while keeping the children that already existed, and it
leaves the marking of every strict-prefix node untouched — so a codebook
whose codes conflict silently corrupts the tree instead of raising
`InvalidCodebookError`. -/
theorem from_codebook_conflict_is_silent {α : Type} [DecidableEq α]
    (root : PyNode α) (code : List Char) (s : α) :
    (nodeAt (insertCode code root s) code).char = some s ∧
    (nodeAt (insertCode code root s) code).left = (nodeAt root code).left ∧
    (nodeAt (insertCode code root s) code).right = (nodeAt root code).right ∧
    ∀ p q, code = p ++ q → q ≠ [] →
      (nodeAt (insertCode code root s) p).char = (nodeAt root p).char := by
  refine ⟨insertCode_char_at code root s,
    (insertCode_children_at code root s).1,
    (insertCode_children_at code root s).2, ?_⟩
  rintro p q rfl hq
  exact insertCode_strict_path_char p q root s hq

/-- Witness for the amended C3 theorem at a concrete conflicting pair:
inserting `b` at `"00"` into the tree holding `a` at `"0"` leaves the
prefix node still marked `a` (and errors nowhere). -/
theorem from_codebook_conflict_is_silent_witness :
    (nodeAt (insertCode ['0', '0'] (from_codebook [(('a' : Char), ['0'])]) 'b') ['0']).char
      = some 'a' := by
  have h := (from_codebook_conflict_is_silent
    (from_codebook [(('a' : Char), ['0'])]) ['0', '0'] 'b').2.2.2 ['0'] ['0'] rfl (by decide)
  rw [h]
  decide

/-- C10: decoding the empty bitstring succeeds on every tree and returns
the empty symbol sequence — the traversal never leaves the root, so no
`IncompleteStreamError` is raised. -/
theorem decode_empty_stream {α : Type} [DecidableEq α] (t : PyNode α) :
    decode t [] = .ok [] := by
  simp [decode, decodeGo]

/-- C1 (failing input): on the single-symbol table `{a: 5}` the tree is a
bare leaf; encoding `"aa"` with its codebook gives `"00"`, but decoding
`"00"` against that same tree raises `ValueError("Invalid encoded
string")` (the `InvalidPathError` case) instead of returning `"aa"`, so
the round-trip contract fails on single-distinct-symbol input. -/
theorem roundtrip_single_symbol_fails :
    from_freq [(('a' : Char), 5)] = some (PyNode.mk (some 'a') 5 .nil .nil) ∧
    encode (generate_codes (PyNode.mk (some 'a') 5 PyNode.nil PyNode.nil)) ['a', 'a'] =
      .ok ['0', '0'] ∧
    decode (PyNode.mk (some 'a') 5 PyNode.nil PyNode.nil) ['0', '0'] =
      .error .invalidPath := by
  decide

/-- C2 (failing input): `build_tree({a: 5})` produces the codebook
`{a: "0"}` and `encode("aaa")` gives `"000"` as the claim states, but
`decode("000")` on that tree fails with the invalid-path `ValueError`
instead of returning `"aaa"`. -/
theorem single_symbol_decode_fails :
    from_freq [(('a' : Char), 5)] = some (PyNode.mk (some 'a') 5 .nil .nil) ∧
    generate_codes (PyNode.mk (some 'a') 5 PyNode.nil PyNode.nil) = [('a', ['0'])] ∧
    encode [(('a' : Char), ['0'])] ['a', 'a', 'a'] = .ok ['0', '0', '0'] ∧
    decode (PyNode.mk (some 'a') 5 PyNode.nil PyNode.nil) ['0', '0', '0'] =
      .error .invalidPath := by
  decide

/-! Facts about `encode` and `decode`. -/

lemma mem_encode_missing {α : Type} [DecidableEq α]
    (book : List (α × List Char)) (text : List α) (c : α) :
    c ∈ (text.filter fun x => (dictGet book x).isNone).dedup ↔
      c ∈ text ∧ dictGet book c = none := by
  rw [List.mem_dedup, List.mem_filter, Option.isNone_iff_eq_none]

lemma decodeGo_walk {α : Type} [DecidableEq α] (root : PyNode α) :
    ∀ (s : List Char) (node : PyNode α) (acc : List α),
      (walk root node s = none → decodeGo root s node acc = .error .invalidPath) ∧
      (∀ n, walk root node s = some n →
        (n = root → ∃ out, decodeGo root s node acc = .ok out) ∧
        (n ≠ root → decodeGo root s node acc = .error .incompleteStream)) := by
  intro s
  induction s with
  | nil =>
    intro node acc
    refine ⟨fun h => by simp [walk] at h, fun n hn => ?_⟩
    simp only [walk, Option.some.injEq] at hn
    subst hn
    constructor
    · intro h
      exact ⟨acc, by simp [decodeGo, h]⟩
    · intro h
      simp [decodeGo, h]
  | cons bit rest ih =>
    intro node acc
    cases hnext : (if bit = '0' then node.left else node.right) with
    | nil =>
      refine ⟨fun _ => ?_, fun n hn => ?_⟩
      · simp [decodeGo, hnext]
      · simp [walk, hnext] at hn
    | mk c f l r =>
      cases c with
      | some ch =>
        have hw : walk root node (bit :: rest) = walk root root rest := by
          simp [walk, hnext]
        have hd : decodeGo root (bit :: rest) node acc =
            decodeGo root rest root (acc ++ [ch]) := by
          simp [decodeGo, hnext]
        rw [hw, hd]
        exact ih root (acc ++ [ch])
      | none =>
        have hw : walk root node (bit :: rest) = walk root (.mk none f l r) rest := by
          simp [walk, hnext]
        have hd : decodeGo root (bit :: rest) node acc =
            decodeGo root rest (.mk none f l r) acc := by
          simp [decodeGo, hnext]
        rw [hw, hd]
        exact ih (.mk none f l r) acc

lemma decodeGo_ne_malformed {α : Type} [DecidableEq α] (root : PyNode α) :
    ∀ (s : List Char) (node : PyNode α) (acc : List α),
      decodeGo root s node acc ≠ .error .malformedBitstream := by
  intro s
  induction s with
  | nil =>
    intro node acc
    by_cases h : node = root <;> simp [decodeGo, h]
  | cons bit rest ih =>
    intro node acc
    cases hnext : (if bit = '0' then node.left else node.right) with
    | nil => simp [decodeGo, hnext]
    | mk c f l r =>
      cases c with
      | some ch => simpa [decodeGo, hnext] using ih root (acc ++ [ch])
      | none => simpa [decodeGo, hnext] using ih (.mk none f l r) acc

lemma all_binary_iff (s : List Char) :
    (s.all fun b => b == '0' || b == '1') = true ↔ ∀ c ∈ s, c = '0' ∨ c = '1' := by
  simp [List.all_eq_true]

/-- C9: `encode` fails, carrying exactly the set of input symbols that are
absent from the codebook, if and only if some input symbol is absent; and
when every input symbol is present the result is the full concatenation,
in input order, of every input symbol's code — never a partial result. -/
theorem encode_spec {α : Type} [DecidableEq α]
    (book : List (α × List Char)) (text : List α) :
    ((∃ c ∈ text, dictGet book c = none) ↔
      ∃ err, encode book text = .error err ∧
        ∀ c, c ∈ err ↔ (c ∈ text ∧ dictGet book c = none))
    ∧ ((∀ c ∈ text, dictGet book c ≠ none) →
        encode book text = .ok (joinCodes book text)) := by
  cases hm : (text.filter fun x => (dictGet book x).isNone).dedup with
  | nil =>
    have hno : ∀ c ∈ text, dictGet book c ≠ none := by
      intro c hc hnone
      have : c ∈ (text.filter fun x => (dictGet book x).isNone).dedup :=
        (mem_encode_missing book text c).mpr ⟨hc, hnone⟩
      simp [hm] at this
    have henc : encode book text = .ok (joinCodes book text) := by
      simp only [encode, hm]
    refine ⟨⟨fun ⟨c, hc, hnone⟩ => absurd hnone (hno c hc), ?_⟩, fun _ => henc⟩
    rintro ⟨err, herr, -⟩
    rw [henc] at herr
    exact Except.noConfusion herr
  | cons m ms =>
    have henc : encode book text = .error (m :: ms) := by
      simp only [encode, hm]
    have hmem : ∀ c, c ∈ m :: ms ↔ (c ∈ text ∧ dictGet book c = none) := by
      intro c
      rw [← hm]
      exact mem_encode_missing book text c
    refine ⟨⟨fun _ => ⟨m :: ms, henc, hmem⟩, fun _ => ?_⟩, fun hall => ?_⟩
    · obtain ⟨hmt, hmn⟩ := (hmem m).mp (List.mem_cons_self m ms)
      exact ⟨m, hmt, hmn⟩
    · obtain ⟨hmt, hmn⟩ := (hmem m).mp (List.mem_cons_self m ms)
      exact absurd hmn (hall m hmt)

/-- Witness instantiating the C9 theorem at a concrete codebook and
input. -/
theorem encode_spec_witness :
    ((∃ c ∈ ['a', 'z'], dictGet [(('a' : Char), ['0'])] c = none) ↔
      ∃ err, encode [(('a' : Char), ['0'])] ['a', 'z'] = .error err ∧
        ∀ c, c ∈ err ↔ (c ∈ ['a', 'z'] ∧ dictGet [(('a' : Char), ['0'])] c = none))
    ∧ ((∀ c ∈ ['a', 'z'], dictGet [(('a' : Char), ['0'])] c ≠ none) →
        encode [(('a' : Char), ['0'])] ['a', 'z'] =
          .ok (joinCodes [(('a' : Char), ['0'])] ['a', 'z'])) :=
  encode_spec [(('a' : Char), ['0'])] ['a', 'z']

/-- C8: `decode` fails with the malformed-bitstream error exactly when the
input holds a character other than `'0'`/`'1'`; on binary input it fails
with the invalid-path error exactly when the traversal would follow a
missing child, and when the traversal finishes at some node it fails with
the incomplete-stream error exactly when that node is not the root (and
succeeds otherwise). -/
theorem decode_error_spec {α : Type} [DecidableEq α] (t : PyNode α) (s : List Char) :
    (decode t s = .error .malformedBitstream ↔ ¬ ∀ c ∈ s, c = '0' ∨ c = '1')
    ∧ ((∀ c ∈ s, c = '0' ∨ c = '1') →
        (decode t s = .error .invalidPath ↔ walk t t s = none))
    ∧ ((∀ c ∈ s, c = '0' ∨ c = '1') → ∀ n, walk t t s = some n →
        (decode t s = .error .incompleteStream ↔ n ≠ t)
        ∧ (n = t → ∃ out, decode t s = .ok out)) := by
  refine ⟨?_, fun hbin => ?_, fun hbin n hn => ?_⟩
  · by_cases hbin : ∀ c ∈ s, c = '0' ∨ c = '1'
    · have : decode t s = decodeGo t s t [] := by
        simp only [decode, if_pos ((all_binary_iff s).mpr hbin)]
      rw [this]
      simp only [iff_false_intro (not_not_intro hbin), iff_false]
      exact decodeGo_ne_malformed t s t []
    · have : decode t s = .error .malformedBitstream := by
        simp only [decode]
        rw [if_neg]
        intro h
        exact hbin ((all_binary_iff s).mp h)
      simp [this, hbin]
  · have hd : decode t s = decodeGo t s t [] := by
      simp only [decode, if_pos ((all_binary_iff s).mpr hbin)]
    rw [hd]
    constructor
    · intro herr
      cases hw : walk t t s with
      | none => rfl
      | some n =>
        by_cases hr : n = t
        · obtain ⟨out, hout⟩ := ((decodeGo_walk t s t []).2 n hw).1 hr
          rw [hout] at herr
          exact Except.noConfusion herr
        · have := ((decodeGo_walk t s t []).2 n hw).2 hr
          rw [this] at herr
          exact absurd (Except.error.inj herr) (by intro h; exact DecodeError.noConfusion h)
    · exact fun hw => (decodeGo_walk t s t []).1 hw
  · have hd : decode t s = decodeGo t s t [] := by
      simp only [decode, if_pos ((all_binary_iff s).mpr hbin)]
    rw [hd]
    constructor
    · constructor
      · intro herr
        intro hr
        obtain ⟨out, hout⟩ := ((decodeGo_walk t s t []).2 n hn).1 hr
        rw [hout] at herr
        exact Except.noConfusion herr
      · exact fun hr => ((decodeGo_walk t s t []).2 n hn).2 hr
    · exact fun hr => ((decodeGo_walk t s t []).2 n hn).1 hr

/-- Witness instantiating the C8 theorem on a concrete two-leaf tree and
the bitstring `"01"`, whose traversal ends back at the root. -/
theorem decode_error_spec_witness :
    (decode (PyNode.mk (α := Char) none 0 (.mk (some 'x') 1 .nil .nil)
        (.mk (some 'y') 2 .nil .nil)) ['0', '1'] = .error .incompleteStream ↔
      PyNode.mk (α := Char) none 0 (.mk (some 'x') 1 .nil .nil)
          (.mk (some 'y') 2 .nil .nil) ≠
        PyNode.mk none 0 (.mk (some 'x') 1 .nil .nil) (.mk (some 'y') 2 .nil .nil))
    ∧ (PyNode.mk (α := Char) none 0 (.mk (some 'x') 1 .nil .nil)
          (.mk (some 'y') 2 .nil .nil) =
        PyNode.mk none 0 (.mk (some 'x') 1 .nil .nil) (.mk (some 'y') 2 .nil .nil) →
      ∃ out, decode (PyNode.mk (α := Char) none 0 (.mk (some 'x') 1 .nil .nil)
        (.mk (some 'y') 2 .nil .nil)) ['0', '1'] = .ok out) :=
  (decode_error_spec _ ['0', '1']).2.2 (by decide) _ (by decide)

/-! Facts about binary formatting (`bitLen`, `bitsW`, `pyBinFormat`). -/

lemma bitLenCore_le_iff : ∀ (f n w : Nat), n ≤ f → (bitLenCore f n ≤ w ↔ n < 2 ^ w) := by
  intro f
  induction f with
  | zero =>
    intro n w hn
    interval_cases n
    simp [bitLenCore, Nat.pos_pow_of_pos]
  | succ f ih =>
    intro n w hn
    by_cases h0 : n = 0
    · subst h0
      simp [bitLenCore, Nat.pos_pow_of_pos]
    · have hstep : bitLenCore (f + 1) n = bitLenCore f (n / 2) + 1 := by
        simp [bitLenCore, h0]
      rw [hstep]
      cases w with
      | zero =>
        simp only [Nat.pow_zero, Nat.lt_one_iff]
        constructor
        · omega
        · intro h; exact absurd h h0
      | succ w =>
        have hhalf : n / 2 ≤ f := by omega
        rw [Nat.succ_le_succ_iff, ih (n / 2) w hhalf]
        rw [Nat.pow_succ]
        exact Nat.div_lt_iff_lt_mul (by norm_num)

lemma bitLen_le_iff (n w : Nat) : bitLen n ≤ w ↔ n < 2 ^ w :=
  bitLenCore_le_iff n n w le_rfl

lemma lt_two_pow_bitLen (n : Nat) : n < 2 ^ bitLen n :=
  (bitLen_le_iff n (bitLen n)).mp le_rfl

lemma bitLen_gt_of_le {n w : Nat} (h : 2 ^ w ≤ n) : w < bitLen n := by
  by_contra hc
  push_neg at hc
  have := (bitLen_le_iff n w).mp hc
  omega

lemma length_bitsW (w v : Nat) : (bitsW w v).length = w := by
  induction w generalizing v with
  | zero => simp [bitsW]
  | succ w ih => simp [bitsW, ih]

lemma bitsW_mod : ∀ (w v : Nat), bitsW w (v % 2 ^ w) = bitsW w v := by
  intro w
  induction w with
  | zero => intro v; simp [bitsW]
  | succ w ih =>
    intro v
    have hdvd : (2 : Nat) ^ w ∣ 2 ^ (w + 1) := pow_dvd_pow 2 (Nat.le_succ w)
    have hhead : v % 2 ^ (w + 1) / 2 ^ w % 2 = v / 2 ^ w % 2 := by
      have := Nat.mod_mul_right_div_self v (2 ^ w) 2
      rw [← Nat.pow_succ] at this
      rw [this]
      omega
    have htail : bitsW w (v % 2 ^ (w + 1)) = bitsW w v := by
      calc bitsW w (v % 2 ^ (w + 1)) = bitsW w (v % 2 ^ (w + 1) % 2 ^ w) := (ih _).symm
        _ = bitsW w (v % 2 ^ w) := by rw [Nat.mod_mod_of_dvd v hdvd]
        _ = bitsW w v := ih v
    simp [bitsW, hhead, htail]

lemma bitVal_bitsW : ∀ (w v : Nat), bitVal (bitsW w v) = v % 2 ^ w := by
  intro w
  induction w with
  | zero => intro v; simp [bitsW, bitVal, Nat.mod_one]
  | succ w ih =>
    intro v
    have hsplit : v % 2 ^ (w + 1) = v / 2 ^ w % 2 * 2 ^ w + v % 2 ^ w := by
      conv_lhs => rw [Nat.pow_succ]
      rw [Nat.mod_mul]
      ring
    simp only [bitsW, bitVal, length_bitsW, ih, hsplit]
    by_cases h : v / 2 ^ w % 2 = 1
    · simp [h]
    · have : v / 2 ^ w % 2 = 0 := by omega
      simp [h, this]

lemma strLt_bitsW_of_lt : ∀ (w v1 v2 : Nat), v1 < v2 → v2 < 2 ^ w →
    strLt (bitsW w v1) (bitsW w v2) = true := by
  intro w
  induction w with
  | zero =>
    intro v1 v2 h1 h2
    omega
  | succ w ih =>
    intro v1 v2 h1 h2
    have hb1 : v1 / 2 ^ w ≤ v2 / 2 ^ w := Nat.div_le_div_right (le_of_lt h1)
    have hb2 : v2 / 2 ^ w < 2 := by
      rw [Nat.div_lt_iff_lt_mul (Nat.pos_pow_of_pos w (by norm_num))]
      rw [Nat.pow_succ] at h2
      omega
    rcases Nat.lt_or_ge (v1 / 2 ^ w) (v2 / 2 ^ w) with hlt | hge
    · have h10 : v1 / 2 ^ w = 0 :=
        Nat.lt_one_iff.mp (Nat.lt_of_lt_of_le hlt (Nat.lt_succ_iff.mp hb2))
      have h21 : v2 / 2 ^ w = 1 := by
        refine Nat.le_antisymm (Nat.lt_succ_iff.mp hb2) ?_
        exact Nat.succ_le_of_lt (Nat.pos_of_ne_zero fun h => by
          rw [h] at hlt
          exact Nat.not_lt_zero _ hlt)
      simp [bitsW, h10, h21, strLt]
    · have heq : v1 / 2 ^ w = v2 / 2 ^ w := le_antisymm hb1 hge
      have hm1 : v1 % 2 ^ w < v2 % 2 ^ w := by
        have e1 := Nat.div_add_mod v1 (2 ^ w)
        have e2 := Nat.div_add_mod v2 (2 ^ w)
        rw [heq] at e1
        revert e1 e2 h1
        generalize 2 ^ w * (v2 / 2 ^ w) = X
        generalize v1 % 2 ^ w = r1
        generalize v2 % 2 ^ w = r2
        intro e1 e2 h1
        omega
      have hm2 : v2 % 2 ^ w < 2 ^ w := Nat.mod_lt _ (Nat.pos_pow_of_pos w (by norm_num))
      have htail := ih (v1 % 2 ^ w) (v2 % 2 ^ w) hm1 hm2
      rw [bitsW_mod, bitsW_mod] at htail
      simp only [bitsW, heq, strLt]
      split
      · simp [htail]
      · simp [htail]

lemma fmtWidth_of_lt {v w : Nat} (h1 : 1 ≤ w) (h2 : v < 2 ^ w) : fmtWidth w v = w := by
  have hb : bitLen v ≤ w := (bitLen_le_iff v w).mpr h2
  show max w (max 1 (bitLen v)) = w
  omega

lemma pyBinFormat_of_lt {v w : Nat} (h1 : 1 ≤ w) (h2 : v < 2 ^ w) :
    pyBinFormat v w = bitsW w v := by
  rw [pyBinFormat, fmtWidth_of_lt h1 h2]

lemma length_pyBinFormat (v w : Nat) : (pyBinFormat v w).length = fmtWidth w v :=
  length_bitsW _ _

lemma length_pyBinFormat_of_lt {v w : Nat} (h1 : 1 ≤ w) (h2 : v < 2 ^ w) :
    (pyBinFormat v w).length = w := by
  rw [length_pyBinFormat, fmtWidth_of_lt h1 h2]

lemma lt_length_pyBinFormat_of_ge {v w : Nat} (h : 2 ^ w ≤ v) :
    w < (pyBinFormat v w).length := by
  rw [length_pyBinFormat]
  have := bitLen_gt_of_le h
  show w < max w (max 1 (bitLen v))
  omega

lemma bitVal_pyBinFormat (v w : Nat) : bitVal (pyBinFormat v w) = v := by
  have hlt : v < 2 ^ fmtWidth w v := by
    have h1 : v < 2 ^ bitLen v := lt_two_pow_bitLen v
    have h2 : bitLen v ≤ fmtWidth w v := by
      show bitLen v ≤ max w (max 1 (bitLen v))
      omega
    exact lt_of_lt_of_le h1 (Nat.pow_le_pow_right (by norm_num) h2)
  rw [pyBinFormat, bitVal_bitsW, Nat.mod_eq_of_lt hlt]

/-! Facts about canonical code generation. -/

instance canonKeyTotal {α : Type} [LinearOrder α] : IsTotal (α × Nat) canonKey := ⟨by
  intro a b
  rcases lt_trichotomy a.2 b.2 with h | h | h
  · exact Or.inl (Or.inl h)
  · rcases le_total a.1 b.1 with h' | h'
    · exact Or.inl (Or.inr ⟨h, h'⟩)
    · exact Or.inr (Or.inr ⟨h.symm, h'⟩)
  · exact Or.inr (Or.inl h)⟩

instance canonKeyTrans {α : Type} [LinearOrder α] : IsTrans (α × Nat) canonKey := ⟨by
  intro a b c hab hbc
  rcases hab with h | ⟨h1, h2⟩ <;> rcases hbc with h' | ⟨h1', h2'⟩
  · exact Or.inl (lt_trans h h')
  · exact Or.inl (h1' ▸ h)
  · exact Or.inl (h1 ▸ h')
  · exact Or.inr ⟨h1.trans h1', le_trans h2 h2'⟩⟩

lemma canonVals_cons {α : Type} (s : α) (len : Nat) (tl : List (α × Nat))
    (code prev : Nat) :
    canonVals ((s, len) :: tl) code prev =
      (s, len, code <<< (len - prev)) ::
        canonVals tl (code <<< (len - prev) + 1) len := rfl

lemma canonVals_map_proj {α : Type} :
    ∀ (rest : List (α × Nat)) (code prev : Nat),
      (canonVals rest code prev).map (fun e => (e.1, e.2.1)) = rest := by
  intro rest
  induction rest with
  | nil => intro code prev; simp [canonVals]
  | cons hd tl ih =>
    obtain ⟨s, len⟩ := hd
    intro code prev
    simp [canonVals, ih]

lemma canonVals_ge {α : Type} :
    ∀ (rest : List (α × Nat)) (code prev : Nat),
      ∀ e ∈ canonVals rest code prev, code ≤ e.2.2 := by
  intro rest
  induction rest with
  | nil => intro code prev e he; simp [canonVals] at he
  | cons hd tl ih =>
    obtain ⟨s, len⟩ := hd
    intro code prev e he
    have hshift : code ≤ code <<< (len - prev) := by
      rw [Nat.shiftLeft_eq]
      exact Nat.le_mul_of_pos_right _ (Nat.pos_pow_of_pos _ (by norm_num))
    simp only [canonVals, List.mem_cons] at he
    rcases he with rfl | he
    · exact hshift
    · have := ih (code <<< (len - prev) + 1) len e he
      omega

lemma canonVals_pairwise {α : Type} :
    ∀ (rest : List (α × Nat)) (code prev : Nat),
      List.Pairwise (fun (a b : α × Nat × Nat) => a.2.2 < b.2.2)
        (canonVals rest code prev) := by
  intro rest
  induction rest with
  | nil => intro code prev; simp [canonVals]
  | cons hd tl ih =>
    obtain ⟨s, len⟩ := hd
    intro code prev
    simp only [canonVals, List.pairwise_cons]
    refine ⟨fun e he => ?_, ih _ _⟩
    have := canonVals_ge tl (code <<< (len - prev) + 1) len e he
    omega

lemma canon_step (code prev len : Nat) (h : prev ≤ len) :
    ((code <<< (len - prev) : Nat) : ℚ) / 2 ^ len = (code : ℚ) / 2 ^ prev := by
  rw [Nat.shiftLeft_eq]
  push_cast
  rw [div_eq_div_iff (by positivity) (by positivity), mul_assoc, ← pow_add,
    Nat.sub_add_cancel h]

lemma canonVals_fit {α : Type} :
    ∀ (rest : List (α × Nat)) (code prev : Nat),
      (∀ p ∈ rest, prev ≤ p.2) →
      List.Pairwise (fun (a b : α × Nat) => a.2 ≤ b.2) rest →
      (code : ℚ) / 2 ^ prev + ((rest.map fun p => ((2:ℚ) ^ p.2)⁻¹).sum) ≤ 1 →
      ∀ e ∈ canonVals rest code prev, e.2.2 < 2 ^ e.2.1 := by
  intro rest
  induction rest with
  | nil => intro code prev _ _ _ e he; simp [canonVals] at he
  | cons hd tl ih =>
    obtain ⟨s, len⟩ := hd
    intro code prev hge hpw hinv e he
    have hprev : prev ≤ len := hge (s, len) (List.mem_cons_self _ _)
    have hstep := canon_step code prev len hprev
    have hsum : ((code <<< (len - prev) : Nat) : ℚ) / 2 ^ len + ((2:ℚ) ^ len)⁻¹ +
        (tl.map fun p => ((2:ℚ) ^ p.2)⁻¹).sum ≤ 1 := by
      rw [hstep]
      simp only [List.map_cons, List.sum_cons] at hinv
      linarith
    have hinv' : ((code <<< (len - prev) + 1 : Nat) : ℚ) / 2 ^ len +
        (tl.map fun p => ((2:ℚ) ^ p.2)⁻¹).sum ≤ 1 := by
      push_cast
      rw [add_div]
      rw [inv_eq_one_div] at hsum
      linarith
    have hlt : (code <<< (len - prev)) < 2 ^ len := by
      have hnn : (0:ℚ) ≤ (tl.map fun p => ((2:ℚ) ^ p.2)⁻¹).sum := by
        apply List.sum_nonneg
        intro x hx
        rcases List.mem_map.mp hx with ⟨p, hp, rfl⟩
        positivity
      have h1 : ((code <<< (len - prev) + 1 : Nat) : ℚ) / 2 ^ len ≤ 1 := by linarith
      rw [div_le_one (by positivity)] at h1
      have h2 : ((code <<< (len - prev) + 1 : Nat) : ℚ) ≤ ((2 ^ len : Nat) : ℚ) := by
        push_cast
        push_cast at h1
        linarith
      have h3 : code <<< (len - prev) + 1 ≤ 2 ^ len := by exact_mod_cast h2
      omega
    simp only [canonVals, List.mem_cons] at he
    rcases he with rfl | he
    · exact hlt
    · refine ih (code <<< (len - prev) + 1) len ?_ hpw.of_cons hinv' e he
      intro p hp
      exact (List.pairwise_cons.mp hpw).1 p hp

lemma canonVals_overflow {α : Type} :
    ∀ (rest : List (α × Nat)) (code prev : Nat), rest ≠ [] →
      (∀ p ∈ rest, prev ≤ p.2) →
      List.Pairwise (fun (a b : α × Nat) => a.2 ≤ b.2) rest →
      1 < (code : ℚ) / 2 ^ prev + ((rest.map fun p => ((2:ℚ) ^ p.2)⁻¹).sum) →
      ∃ e ∈ canonVals rest code prev, 2 ^ e.2.1 ≤ e.2.2 := by
  intro rest
  induction rest with
  | nil => intro code prev hne; exact absurd rfl hne
  | cons hd tl ih =>
    obtain ⟨s, len⟩ := hd
    intro code prev _ hge hpw hinv
    have hprev : prev ≤ len := hge (s, len) (List.mem_cons_self _ _)
    have hstep := canon_step code prev len hprev
    have hsum : 1 < ((code <<< (len - prev) : Nat) : ℚ) / 2 ^ len + ((2:ℚ) ^ len)⁻¹ +
        (tl.map fun p => ((2:ℚ) ^ p.2)⁻¹).sum := by
      rw [hstep]
      simp only [List.map_cons, List.sum_cons] at hinv
      linarith
    have hinv' : 1 < ((code <<< (len - prev) + 1 : Nat) : ℚ) / 2 ^ len +
        (tl.map fun p => ((2:ℚ) ^ p.2)⁻¹).sum := by
      push_cast
      rw [add_div]
      rw [inv_eq_one_div] at hsum
      linarith
    cases tl with
    | nil =>
      refine ⟨(s, len, code <<< (len - prev)), by
        rw [canonVals_cons]; exact List.mem_cons_self _ _, ?_⟩
      simp only
      have h2 : (1 : ℚ) < ((code <<< (len - prev) + 1 : Nat) : ℚ) / 2 ^ len := by
        simpa using hinv'
      rw [lt_div_iff₀ (by positivity)] at h2
      have h3 : 2 ^ len < code <<< (len - prev) + 1 := by
        have : ((2 ^ len : Nat) : ℚ) < ((code <<< (len - prev) + 1 : Nat) : ℚ) := by
          push_cast
          push_cast at h2
          linarith
        exact_mod_cast this
      omega
    | cons x xs =>
      obtain ⟨e, he, hle⟩ := ih (code <<< (len - prev) + 1) len (by simp)
        (fun p hp => (List.pairwise_cons.mp hpw).1 p hp) hpw.of_cons hinv'
      refine ⟨e, ?_, hle⟩
      rw [canonVals_cons]
      exact List.mem_cons_of_mem _ he

lemma dictGet_canonLoop_not_mem {α : Type} [DecidableEq α] :
    ∀ (rest : List (α × Nat)) (code prev : Nat) (book : List (α × List Char)) (s : α),
      s ∉ rest.map Prod.fst →
      dictGet (canonLoop rest code prev book) s = dictGet book s := by
  intro rest
  induction rest with
  | nil => intro code prev book s _; rfl
  | cons hd tl ih =>
    obtain ⟨t, len⟩ := hd
    intro code prev book s hs
    simp only [List.map_cons, List.mem_cons] at hs
    push_neg at hs
    simp only [canonLoop]
    rw [ih _ _ _ _ hs.2, dictGet_dictInsert_ne _ _ _ _ (fun h => hs.1 h.symm)]

lemma dictGet_canonLoop_mem {α : Type} [DecidableEq α] :
    ∀ (rest : List (α × Nat)) (code prev : Nat) (book : List (α × List Char))
      (s : α) (len v : Nat),
      (rest.map Prod.fst).Nodup →
      (s, len, v) ∈ canonVals rest code prev →
      dictGet (canonLoop rest code prev book) s = some (pyBinFormat v len) := by
  intro rest
  induction rest with
  | nil => intro code prev book s len v _ hm; simp [canonVals] at hm
  | cons hd tl ih =>
    obtain ⟨t, tlen⟩ := hd
    intro code prev book s len v hnd hm
    simp only [List.map_cons, List.nodup_cons] at hnd
    simp only [canonVals, List.mem_cons] at hm
    rcases hm with hm | hm
    · rw [Prod.ext_iff] at hm
      obtain ⟨h1, h2⟩ := hm
      rw [Prod.ext_iff] at h2
      obtain ⟨h2, h3⟩ := h2
      simp only at h1 h2 h3
      subst h1; subst h2; subst h3
      simp only [canonLoop]
      rw [dictGet_canonLoop_not_mem _ _ _ _ _ hnd.1, dictGet_dictInsert_self]
    · have hs : s ∈ tl.map Prod.fst := by
        have := canonVals_map_proj tl (code <<< (tlen - prev) + 1) tlen
        have hmem : ((s, len, v).1, (s, len, v).2.1) ∈ tl := by
          rw [← this]
          exact List.mem_map_of_mem _ hm
        exact List.mem_map_of_mem _ hmem
      simp only [canonLoop]
      exact ih _ _ _ _ _ _ hnd.2 hm

lemma mem_pair_sublist {γ : Type} {a b : γ} :
    ∀ {l : List γ}, a ∈ l → b ∈ l → a ≠ b →
      [a, b].Sublist l ∨ [b, a].Sublist l := by
  intro l
  induction l with
  | nil => intro ha; simp at ha
  | cons x xs ih =>
    intro ha hb hab
    rcases List.mem_cons.mp ha with h1 | h1
    · subst h1
      rcases List.mem_cons.mp hb with h2 | h2
      · exact absurd h2.symm hab
      · exact Or.inl (List.Sublist.cons₂ _ (List.singleton_sublist.mpr h2))
    · rcases List.mem_cons.mp hb with h2 | h2
      · subst h2
        exact Or.inr (List.Sublist.cons₂ _ (List.singleton_sublist.mpr h1))
      · exact (ih h1 h2 hab).imp (List.Sublist.cons x) (List.Sublist.cons x)

lemma rel_of_pairwise_sublist {γ : Type} {r : γ → γ → Prop} {a b : γ} {l : List γ}
    (hp : List.Pairwise r l) (hs : [a, b].Sublist l) : r a b := by
  have := hp.sublist hs
  exact (List.pairwise_cons.mp this).1 b (List.mem_cons_self _ _)

lemma sorted_pair_vals {α : Type} [LinearOrder α] [DecidableEq α] (pairs : List (α × Nat))
    (hnd : (pairs.map Prod.fst).Nodup) {p q : α × Nat}
    (hsub : [p, q].Sublist (List.insertionSort canonKey pairs)) :
    ∃ v1 v2, (p.1, p.2, v1) ∈ canonVals (List.insertionSort canonKey pairs) 0 0 ∧
      (q.1, q.2, v2) ∈ canonVals (List.insertionSort canonKey pairs) 0 0 ∧
      v1 < v2 ∧
      dictGet (canonical_huffman_codes pairs) p.1 = some (pyBinFormat v1 p.2) ∧
      dictGet (canonical_huffman_codes pairs) q.1 = some (pyBinFormat v2 q.2) := by
  have hperm : List.Perm (List.insertionSort canonKey pairs) pairs :=
    List.perm_insertionSort _ _
  have hnd' : ((List.insertionSort canonKey pairs).map Prod.fst).Nodup :=
    ((hperm.map Prod.fst).nodup_iff).mpr hnd
  have hproj := canonVals_map_proj (List.insertionSort canonKey pairs) 0 0
  have hsub' : [p, q].Sublist ((canonVals (List.insertionSort canonKey pairs) 0 0).map
      (fun e => (e.1, e.2.1))) := by rw [hproj]; exact hsub
  rcases List.sublist_map_iff.mp hsub' with ⟨l', hl', hmap⟩
  obtain ⟨e1, e2, rfl⟩ : ∃ e1 e2, l' = [e1, e2] := by
    cases l' with
    | nil => simp at hmap
    | cons u l2 =>
      cases l2 with
      | nil => simp at hmap
      | cons v l3 =>
        cases l3 with
        | nil => exact ⟨u, v, rfl⟩
        | cons w l4 => simp at hmap
  simp only [List.map_cons, List.map_nil, List.cons.injEq, and_true] at hmap
  obtain ⟨hp1, hq1⟩ := hmap
  obtain ⟨s1, l1, v1⟩ := e1
  obtain ⟨s2, l2, v2⟩ := e2
  simp only at hp1 hq1
  have he1 : (s1, l1, v1) ∈ canonVals (List.insertionSort canonKey pairs) 0 0 :=
    hl'.subset (List.mem_cons_self _ _)
  have he2 : (s2, l2, v2) ∈ canonVals (List.insertionSort canonKey pairs) 0 0 :=
    hl'.subset (List.mem_cons_of_mem _ (List.mem_cons_self _ _))
  have hvv : v1 < v2 := by
    have h := rel_of_pairwise_sublist
      (canonVals_pairwise (List.insertionSort canonKey pairs) 0 0) hl'
    simpa using h
  have hps1 : p.1 = s1 := by rw [hp1]
  have hps2 : p.2 = l1 := by rw [hp1]
  have hqs1 : q.1 = s2 := by rw [hq1]
  have hqs2 : q.2 = l2 := by rw [hq1]
  refine ⟨v1, v2, ?_, ?_, hvv, ?_, ?_⟩
  · rw [hps1, hps2]; exact he1
  · rw [hqs1, hqs2]; exact he2
  · show dictGet (canonLoop (List.insertionSort canonKey pairs) 0 0 []) p.1 = _
    rw [hps1, hps2]
    exact dictGet_canonLoop_mem _ _ _ _ _ _ _ hnd' he1
  · show dictGet (canonLoop (List.insertionSort canonKey pairs) 0 0 []) q.1 = _
    rw [hqs1, hqs2]
    exact dictGet_canonLoop_mem _ _ _ _ _ _ _ hnd' he2

/-- C4 (counterexample): on the Kraft-violating length assignment
`[(a,1), (b,1), (c,1)]` the canonical-codes routine raises nothing — it
is a total function — and silently assigns `c` the two-bit code `"10"`
although its allotted width is one bit. -/
theorem canonical_overflow_is_silent :
    canonical_huffman_codes [(('a' : Char), 1), ('b', 1), ('c', 1)] =
      [('a', ['0']), ('b', ['1']), ('c', ['1', '0'])] := by
  decide

/-- C4 (amended): the canonical-codes routine performs no overflow
detection; whenever the (distinct-symbol, positive-length) input violates
the Kraft inequality, some symbol is silently assigned a code string with
strictly more bits than its allotted width, instead of any
`LengthAssignmentOverflowError` being raised. -/
theorem canonical_kraft_violation_overflows {α : Type} [LinearOrder α] [DecidableEq α]
    (pairs : List (α × Nat))
    (hnd : (pairs.map Prod.fst).Nodup)
    (_hpos : ∀ p ∈ pairs, 1 ≤ p.2)
    (hkraft : 1 < ((pairs.map fun p => ((2:ℚ) ^ p.2)⁻¹).sum)) :
    ∃ p ∈ pairs, ∃ c, dictGet (canonical_huffman_codes pairs) p.1 = some c ∧
      p.2 < c.length := by
  have hperm : List.Perm (List.insertionSort canonKey pairs) pairs :=
    List.perm_insertionSort _ _
  have hnd' : ((List.insertionSort canonKey pairs).map Prod.fst).Nodup :=
    ((hperm.map Prod.fst).nodup_iff).mpr hnd
  have hsorted : List.Sorted canonKey (List.insertionSort canonKey pairs) :=
    List.sorted_insertionSort canonKey pairs
  have hlenpw : List.Pairwise (fun (a b : α × Nat) => a.2 ≤ b.2)
      (List.insertionSort canonKey pairs) := by
    refine hsorted.imp ?_
    intro a b hab
    rcases hab with h | ⟨h, -⟩
    · exact le_of_lt h
    · exact le_of_eq h
  have hsum : ((List.insertionSort canonKey pairs).map fun p => ((2:ℚ) ^ p.2)⁻¹).sum
      = (pairs.map fun p => ((2:ℚ) ^ p.2)⁻¹).sum := (hperm.map _).sum_eq
  have hne : List.insertionSort canonKey pairs ≠ [] := by
    intro h
    rw [h] at hsum
    simp at hsum
    rw [← hsum] at hkraft
    norm_num at hkraft
  have hinv : 1 < ((0 : Nat) : ℚ) / 2 ^ (0 : Nat) +
      ((List.insertionSort canonKey pairs).map fun p => ((2:ℚ) ^ p.2)⁻¹).sum := by
    rw [hsum]
    simpa using hkraft
  obtain ⟨e, he, hof⟩ := canonVals_overflow (List.insertionSort canonKey pairs) 0 0 hne
    (fun p _ => Nat.zero_le _) hlenpw hinv
  obtain ⟨s, len, v⟩ := e
  have hmem : (s, len) ∈ List.insertionSort canonKey pairs := by
    have hproj := canonVals_map_proj (List.insertionSort canonKey pairs) 0 0
    rw [← hproj]
    exact List.mem_map_of_mem _ he
  refine ⟨(s, len), hperm.subset hmem, pyBinFormat v len, ?_, ?_⟩
  · show dictGet (canonLoop (List.insertionSort canonKey pairs) 0 0 []) s = _
    exact dictGet_canonLoop_mem _ _ _ _ _ _ _ hnd' he
  · exact lt_length_pyBinFormat_of_ge hof

/-- Witness instantiating the amended C4 theorem on three one-bit
lengths, whose Kraft sum is `3/2 > 1`. -/
theorem canonical_kraft_violation_overflows_witness :
    ∃ p ∈ [(('a' : Char), 1), ('b', 1), ('c', 1)], ∃ c,
      dictGet (canonical_huffman_codes [(('a' : Char), 1), ('b', 1), ('c', 1)]) p.1
        = some c ∧ p.2 < c.length :=
  canonical_kraft_violation_overflows [(('a' : Char), 1), ('b', 1), ('c', 1)]
    (by decide) (by decide)
    (by
      simp only [List.map_cons, List.map_nil, List.sum_cons, List.sum_nil]
      norm_num)

/-- C5 (counterexample): with all five input lengths equal to `2` (a
Kraft-violating multiset), the symbol `e`, whose input length is `2`,
is assigned the three-bit code `"100"`, so canonicalization does not
always assign each symbol a code whose length equals its input length. -/
theorem canonical_length_not_preserved :
    (('e', 2) ∈ [(('a' : Char), 2), ('b', 2), ('c', 2), ('d', 2), ('e', 2)]) ∧
    dictGet (canonical_huffman_codes
        [(('a' : Char), 2), ('b', 2), ('c', 2), ('d', 2), ('e', 2)]) 'e' =
      some ['1', '0', '0'] := by
  decide

/-- C5 (amended): for every sequence of (symbol, length) pairs with
distinct symbols and positive lengths whose length multiset satisfies the
Kraft inequality, canonicalization assigns each symbol a code whose
length equals its input length, and the assigned codes sort consistently
with the (length, symbol) order: within one length class the code of the
smaller symbol is lexicographically smaller, and a symbol with a shorter
length receives a numerically smaller, shorter code. -/
theorem canonical_spec {α : Type} [LinearOrder α] [DecidableEq α] (pairs : List (α × Nat))
    (hnd : (pairs.map Prod.fst).Nodup)
    (hpos : ∀ p ∈ pairs, 1 ≤ p.2)
    (hkraft : ((pairs.map fun p => ((2:ℚ) ^ p.2)⁻¹).sum) ≤ 1) :
    (∀ p ∈ pairs, ∃ c, dictGet (canonical_huffman_codes pairs) p.1 = some c ∧
        c.length = p.2)
    ∧ (∀ p ∈ pairs, ∀ q ∈ pairs, p.2 = q.2 → p.1 < q.1 →
        ∃ cp cq, dictGet (canonical_huffman_codes pairs) p.1 = some cp ∧
          dictGet (canonical_huffman_codes pairs) q.1 = some cq ∧
          strLt cp cq = true)
    ∧ (∀ p ∈ pairs, ∀ q ∈ pairs, p.2 < q.2 →
        ∃ cp cq, dictGet (canonical_huffman_codes pairs) p.1 = some cp ∧
          dictGet (canonical_huffman_codes pairs) q.1 = some cq ∧
          bitVal cp < bitVal cq ∧ cp.length < cq.length) := by
  have hperm : List.Perm (List.insertionSort canonKey pairs) pairs :=
    List.perm_insertionSort _ _
  have hnd' : ((List.insertionSort canonKey pairs).map Prod.fst).Nodup :=
    ((hperm.map Prod.fst).nodup_iff).mpr hnd
  have hsorted : List.Sorted canonKey (List.insertionSort canonKey pairs) :=
    List.sorted_insertionSort canonKey pairs
  have hlenpw : List.Pairwise (fun (a b : α × Nat) => a.2 ≤ b.2)
      (List.insertionSort canonKey pairs) := by
    refine hsorted.imp ?_
    intro a b hab
    rcases hab with h | ⟨h, -⟩
    · exact le_of_lt h
    · exact le_of_eq h
  have hsum : ((List.insertionSort canonKey pairs).map fun p => ((2:ℚ) ^ p.2)⁻¹).sum
      = (pairs.map fun p => ((2:ℚ) ^ p.2)⁻¹).sum := (hperm.map _).sum_eq
  have hinv : ((0 : Nat) : ℚ) / 2 ^ (0 : Nat) +
      ((List.insertionSort canonKey pairs).map fun p => ((2:ℚ) ^ p.2)⁻¹).sum ≤ 1 := by
    rw [hsum]
    simpa using hkraft
  have hfit : ∀ e ∈ canonVals (List.insertionSort canonKey pairs) 0 0,
      e.2.2 < 2 ^ e.2.1 :=
    canonVals_fit (List.insertionSort canonKey pairs) 0 0
      (fun p _ => Nat.zero_le _) hlenpw hinv
  refine ⟨?_, ?_, ?_⟩
  · intro p hp
    have hps : p ∈ List.insertionSort canonKey pairs := hperm.mem_iff.mpr hp
    have hproj := canonVals_map_proj (List.insertionSort canonKey pairs) 0 0
    rw [← hproj] at hps
    rcases List.mem_map.mp hps with ⟨e, he, hpe⟩
    obtain ⟨s, l, v⟩ := e
    simp only at hpe
    have h1 : p.1 = s := by rw [← hpe]
    have h2 : p.2 = l := by rw [← hpe]
    refine ⟨pyBinFormat v l, ?_, ?_⟩
    · show dictGet (canonLoop (List.insertionSort canonKey pairs) 0 0 []) p.1 = _
      rw [h1]
      exact dictGet_canonLoop_mem _ _ _ _ _ _ _ hnd' he
    · have hfite : v < 2 ^ l := by simpa using hfit _ he
      rw [h2]
      exact length_pyBinFormat_of_lt (h2 ▸ hpos p hp) hfite
  · intro p hp q hq hlen hlt
    have hne : p ≠ q := by rintro rfl; exact lt_irrefl _ hlt
    have hps : p ∈ List.insertionSort canonKey pairs := hperm.mem_iff.mpr hp
    have hqs : q ∈ List.insertionSort canonKey pairs := hperm.mem_iff.mpr hq
    have hsub : [p, q].Sublist (List.insertionSort canonKey pairs) := by
      rcases mem_pair_sublist hps hqs hne with h | h
      · exact h
      · exfalso
        rcases rel_of_pairwise_sublist hsorted h with h' | ⟨-, h''⟩
        · omega
        · exact absurd h'' (not_le_of_lt hlt)
    obtain ⟨v1, v2, he1, he2, hvv, hg1, hg2⟩ := sorted_pair_vals pairs hnd hsub
    have hfit2 : v2 < 2 ^ q.2 := by simpa using hfit _ he2
    have hfit1 : v1 < 2 ^ p.2 := by simpa using hfit _ he1
    refine ⟨pyBinFormat v1 p.2, pyBinFormat v2 q.2, hg1, hg2, ?_⟩
    rw [pyBinFormat_of_lt (hpos p hp) hfit1, pyBinFormat_of_lt (hpos q hq) hfit2, hlen]
    exact strLt_bitsW_of_lt q.2 v1 v2 hvv hfit2
  · intro p hp q hq hlt
    have hne : p ≠ q := by
      rintro rfl; exact lt_irrefl _ hlt
    have hps : p ∈ List.insertionSort canonKey pairs := hperm.mem_iff.mpr hp
    have hqs : q ∈ List.insertionSort canonKey pairs := hperm.mem_iff.mpr hq
    have hsub : [p, q].Sublist (List.insertionSort canonKey pairs) := by
      rcases mem_pair_sublist hps hqs hne with h | h
      · exact h
      · exfalso
        rcases rel_of_pairwise_sublist hsorted h with h' | ⟨h', -⟩
        · omega
        · omega
    obtain ⟨v1, v2, he1, he2, hvv, hg1, hg2⟩ := sorted_pair_vals pairs hnd hsub
    have hfit2 : v2 < 2 ^ q.2 := by simpa using hfit _ he2
    have hfit1 : v1 < 2 ^ p.2 := by simpa using hfit _ he1
    refine ⟨pyBinFormat v1 p.2, pyBinFormat v2 q.2, hg1, hg2, ?_, ?_⟩
    · rw [bitVal_pyBinFormat, bitVal_pyBinFormat]
      exact hvv
    · rw [length_pyBinFormat_of_lt (hpos p hp) hfit1,
        length_pyBinFormat_of_lt (hpos q hq) hfit2]
      exact hlt

/-- Witness instantiating the amended C5 theorem on the Kraft-exact
length assignment `[(a,1), (b,2), (c,2)]`. -/
theorem canonical_spec_witness :
    (∀ p ∈ [(('a' : Char), 1), ('b', 2), ('c', 2)], ∃ c,
        dictGet (canonical_huffman_codes [(('a' : Char), 1), ('b', 2), ('c', 2)]) p.1
          = some c ∧ c.length = p.2)
    ∧ (∀ p ∈ [(('a' : Char), 1), ('b', 2), ('c', 2)],
        ∀ q ∈ [(('a' : Char), 1), ('b', 2), ('c', 2)], p.2 = q.2 → p.1 < q.1 →
        ∃ cp cq,
          dictGet (canonical_huffman_codes [(('a' : Char), 1), ('b', 2), ('c', 2)]) p.1
            = some cp ∧
          dictGet (canonical_huffman_codes [(('a' : Char), 1), ('b', 2), ('c', 2)]) q.1
            = some cq ∧
          strLt cp cq = true)
    ∧ (∀ p ∈ [(('a' : Char), 1), ('b', 2), ('c', 2)],
        ∀ q ∈ [(('a' : Char), 1), ('b', 2), ('c', 2)], p.2 < q.2 →
        ∃ cp cq,
          dictGet (canonical_huffman_codes [(('a' : Char), 1), ('b', 2), ('c', 2)]) p.1
            = some cp ∧
          dictGet (canonical_huffman_codes [(('a' : Char), 1), ('b', 2), ('c', 2)]) q.1
            = some cq ∧
          bitVal cp < bitVal cq ∧ cp.length < cq.length) :=
  canonical_spec [(('a' : Char), 1), ('b', 2), ('c', 2)]
    (by decide) (by decide)
    (by
      simp only [List.map_cons, List.map_nil, List.sum_cons, List.sum_nil]
      norm_num)

/-! Membership and length facts for the transcribed `heapq` routines. -/

lemma hget_mem {α : Type} {l : List (PyNode α)} {i : Nat} (h : i < l.length) :
    hget l i ∈ l := by
  rw [hget, List.getD_eq_getElem l _ h]
  exact List.getElem_mem h

lemma siftdownLoop_length {α : Type} :
    ∀ (fuel : Nat) (heap : List (PyNode α)) (start pos : Nat) (item : PyNode α),
      (siftdownLoop fuel heap start pos item).length = heap.length := by
  intro fuel
  induction fuel with
  | zero => intro heap start pos item; simp [siftdownLoop]
  | succ fuel ih =>
    intro heap start pos item
    simp only [siftdownLoop]
    split
    · split
      · rw [ih]
        simp
      · simp
    · simp

lemma siftdownLoop_subset {α : Type} :
    ∀ (fuel : Nat) (heap : List (PyNode α)) (start pos : Nat) (item : PyNode α),
      pos < heap.length →
      ∀ x ∈ siftdownLoop fuel heap start pos item, x ∈ heap ∨ x = item := by
  intro fuel
  induction fuel with
  | zero =>
    intro heap start pos item _ x hx
    exact List.mem_or_eq_of_mem_set hx
  | succ fuel ih =>
    intro heap start pos item hpos x hx
    simp only [siftdownLoop] at hx
    by_cases h1 : start < pos
    · rw [if_pos h1] at hx
      by_cases h2 : item.freq < (hget heap ((pos - 1) / 2)).freq
      · rw [if_pos h2] at hx
        have hpar : (pos - 1) / 2 < (heap.set pos (hget heap ((pos - 1) / 2))).length := by
          simp only [List.length_set]
          omega
        rcases ih _ start _ item hpar x hx with hx' | hx'
        · rcases List.mem_or_eq_of_mem_set hx' with h | h
          · exact Or.inl h
          · subst h
            exact Or.inl (hget_mem (by omega))
        · exact Or.inr hx'
      · rw [if_neg h2] at hx
        exact List.mem_or_eq_of_mem_set hx
    · rw [if_neg h1] at hx
      exact List.mem_or_eq_of_mem_set hx

lemma pySiftdown_length {α : Type} (heap : List (PyNode α)) (start pos : Nat) :
    (pySiftdown heap start pos).length = heap.length :=
  siftdownLoop_length pos heap start pos (hget heap pos)

lemma pySiftdown_subset {α : Type} (heap : List (PyNode α)) (start pos : Nat)
    (hpos : pos < heap.length) :
    ∀ x ∈ pySiftdown heap start pos, x ∈ heap := by
  intro x hx
  rcases siftdownLoop_subset pos heap start pos (hget heap pos) hpos x hx with h | h
  · exact h
  · subst h
    exact hget_mem hpos

lemma siftupLoop_spec {α : Type} :
    ∀ (fuel : Nat) (heap : List (PyNode α)) (pos : Nat), pos < heap.length →
      (siftupLoop fuel heap pos).1.length = heap.length ∧
      (siftupLoop fuel heap pos).2 < heap.length ∧
      ∀ x ∈ (siftupLoop fuel heap pos).1, x ∈ heap := by
  intro fuel
  induction fuel with
  | zero =>
    intro heap pos hpos
    exact ⟨rfl, hpos, fun x hx => hx⟩
  | succ fuel ih =>
    intro heap pos hpos
    simp only [siftupLoop]
    by_cases hc : 2 * pos + 1 < heap.length
    · rw [if_pos hc]
      set c := if 2 * pos + 1 + 1 < heap.length ∧
          ¬ (hget heap (2 * pos + 1)).freq < (hget heap (2 * pos + 1 + 1)).freq
        then 2 * pos + 1 + 1 else 2 * pos + 1 with hcdef
      have hclt : c < heap.length := by
        rw [hcdef]
        split
        · omega
        · exact hc
      have hc' : c < (heap.set pos (hget heap c)).length := by
        simp only [List.length_set]
        exact hclt
      obtain ⟨hl, hp, hs⟩ := ih (heap.set pos (hget heap c)) c hc'
      refine ⟨by rw [hl]; simp, by simpa using hp, fun x hx => ?_⟩
      rcases List.mem_or_eq_of_mem_set (hs x hx) with h | h
      · exact h
      · subst h
        exact hget_mem hclt
    · rw [if_neg hc]
      exact ⟨rfl, hpos, fun x hx => hx⟩

lemma pySiftup_length {α : Type} (heap : List (PyNode α)) (pos : Nat)
    (hpos : pos < heap.length) :
    (pySiftup heap pos).length = heap.length := by
  obtain ⟨hl, hp, -⟩ := siftupLoop_spec heap.length heap pos hpos
  rw [pySiftup, pySiftdown_length]
  simp [hl]

lemma pySiftup_subset {α : Type} (heap : List (PyNode α)) (pos : Nat)
    (hpos : pos < heap.length) :
    ∀ x ∈ pySiftup heap pos, x ∈ heap := by
  obtain ⟨hl, hp, hs⟩ := siftupLoop_spec heap.length heap pos hpos
  intro x hx
  have hp' : (siftupLoop heap.length heap pos).2 <
      ((siftupLoop heap.length heap pos).1.set (siftupLoop heap.length heap pos).2
        (hget heap pos)).length := by
    simp only [List.length_set]
    omega
  have hx' := pySiftdown_subset _ pos _ hp' x hx
  rcases List.mem_or_eq_of_mem_set hx' with h | h
  · exact hs x h
  · subst h
    exact hget_mem hpos

lemma pyHeappush_length {α : Type} (heap : List (PyNode α)) (item : PyNode α) :
    (pyHeappush heap item).length = heap.length + 1 := by
  rw [pyHeappush, pySiftdown_length]
  simp

lemma pyHeappush_subset {α : Type} (heap : List (PyNode α)) (item : PyNode α) :
    ∀ x ∈ pyHeappush heap item, x ∈ heap ∨ x = item := by
  intro x hx
  have hlen : (heap ++ [item]).length - 1 < (heap ++ [item]).length := by
    simp
  have := pySiftdown_subset (heap ++ [item]) 0 ((heap ++ [item]).length - 1) hlen x hx
  rcases List.mem_append.mp this with h | h
  · exact Or.inl h
  · simp only [List.mem_singleton] at h
    exact Or.inr h

lemma pyHeappop_fst_mem {α : Type} (heap : List (PyNode α)) (h : 0 < heap.length) :
    (pyHeappop heap).1 ∈ heap := by
  rw [pyHeappop]
  cases hd : heap.dropLast with
  | nil =>
    simp only
    exact hget_mem (by omega)
  | cons r0 rs =>
    simp only
    have : hget (r0 :: rs) 0 ∈ heap.dropLast := by
      rw [hd]
      exact hget_mem (by simp)
    exact (List.dropLast_sublist heap).subset this

lemma pyHeappop_snd_subset {α : Type} (heap : List (PyNode α)) :
    ∀ x ∈ (pyHeappop heap).2, x ∈ heap := by
  intro x hx
  rw [pyHeappop] at hx
  cases hd : heap.dropLast with
  | nil => rw [hd] at hx; simp at hx
  | cons r0 rs =>
    rw [hd] at hx
    simp only at hx
    have h0 : (0 : Nat) < ((r0 :: rs).set 0 (hget heap (heap.length - 1))).length := by
      simp
    have hx' := pySiftup_subset _ 0 h0 x hx
    rcases List.mem_or_eq_of_mem_set hx' with h | h
    · exact (List.dropLast_sublist heap).subset (hd ▸ h)
    · subst h
      have hne : heap ≠ [] := by
        intro hnil
        rw [hnil] at hd
        simp at hd
      exact hget_mem (by
        have : 0 < heap.length := List.length_pos.mpr hne
        omega)

lemma pyHeappop_snd_length {α : Type} (heap : List (PyNode α)) (_h : 0 < heap.length) :
    (pyHeappop heap).2.length = heap.length - 1 := by
  rw [pyHeappop]
  cases hd : heap.dropLast with
  | nil =>
    simp only [List.length_nil]
    have := congrArg List.length hd
    simp only [List.length_dropLast, List.length_nil] at this
    omega
  | cons r0 rs =>
    simp only
    have h0 : (0 : Nat) < ((r0 :: rs).set 0 (hget heap (heap.length - 1))).length := by
      simp
    rw [pySiftup_length _ 0 h0]
    have := congrArg List.length hd
    simp only [List.length_dropLast, List.length_cons] at this
    simp [this]

lemma heapifyLoop_spec {α : Type} :
    ∀ (i : Nat) (heap : List (PyNode α)), i ≤ heap.length →
      (heapifyLoop i heap).length = heap.length ∧
      ∀ x ∈ heapifyLoop i heap, x ∈ heap := by
  intro i
  induction i with
  | zero => intro heap _; exact ⟨rfl, fun x hx => hx⟩
  | succ i ih =>
    intro heap hle
    simp only [heapifyLoop]
    have hi : i < heap.length := by omega
    have hlen := pySiftup_length heap i hi
    obtain ⟨hl, hs⟩ := ih (pySiftup heap i) (by omega)
    exact ⟨by rw [hl, hlen], fun x hx => pySiftup_subset heap i hi x (hs x hx)⟩

lemma pyHeapify_length {α : Type} (x : List (PyNode α)) :
    (pyHeapify x).length = x.length :=
  (heapifyLoop_spec (x.length / 2) x (Nat.div_le_self _ _)).1

lemma pyHeapify_subset {α : Type} (x : List (PyNode α)) :
    ∀ y ∈ pyHeapify x, y ∈ x :=
  (heapifyLoop_spec (x.length / 2) x (Nat.div_le_self _ _)).2

lemma mergeLoop_spec {α : Type} :
    ∀ (fuel : Nat) (heap : List (PyNode α)), 0 < heap.length →
      heap.length ≤ fuel + 1 → (∀ x ∈ heap, Proper x) →
      (mergeLoop fuel heap).length = 1 ∧ ∀ x ∈ mergeLoop fuel heap, Proper x := by
  intro fuel
  induction fuel with
  | zero =>
    intro heap h1 h2 hp
    simp only [mergeLoop]
    exact ⟨by omega, hp⟩
  | succ fuel ih =>
    intro heap h1 h2 hp
    simp only [mergeLoop]
    by_cases hbig : 1 < heap.length
    · rw [if_pos hbig]
      have hpop1m : (pyHeappop heap).1 ∈ heap := pyHeappop_fst_mem heap (by omega)
      have hpop1l : (pyHeappop heap).2.length = heap.length - 1 :=
        pyHeappop_snd_length heap (by omega)
      have hpop2m : (pyHeappop (pyHeappop heap).2).1 ∈ (pyHeappop heap).2 :=
        pyHeappop_fst_mem _ (by omega)
      have hpop2l : (pyHeappop (pyHeappop heap).2).2.length = heap.length - 2 := by
        rw [pyHeappop_snd_length _ (by omega), hpop1l]
        omega
      have hmerged : Proper (PyNode.mk (α := α) none
          ((pyHeappop heap).1.freq + (pyHeappop (pyHeappop heap).2).1.freq)
          (pyHeappop heap).1 (pyHeappop (pyHeappop heap).2).1) :=
        Proper.node _ (hp _ hpop1m) (hp _ (pyHeappop_snd_subset heap _ hpop2m))
      have hpushl : (pyHeappush (pyHeappop (pyHeappop heap).2).2
          (PyNode.mk none
            ((pyHeappop heap).1.freq + (pyHeappop (pyHeappop heap).2).1.freq)
            (pyHeappop heap).1 (pyHeappop (pyHeappop heap).2).1)).length
          = heap.length - 1 := by
        rw [pyHeappush_length, hpop2l]
        omega
      refine ih _ (by rw [hpushl]; omega) (by rw [hpushl]; omega) ?_
      intro x hx
      rcases pyHeappush_subset _ _ x hx with h | h
      · exact hp _ (pyHeappop_snd_subset heap _ (pyHeappop_snd_subset _ _ h))
      · subst h
        exact hmerged
    · rw [if_neg hbig]
      exact ⟨by omega, hp⟩

lemma from_freq_some_proper {α : Type} (fd : List (α × Nat)) (h : fd ≠ []) :
    ∃ t, from_freq fd = some t ∧ Proper t := by
  cases fd with
  | nil => exact absurd rfl h
  | cons f0 fds =>
    have hlen : (pyHeapify ((f0 :: fds).map fun p =>
        PyNode.mk (some p.1) p.2 PyNode.nil PyNode.nil)).length = fds.length + 1 := by
      rw [pyHeapify_length]
      simp
    have hprop : ∀ x ∈ pyHeapify ((f0 :: fds).map fun p =>
        PyNode.mk (some p.1) p.2 PyNode.nil PyNode.nil), Proper x := by
      intro x hx
      have := pyHeapify_subset _ x hx
      rcases List.mem_map.mp this with ⟨p, -, rfl⟩
      exact Proper.leaf p.1 p.2
    obtain ⟨hfinal, hfprop⟩ := mergeLoop_spec
      (pyHeapify ((f0 :: fds).map fun p =>
        PyNode.mk (some p.1) p.2 PyNode.nil PyNode.nil)).length
      (pyHeapify ((f0 :: fds).map fun p =>
        PyNode.mk (some p.1) p.2 PyNode.nil PyNode.nil))
      (by rw [hlen]; omega) (by omega) hprop
    have h0 : 0 < (mergeLoop
        (pyHeapify ((f0 :: fds).map fun p =>
          PyNode.mk (some p.1) p.2 PyNode.nil PyNode.nil)).length
        (pyHeapify ((f0 :: fds).map fun p =>
          PyNode.mk (some p.1) p.2 PyNode.nil PyNode.nil))).length := by
      rw [hfinal]
      omega
    exact ⟨_, rfl, hfprop _ (hget_mem h0)⟩

/-! Facts about `_build_codes` and root-to-leaf paths. -/

lemma buildCodes_sound {α : Type} [DecidableEq α] :
    ∀ (t : PyNode α) (pre : List Char) (book : List (α × List Char))
      (e : α × List Char), e ∈ buildCodes t pre book →
      e ∈ book ∨ ∃ p, e.2 = pre ++ p ∧ PathTo t p e.1 := by
  intro t
  induction t with
  | nil => intro pre book e he; exact Or.inl he
  | mk c f l r ihl ihr =>
    intro pre book e he
    cases c with
    | some c0 =>
      rcases mem_dictInsert he with h | h
      · exact Or.inl h
      · subst h
        exact Or.inr ⟨[], by simp, PathTo.here⟩
    | none =>
      rcases ihr (pre ++ ['1']) _ e he with h | ⟨p, hp, hpath⟩
      · rcases ihl (pre ++ ['0']) _ e h with h' | ⟨p, hp, hpath⟩
        · exact Or.inl h'
        · refine Or.inr ⟨'0' :: p, ?_, PathTo.stepL hpath⟩
          rw [hp, List.append_assoc]
          rfl
      · refine Or.inr ⟨'1' :: p, ?_, PathTo.stepR hpath⟩
        rw [hp, List.append_assoc]
        rfl

lemma buildCodes_keys_nodup {α : Type} [DecidableEq α] :
    ∀ (t : PyNode α) (pre : List Char) (book : List (α × List Char)),
      (book.map Prod.fst).Nodup → ((buildCodes t pre book).map Prod.fst).Nodup := by
  intro t
  induction t with
  | nil => intro pre book h; exact h
  | mk c f l r ihl ihr =>
    intro pre book h
    cases c with
    | some c0 => exact keys_dictInsert_nodup c0 pre h
    | none => exact ihr (pre ++ ['1']) _ (ihl (pre ++ ['0']) book h)

lemma pathTo_ne_nil {α : Type} {t : PyNode α} {p : List Char} {c : α}
    (hpath : PathTo t p c) (hchar : t.char = none) : p ≠ [] := by
  cases hpath with
  | here => simp at hchar
  | stepL h => simp
  | stepR h => simp

lemma pathTo_binary {α : Type} {t : PyNode α} {p : List Char} {c : α}
    (hpath : PathTo t p c) : ∀ ch ∈ p, ch = '0' ∨ ch = '1' := by
  induction hpath with
  | here => intro ch h; simp at h
  | stepL h ih =>
    intro ch hch
    rcases List.mem_cons.mp hch with rfl | hch
    · exact Or.inl rfl
    · exact ih ch hch
  | stepR h ih =>
    intro ch hch
    rcases List.mem_cons.mp hch with rfl | hch
    · exact Or.inr rfl
    · exact ih ch hch

lemma pathTo_unique_sym {α : Type} :
    ∀ {t : PyNode α} {p : List Char} {a b : α},
      PathTo t p a → PathTo t p b → a = b := by
  intro t p a b ha
  induction ha with
  | here =>
    intro hb
    cases hb with
    | here => rfl
  | stepL h ih =>
    intro hb
    cases hb with
    | stepL h' => exact ih h'
  | stepR h ih =>
    intro hb
    cases hb with
    | stepR h' => exact ih h'

lemma pathTo_no_extension {α : Type} :
    ∀ {t : PyNode α} {p q : List Char} {a b : α},
      Proper t → PathTo t p a → PathTo t q b → (∃ s, p ++ s = q) → p = q := by
  intro t p q a b hproper hpa
  induction hpa generalizing q with
  | here =>
    intro hqb hpre
    rename_i c0 f0 l0 r0
    cases hqb with
    | here => rfl
  | stepL h ih =>
    intro hqb hpre
    obtain ⟨s, hs⟩ := hpre
    subst hs
    cases hqb with
    | stepL h' =>
      cases hproper with
      | node f hl hr =>
        have := ih hl h' ⟨s, rfl⟩
        exact congrArg (List.cons '0') this
  | stepR h ih =>
    intro hqb hpre
    obtain ⟨s, hs⟩ := hpre
    subst hs
    cases hqb with
    | stepR h' =>
      cases hproper with
      | node f hl hr =>
        have := ih hr h' ⟨s, rfl⟩
        exact congrArg (List.cons '1') this

/-- C6: for every non-empty frequency table, the codebook derived from
the tree `from_freq` builds is a valid prefix code: every code is a
non-empty binary string and no code extends (has as a prefix) another
entry's code. -/
theorem from_freq_prefix_code {α : Type} [DecidableEq α]
    (fd : List (α × Nat)) (h : fd ≠ []) :
    ∃ t, from_freq fd = some t ∧
      (∀ e ∈ generate_codes t, e.2 ≠ [] ∧ ∀ ch ∈ e.2, ch = '0' ∨ ch = '1') ∧
      (generate_codes t).Pairwise
        (fun a b => (¬ ∃ s, a.2 ++ s = b.2) ∧ ¬ ∃ s, b.2 ++ s = a.2) := by
  obtain ⟨t, hsome, hproper⟩ := from_freq_some_proper fd h
  refine ⟨t, hsome, ?_, ?_⟩
  · intro e he
    cases hchar : t.char with
    | some c0 =>
      rw [generate_codes, hchar] at he
      simp only [List.mem_singleton] at he
      subst he
      refine ⟨by simp, ?_⟩
      intro ch hch
      simp only [List.mem_singleton] at hch
      exact Or.inl hch
    | none =>
      rw [generate_codes, hchar] at he
      rcases buildCodes_sound t [] [] e he with h' | ⟨p, hp, hpath⟩
      · simp at h'
      · simp only [List.nil_append] at hp
        subst hp
        exact ⟨pathTo_ne_nil hpath hchar, pathTo_binary hpath⟩
  · cases hchar : t.char with
    | some c0 =>
      rw [generate_codes, hchar]
      simp
    | none =>
      rw [generate_codes, hchar]
      have hnd : ((buildCodes t [] []).map Prod.fst).Nodup :=
        buildCodes_keys_nodup t [] [] (by simp)
      have hpw : (buildCodes t [] []).Pairwise (fun a b => a.1 ≠ b.1) :=
        (List.pairwise_map.mp hnd)
      refine hpw.imp_of_mem ?_
      intro a b ha hb hne
      rcases buildCodes_sound t [] [] a ha with h' | ⟨pa, hpa, hpatha⟩
      · simp at h'
      rcases buildCodes_sound t [] [] b hb with h' | ⟨pb, hpb, hpathb⟩
      · simp at h'
      simp only [List.nil_append] at hpa hpb
      subst hpa
      subst hpb
      constructor
      · rintro hext
        have heq := pathTo_no_extension hproper hpatha hpathb hext
        have hb' : PathTo t a.2 b.1 := by rw [heq]; exact hpathb
        exact hne (pathTo_unique_sym hpatha hb')
      · rintro hext
        have heq := pathTo_no_extension hproper hpathb hpatha hext
        have hb' : PathTo t a.2 b.1 := by rw [← heq]; exact hpathb
        exact hne (pathTo_unique_sym hpatha hb')

/-- Witness instantiating the C6 theorem on a two-symbol table. -/
theorem from_freq_prefix_code_witness :
    ∃ t, from_freq [(('a' : Char), 1), ('b', 2)] = some t ∧
      (∀ e ∈ generate_codes t, e.2 ≠ [] ∧ ∀ ch ∈ e.2, ch = '0' ∨ ch = '1') ∧
      (generate_codes t).Pairwise
        (fun a b => (¬ ∃ s, a.2 ++ s = b.2) ∧ ¬ ∃ s, b.2 ++ s = a.2) :=
  from_freq_prefix_code [(('a' : Char), 1), ('b', 2)] (by decide)

/-! The round trip for trees with an internal root (supporting result). -/

lemma gen_codes_pathTo {α : Type} [DecidableEq α] {t : PyNode α}
    (hchar : t.char = none) {c : α} {p : List Char}
    (h : dictGet (generate_codes t) c = some p) : PathTo t p c := by
  have hmem := dictGet_mem h
  rw [generate_codes, hchar] at hmem
  rcases buildCodes_sound t [] [] (c, p) hmem with h' | ⟨p', hp', hpath⟩
  · simp at h'
  · simp only [List.nil_append] at hp'
    exact hp' ▸ hpath

lemma decodeGo_path {α : Type} [DecidableEq α] (root : PyNode α) :
    ∀ {u : PyNode α} {p : List Char} {c : α}, PathTo u p c → Proper u →
      u.char = none → ∀ (rest : List Char) (acc : List α),
      decodeGo root (p ++ rest) u acc = decodeGo root rest root (acc ++ [c]) := by
  intro u p c hpath
  induction hpath with
  | here =>
    intro _ hchar
    simp at hchar
  | stepL hsub ih =>
    intro hproper hchar rest acc
    cases hproper with
    | node f hl hr =>
      cases hl with
      | leaf c1 f1 =>
        cases hsub with
        | here => simp [decodeGo]
      | node f1 hl1 hr1 =>
        have hne := pathTo_ne_nil hsub (by simp)
        simp only [List.cons_append, decodeGo, if_pos rfl, PyNode.left_mk]
        exact ih (Proper.node f1 hl1 hr1) (by simp) rest acc
  | stepR hsub ih =>
    intro hproper hchar rest acc
    cases hproper with
    | node f hl hr =>
      cases hr with
      | leaf c1 f1 =>
        cases hsub with
        | here => simp [decodeGo]
      | node f1 hl1 hr1 =>
        have hne := pathTo_ne_nil hsub (by simp)
        simp only [List.cons_append, decodeGo, PyNode.right_mk]
        rw [if_neg (by decide : ¬ ('1' : Char) = '0')]
        exact ih (Proper.node f1 hl1 hr1) (by simp) rest acc

lemma joinCodes_binary {α : Type} [DecidableEq α] {t : PyNode α}
    (hchar : t.char = none) :
    ∀ (text : List α), (∀ c ∈ text, (dictGet (generate_codes t) c).isSome) →
      ∀ ch ∈ joinCodes (generate_codes t) text, ch = '0' ∨ ch = '1' := by
  intro text
  induction text with
  | nil => intro _ ch hch; simp [joinCodes] at hch
  | cons c cs ih =>
    intro hcov ch hch
    obtain ⟨p, hp⟩ := Option.isSome_iff_exists.mp (hcov c (List.mem_cons_self _ _))
    simp only [joinCodes, hp, Option.getD_some] at hch
    rcases List.mem_append.mp hch with h | h
    · exact pathTo_binary (gen_codes_pathTo hchar hp) ch h
    · exact ih (fun x hx => hcov x (List.mem_cons_of_mem _ hx)) ch h

lemma decodeGo_joinCodes {α : Type} [DecidableEq α] {t : PyNode α}
    (hproper : Proper t) (hchar : t.char = none) :
    ∀ (text acc : List α),
      (∀ c ∈ text, (dictGet (generate_codes t) c).isSome) →
      decodeGo t (joinCodes (generate_codes t) text) t acc = .ok (acc ++ text) := by
  intro text
  induction text with
  | nil => intro acc _; simp [joinCodes, decodeGo]
  | cons c cs ih =>
    intro acc hcov
    obtain ⟨p, hp⟩ := Option.isSome_iff_exists.mp (hcov c (List.mem_cons_self _ _))
    simp only [joinCodes, hp, Option.getD_some]
    rw [decodeGo_path t (gen_codes_pathTo hchar hp) hproper hchar]
    rw [ih (acc ++ [c]) (fun x hx => hcov x (List.mem_cons_of_mem _ hx))]
    simp

/-- For every frequency table whose tree has an internal root (at least
two distinct symbols) and every symbol sequence drawn from the codebook's
domain, encode succeeds with the concatenation of the codes and decode
inverts it.  Together with `roundtrip_single_symbol_fails` this isolates
the round-trip failure to the single-leaf tree. -/
theorem roundtrip_from_freq {α : Type} [DecidableEq α]
    (fd : List (α × Nat)) (hne : fd ≠ []) (t : PyNode α)
    (ht : from_freq fd = some t) (hchar : t.char = none) (text : List α)
    (hcov : ∀ c ∈ text, (dictGet (generate_codes t) c).isSome) :
    encode (generate_codes t) text = .ok (joinCodes (generate_codes t) text) ∧
    decode t (joinCodes (generate_codes t) text) = .ok text := by
  obtain ⟨t', ht', hproper⟩ := from_freq_some_proper fd hne
  rw [ht] at ht'
  have : t = t' := Option.some.inj ht'
  subst this
  constructor
  · have hmiss : (text.filter fun c => (dictGet (generate_codes t) c).isNone) = [] := by
      rw [List.filter_eq_nil_iff]
      intro c hc
      simp only [Option.isNone_iff_eq_none]
      intro hnone
      have := hcov c hc
      rw [hnone] at this
      simp at this
    simp [encode, hmiss]
  · rw [decode, if_pos]
    · have := decodeGo_joinCodes hproper hchar text [] hcov
      simpa using this
    · exact (all_binary_iff _).mpr (joinCodes_binary hchar text hcov)

/-- Witness instantiating `roundtrip_from_freq` on a two-symbol table. -/
theorem roundtrip_from_freq_witness :
    encode (generate_codes (PyNode.mk (α := Char) none 3
        (.mk (some 'a') 1 .nil .nil) (.mk (some 'b') 2 .nil .nil)))
      ['a', 'b', 'a'] =
      .ok (joinCodes (generate_codes (PyNode.mk (α := Char) none 3
        (.mk (some 'a') 1 .nil .nil) (.mk (some 'b') 2 .nil .nil))) ['a', 'b', 'a']) ∧
    decode (PyNode.mk (α := Char) none 3
        (.mk (some 'a') 1 .nil .nil) (.mk (some 'b') 2 .nil .nil))
      (joinCodes (generate_codes (PyNode.mk (α := Char) none 3
        (.mk (some 'a') 1 .nil .nil) (.mk (some 'b') 2 .nil .nil))) ['a', 'b', 'a']) =
      .ok ['a', 'b', 'a'] :=
  roundtrip_from_freq [(('a' : Char), 1), ('b', 2)] (by decide) _ (by decide) (by decide)
    ['a', 'b', 'a'] (by decide)

/-- The `ex2` fixture: the weighted total code length of the tree built
from the Huffman-paper frequency table is exactly 342. -/
theorem ex2Total_eq : ex2Total = 342 := by decide

/-! Heap operations permute the heap: `_siftdown` and `_siftup` only move
values between positions, `heappush` adds its item, `heappop` removes the
returned one. -/

lemma hget_nil {α : Type} (i : Nat) : hget ([] : List (PyNode α)) i = .nil := by
  simp [hget]

lemma hget_cons_zero {α : Type} (x : PyNode α) (l : List (PyNode α)) :
    hget (x :: l) 0 = x := rfl

lemma hget_cons_succ {α : Type} (x : PyNode α) (l : List (PyNode α)) (j : Nat) :
    hget (x :: l) (j + 1) = hget l j := by
  simp [hget]

lemma hget_eq_getElem {α : Type} {l : List (PyNode α)} {i : Nat} (h : i < l.length) :
    hget l i = l[i] :=
  List.getD_eq_getElem l _ h

lemma hget_set_ne {α : Type} :
    ∀ (l : List (PyNode α)) (i j : Nat) (v : PyNode α), i ≠ j →
      hget (l.set i v) j = hget l j := by
  intro l
  induction l with
  | nil => intro i j v _; simp [List.set]
  | cons a l ih =>
    intro i j v hne
    cases i with
    | zero =>
      cases j with
      | zero => exact absurd rfl hne
      | succ j' => rw [List.set_cons_zero, hget_cons_succ, hget_cons_succ]
    | succ i' =>
      cases j with
      | zero => rw [List.set_cons_succ, hget_cons_zero, hget_cons_zero]
      | succ j' =>
        rw [List.set_cons_succ, hget_cons_succ, hget_cons_succ]
        exact ih i' j' v (by omega)

lemma hget_set_self {α : Type} :
    ∀ (l : List (PyNode α)) (i : Nat) (v : PyNode α), i < l.length →
      hget (l.set i v) i = v := by
  intro l
  induction l with
  | nil => intro i v h; simp at h
  | cons a l ih =>
    intro i v h
    cases i with
    | zero => rw [List.set_cons_zero, hget_cons_zero]
    | succ i' =>
      rw [List.set_cons_succ, hget_cons_succ]
      exact ih i' v (by simpa using h)

lemma set_hget_self {α : Type} :
    ∀ (l : List (PyNode α)) (i : Nat), i < l.length → l.set i (hget l i) = l := by
  intro l
  induction l with
  | nil => intro i h; simp at h
  | cons a l ih =>
    intro i h
    cases i with
    | zero => rw [hget_cons_zero, List.set_cons_zero]
    | succ i' =>
      rw [hget_cons_succ, List.set_cons_succ, ih i' (by simpa using h)]

lemma perm_get_cons_set {α : Type} :
    ∀ (xs : List (PyNode α)) (j : Nat) (y : PyNode α), j < xs.length →
      List.Perm (hget xs j :: xs.set j y) (y :: xs) := by
  intro xs
  induction xs with
  | nil => intro j y h; simp at h
  | cons z zs ih =>
    intro j y h
    cases j with
    | zero =>
      rw [hget_cons_zero, List.set_cons_zero]
      exact List.Perm.swap y z zs
    | succ j' =>
      rw [hget_cons_succ, List.set_cons_succ]
      refine (List.Perm.swap z (hget zs j') _).trans ?_
      exact ((ih j' y (by simpa using h)).cons z).trans (List.Perm.swap y z zs)

lemma perm_cons_set_swap {α : Type} :
    ∀ (xs : List (PyNode α)) (i : Nat) (x y : PyNode α), i < xs.length →
      List.Perm (y :: xs.set i x) (x :: xs.set i y) := by
  intro xs
  induction xs with
  | nil => intro i x y h; simp at h
  | cons z zs ih =>
    intro i x y h
    cases i with
    | zero =>
      rw [List.set_cons_zero, List.set_cons_zero]
      exact List.Perm.swap x y zs
    | succ i' =>
      rw [List.set_cons_succ, List.set_cons_succ]
      refine (List.Perm.swap z y _).trans ?_
      exact ((ih i' x y (by simpa using h)).cons z).trans (List.Perm.swap x z _)

lemma perm_set_transpose {α : Type} :
    ∀ (l : List (PyNode α)) (i j : Nat) (x : PyNode α), i ≠ j →
      i < l.length → j < l.length →
      List.Perm ((l.set i (hget l j)).set j x) (l.set i x) := by
  intro l
  induction l with
  | nil => intro i j x _ hi _; simp at hi
  | cons a l ih =>
    intro i j x hne hi hj
    cases i with
    | zero =>
      cases j with
      | zero => exact absurd rfl hne
      | succ j' =>
        rw [hget_cons_succ, List.set_cons_zero, List.set_cons_succ, List.set_cons_zero]
        exact perm_get_cons_set l j' x (by simpa using hj)
    | succ i' =>
      cases j with
      | zero =>
        rw [hget_cons_zero, List.set_cons_succ, List.set_cons_zero, List.set_cons_succ]
        exact perm_cons_set_swap l i' a x (by simpa using hi)
      | succ j' =>
        rw [hget_cons_succ, List.set_cons_succ, List.set_cons_succ, List.set_cons_succ]
        exact (ih i' j' x (by omega) (by simpa using hi) (by simpa using hj)).cons a

lemma siftdownLoop_perm {α : Type} :
    ∀ (fuel : Nat) (heap : List (PyNode α)) (start pos : Nat) (item : PyNode α),
      pos < heap.length →
      List.Perm (siftdownLoop fuel heap start pos item) (heap.set pos item) := by
  intro fuel
  induction fuel with
  | zero => intro heap start pos item _; simp [siftdownLoop]
  | succ fuel ih =>
    intro heap start pos item hpos
    simp only [siftdownLoop]
    by_cases h1 : start < pos
    · rw [if_pos h1]
      by_cases h2 : item.freq < (hget heap ((pos - 1) / 2)).freq
      · rw [if_pos h2]
        have hpar : (pos - 1) / 2 < (heap.set pos (hget heap ((pos - 1) / 2))).length := by
          simp only [List.length_set]; omega
        have hperm := ih (heap.set pos (hget heap ((pos - 1) / 2))) start ((pos - 1) / 2)
          item hpar
        refine hperm.trans ?_
        exact perm_set_transpose heap pos ((pos - 1) / 2) item (by omega) hpos (by omega)
      · rw [if_neg h2]
    · rw [if_neg h1]

lemma pySiftdown_perm {α : Type} (heap : List (PyNode α)) (start pos : Nat)
    (hpos : pos < heap.length) :
    List.Perm (pySiftdown heap start pos) heap := by
  rw [pySiftdown]
  have := siftdownLoop_perm pos heap start pos (hget heap pos) hpos
  rwa [set_hget_self heap pos hpos] at this

lemma siftupLoop_perm {α : Type} :
    ∀ (fuel : Nat) (heap : List (PyNode α)) (pos : Nat) (x : PyNode α),
      pos < heap.length →
      List.Perm ((siftupLoop fuel heap pos).1.set (siftupLoop fuel heap pos).2 x)
        (heap.set pos x) := by
  intro fuel
  induction fuel with
  | zero => intro heap pos x _; simp [siftupLoop]
  | succ fuel ih =>
    intro heap pos x hpos
    simp only [siftupLoop]
    by_cases hc : 2 * pos + 1 < heap.length
    · rw [if_pos hc]
      set c := if 2 * pos + 1 + 1 < heap.length ∧
          ¬ (hget heap (2 * pos + 1)).freq < (hget heap (2 * pos + 1 + 1)).freq
        then 2 * pos + 1 + 1 else 2 * pos + 1 with hcdef
      have hclt : c < heap.length := by
        rw [hcdef]; split
        · omega
        · exact hc
      have hcpos : pos < c := by
        rw [hcdef]; split <;> omega
      have hc' : c < (heap.set pos (hget heap c)).length := by
        simp only [List.length_set]; exact hclt
      have hperm := ih (heap.set pos (hget heap c)) c x hc'
      refine hperm.trans ?_
      exact perm_set_transpose heap pos c x (by omega) hpos hclt
    · rw [if_neg hc]

lemma pySiftup_perm {α : Type} (heap : List (PyNode α)) (pos : Nat)
    (hpos : pos < heap.length) :
    List.Perm (pySiftup heap pos) heap := by
  rw [pySiftup]
  obtain ⟨hl, hp, -⟩ := siftupLoop_spec heap.length heap pos hpos
  have hp' : (siftupLoop heap.length heap pos).2 <
      ((siftupLoop heap.length heap pos).1.set (siftupLoop heap.length heap pos).2
        (hget heap pos)).length := by
    simp only [List.length_set]; omega
  refine (pySiftdown_perm _ pos _ hp').trans ?_
  have := siftupLoop_perm heap.length heap pos (hget heap pos) hpos
  rwa [set_hget_self heap pos hpos] at this

lemma pyHeappush_perm {α : Type} (heap : List (PyNode α)) (item : PyNode α) :
    List.Perm (pyHeappush heap item) (item :: heap) := by
  rw [pyHeappush]
  have hlen : (heap ++ [item]).length - 1 < (heap ++ [item]).length := by simp
  refine (pySiftdown_perm (heap ++ [item]) 0 _ hlen).trans ?_
  exact List.perm_append_singleton item heap

lemma hget_last {α : Type} (heap : List (PyNode α)) (h : heap ≠ []) :
    hget heap (heap.length - 1) = heap.getLast h := by
  have hlt : heap.length - 1 < heap.length := by
    have : 0 < heap.length := List.length_pos.mpr h
    omega
  rw [hget_eq_getElem hlt, List.getLast_eq_getElem]

lemma pyHeappop_perm {α : Type} (heap : List (PyNode α)) (h : 0 < heap.length) :
    List.Perm heap ((pyHeappop heap).1 :: (pyHeappop heap).2) := by
  have hne : heap ≠ [] := List.length_pos.mp h
  rw [pyHeappop]
  cases hd : heap.dropLast with
  | nil =>
    simp only
    cases heap with
    | nil => exact absurd rfl hne
    | cons a as =>
      cases as with
      | nil => rfl
      | cons b bs => simp [List.dropLast] at hd
  | cons r0 rs =>
    simp only
    have hdec : heap = (r0 :: rs) ++ [hget heap (heap.length - 1)] := by
      rw [hget_last heap hne, ← hd, List.dropLast_append_getLast hne]
    have h0 : (0 : Nat) < ((r0 :: rs).set 0 (hget heap (heap.length - 1))).length := by simp
    have hsift := pySiftup_perm ((r0 :: rs).set 0 (hget heap (heap.length - 1))) 0 h0
    rw [List.set_cons_zero] at hsift
    rw [hget_cons_zero, List.set_cons_zero]
    have step1 : List.Perm heap (hget heap (heap.length - 1) :: r0 :: rs) := by
      conv_lhs => rw [hdec]
      exact List.perm_append_singleton _ _
    refine (step1.trans (List.Perm.swap r0 _ rs)).trans ?_
    exact (hsift.symm.cons r0)

lemma heapifyLoop_perm {α : Type} :
    ∀ (i : Nat) (heap : List (PyNode α)), i ≤ heap.length →
      List.Perm (heapifyLoop i heap) heap := by
  intro i
  induction i with
  | zero => intro heap _; simp [heapifyLoop]
  | succ i ih =>
    intro heap hle
    simp only [heapifyLoop]
    have hi : i < heap.length := by omega
    have hlen := pySiftup_length heap i hi
    refine (ih (pySiftup heap i) (by omega)).trans ?_
    exact pySiftup_perm heap i hi

lemma pyHeapify_perm {α : Type} (x : List (PyNode α)) :
    List.Perm (pyHeapify x) x :=
  heapifyLoop_perm (x.length / 2) x (Nat.div_le_self _ _)

/-! Heap-order verification of the transcribed `heapq`: `heapify`
establishes the invariant, `heappush`/`heappop` preserve it, and the
invariant makes `heap[0]` (hence `heappop`) a minimum-frequency element. -/

lemma childIdx_lt {i j : Nat} (h : childIdx i j) : i < j := by
  rcases h with h | h <;> omega

lemma childIdx_parent {i j : Nat} (h : childIdx i j) : (j - 1) / 2 = i := by
  rcases h with h | h <;> omega

lemma parent_childIdx {j : Nat} (h : 1 ≤ j) : childIdx ((j - 1) / 2) j := by
  unfold childIdx
  omega

lemma desc_le {i j : Nat} (h : Desc i j) : i ≤ j := by
  induction h with
  | refl => exact Nat.le_refl _
  | step _ hc ih => have := childIdx_lt hc; omega

lemma desc_parent {i j : Nat} (h : Desc i j) (hne : j ≠ i) : Desc i ((j - 1) / 2) := by
  cases h with
  | refl => exact absurd rfl hne
  | step hd hc => rw [childIdx_parent hc]; exact hd

lemma desc_zero : ∀ j, Desc 0 j := by
  intro j
  induction j using Nat.strong_induction_on with
  | _ j ih =>
    cases j with
    | zero => exact Desc.refl 0
    | succ jj =>
      exact Desc.step (ih ((jj + 1 - 1) / 2) (by omega)) (parent_childIdx (by omega))

lemma hget_append {α : Type} :
    ∀ (l l2 : List (PyNode α)) (j : Nat), j < l.length →
      hget (l ++ l2) j = hget l j := by
  intro l
  induction l with
  | nil => intro l2 j h; simp at h
  | cons a as ih =>
    intro l2 j h
    cases j with
    | zero => rfl
    | succ j' =>
      rw [List.cons_append, hget_cons_succ, hget_cons_succ]
      exact ih l2 j' (by simpa using h)

lemma hget_append_len {α : Type} :
    ∀ (l : List (PyNode α)) (a : PyNode α), hget (l ++ [a]) l.length = a := by
  intro l
  induction l with
  | nil => intro a; rfl
  | cons x xs ih =>
    intro a
    rw [List.cons_append, List.length_cons, hget_cons_succ]
    exact ih a

lemma hget_dropLast {α : Type} :
    ∀ (l : List (PyNode α)) (j : Nat), j < l.length - 1 →
      hget l.dropLast j = hget l j := by
  intro l
  induction l with
  | nil => intro j h; simp at h
  | cons a as ih =>
    intro j h
    cases as with
    | nil => simp at h
    | cons b bs =>
      rw [List.dropLast_cons₂]
      cases j with
      | zero => rfl
      | succ j' =>
        rw [hget_cons_succ, hget_cons_succ]
        exact ih j' (by simp at h ⊢; omega)

lemma siftdownLoop_heapOk {α : Type} :
    ∀ (fuel : Nat) (heap : List (PyNode α)) (k pos : Nat) (item : PyNode α),
      pos ≤ fuel → pos < heap.length → Desc k pos →
      (∀ x y, k ≤ x → x ≠ pos → childIdx x y → y < heap.length → y ≠ pos →
        (hget heap x).freq ≤ (hget heap y).freq) →
      (∀ y, childIdx pos y → y < heap.length → item.freq ≤ (hget heap y).freq) →
      (k < pos → ∀ y, childIdx pos y → y < heap.length →
        (hget heap ((pos - 1) / 2)).freq ≤ (hget heap y).freq) →
      PartialHeapGe (siftdownLoop fuel heap k pos item) k := by
  intro fuel
  induction fuel with
  | zero =>
    intro heap k pos item hfuel hpos hdesc hA hB _hC
    have hpos0 : pos = 0 := by omega
    subst hpos0
    have hk0 : k = 0 := by have := desc_le hdesc; omega
    subst hk0
    simp only [siftdownLoop]
    intro i j _ hcij hjlen
    rw [List.length_set] at hjlen
    have hj0 : j ≠ 0 := by have := childIdx_lt hcij; omega
    rw [hget_set_ne heap 0 j item (by omega)]
    by_cases hi : i = 0
    · subst hi
      rw [hget_set_self heap 0 item hpos]
      exact hB j hcij hjlen
    · rw [hget_set_ne heap 0 i item (by omega)]
      exact hA i j (by omega) hi hcij hjlen hj0
  | succ fuel ih =>
    intro heap k pos item hfuel hpos hdesc hA hB hC
    simp only [siftdownLoop]
    by_cases h1 : k < pos
    · rw [if_pos h1]
      have hpos1 : 1 ≤ pos := by omega
      have hpplt : (pos - 1) / 2 < pos := by omega
      have hppcl : childIdx ((pos - 1) / 2) pos := parent_childIdx hpos1
      have hdescpp : Desc k ((pos - 1) / 2) := desc_parent hdesc (by omega)
      have hkpp : k ≤ (pos - 1) / 2 := desc_le hdescpp
      by_cases h2 : item.freq < (hget heap ((pos - 1) / 2)).freq
      · rw [if_pos h2]
        have hA' : ∀ x y, k ≤ x → x ≠ (pos - 1) / 2 → childIdx x y →
            y < (heap.set pos (hget heap ((pos - 1) / 2))).length → y ≠ (pos - 1) / 2 →
            (hget (heap.set pos (hget heap ((pos - 1) / 2))) x).freq ≤
              (hget (heap.set pos (hget heap ((pos - 1) / 2))) y).freq := by
          intro x y hkx hxpp hcxy hylen hypp
          rw [List.length_set] at hylen
          by_cases hx : x = pos
          · rw [hx] at hcxy ⊢
            rw [hget_set_self heap pos _ hpos]
            have hy : y ≠ pos := by have := childIdx_lt hcxy; omega
            rw [hget_set_ne heap pos y _ (by omega)]
            exact hC h1 y hcxy hylen
          · by_cases hy : y = pos
            · rw [hy] at hcxy
              have hxp := childIdx_parent hcxy
              omega
            · rw [hget_set_ne heap pos x _ (by omega), hget_set_ne heap pos y _ (by omega)]
              exact hA x y hkx hx hcxy hylen hy
        have hB' : ∀ y, childIdx ((pos - 1) / 2) y →
            y < (heap.set pos (hget heap ((pos - 1) / 2))).length →
            item.freq ≤ (hget (heap.set pos (hget heap ((pos - 1) / 2))) y).freq := by
          intro y hcy hylen
          rw [List.length_set] at hylen
          by_cases hy : y = pos
          · rw [hy]
            rw [hget_set_self heap pos _ hpos]
            omega
          · rw [hget_set_ne heap pos y _ (by omega)]
            have hle := hA ((pos - 1) / 2) y hkpp (by omega) hcy hylen hy
            omega
        have hC' : k < (pos - 1) / 2 → ∀ y, childIdx ((pos - 1) / 2) y →
            y < (heap.set pos (hget heap ((pos - 1) / 2))).length →
            (hget (heap.set pos (hget heap ((pos - 1) / 2))) (((pos - 1) / 2 - 1) / 2)).freq ≤
              (hget (heap.set pos (hget heap ((pos - 1) / 2))) y).freq := by
          intro hkpp' y hcy hylen
          rw [List.length_set] at hylen
          have hpp1 : 1 ≤ (pos - 1) / 2 := by omega
          have hgplt : ((pos - 1) / 2 - 1) / 2 < (pos - 1) / 2 := by omega
          have hgpne : ((pos - 1) / 2 - 1) / 2 ≠ pos := by omega
          have hdescgp : Desc k (((pos - 1) / 2 - 1) / 2) := desc_parent hdescpp (by omega)
          have hkgp : k ≤ ((pos - 1) / 2 - 1) / 2 := desc_le hdescgp
          have hgpcl : childIdx (((pos - 1) / 2 - 1) / 2) ((pos - 1) / 2) :=
            parent_childIdx hpp1
          have hgp_pp : (hget heap (((pos - 1) / 2 - 1) / 2)).freq ≤
              (hget heap ((pos - 1) / 2)).freq :=
            hA _ _ hkgp (by omega) hgpcl (by omega) (by omega)
          rw [hget_set_ne heap pos _ _ (by omega)]
          by_cases hy : y = pos
          · rw [hy]
            rw [hget_set_self heap pos _ hpos]
            exact hgp_pp
          · rw [hget_set_ne heap pos y _ (by omega)]
            have hpp_y := hA ((pos - 1) / 2) y hkpp (by omega) hcy hylen hy
            omega
        exact ih (heap.set pos (hget heap ((pos - 1) / 2))) k ((pos - 1) / 2) item
          (by omega) (by rw [List.length_set]; omega) hdescpp hA' hB' hC'
      · rw [if_neg h2]
        intro i j hki hcij hjlen
        rw [List.length_set] at hjlen
        by_cases hj : j = pos
        · rw [hj] at hcij ⊢
          have hip := childIdx_parent hcij
          have hi : i = (pos - 1) / 2 := by omega
          rw [hi]
          rw [hget_set_ne heap pos _ item (by omega), hget_set_self heap pos item hpos]
          omega
        · rw [hget_set_ne heap pos j item (by omega)]
          by_cases hi : i = pos
          · rw [hi] at hcij ⊢
            rw [hget_set_self heap pos item hpos]
            exact hB j hcij hjlen
          · rw [hget_set_ne heap pos i item (by omega)]
            exact hA i j hki hi hcij hjlen hj
    · rw [if_neg h1]
      have hkpos : pos = k := by have := desc_le hdesc; omega
      intro i j hki hcij hjlen
      rw [List.length_set] at hjlen
      have hj : j ≠ pos := by have := childIdx_lt hcij; omega
      rw [hget_set_ne heap pos j item (by omega)]
      by_cases hi : i = pos
      · rw [hi] at hcij ⊢
        rw [hget_set_self heap pos item hpos]
        exact hB j hcij hjlen
      · rw [hget_set_ne heap pos i item (by omega)]
        exact hA i j hki hi hcij hjlen hj

lemma pyHeappush_isHeap {α : Type} (heap : List (PyNode α)) (item : PyNode α)
    (hh : IsHeap heap) : IsHeap (pyHeappush heap item) := by
  rw [pyHeappush, pySiftdown]
  have hlen : (heap ++ [item]).length = heap.length + 1 := by simp
  have hpos : (heap ++ [item]).length - 1 < (heap ++ [item]).length := by omega
  have hitem : hget (heap ++ [item]) ((heap ++ [item]).length - 1) = item := by
    rw [hlen]
    simp only [Nat.add_sub_cancel]
    exact hget_append_len heap item
  have hA : ∀ x y, 0 ≤ x → x ≠ (heap ++ [item]).length - 1 → childIdx x y →
      y < (heap ++ [item]).length → y ≠ (heap ++ [item]).length - 1 →
      (hget (heap ++ [item]) x).freq ≤ (hget (heap ++ [item]) y).freq := by
    intro x y _ hx hcxy hylen hy
    rw [hlen] at hylen hy hx
    have hxy := childIdx_lt hcxy
    have hyn : y < heap.length := by omega
    rw [hget_append heap [item] x (by omega), hget_append heap [item] y hyn]
    exact hh x y (Nat.zero_le x) hcxy hyn
  have hB : ∀ y, childIdx ((heap ++ [item]).length - 1) y → y < (heap ++ [item]).length →
      (hget (heap ++ [item]) ((heap ++ [item]).length - 1)).freq ≤
        (hget (heap ++ [item]) y).freq := by
    intro y hcy hylen
    rw [hlen] at hcy hylen
    rcases hcy with h | h <;> omega
  have hC : 0 < (heap ++ [item]).length - 1 →
      ∀ y, childIdx ((heap ++ [item]).length - 1) y → y < (heap ++ [item]).length →
      (hget (heap ++ [item]) (((heap ++ [item]).length - 1 - 1) / 2)).freq ≤
        (hget (heap ++ [item]) y).freq := by
    intro _ y hcy hylen
    rw [hlen] at hcy hylen
    rcases hcy with h | h <;> omega
  exact siftdownLoop_heapOk ((heap ++ [item]).length - 1) (heap ++ [item]) 0
    ((heap ++ [item]).length - 1) (hget (heap ++ [item]) ((heap ++ [item]).length - 1))
    (Nat.le_refl _) hpos (desc_zero _) hA
    (by rw [hitem] at hB ⊢; exact hB) hC

lemma siftupLoop_heapOk {α : Type} :
    ∀ (fuel : Nat) (heap : List (PyNode α)) (k pos : Nat),
      heap.length ≤ fuel + pos + 1 → pos < heap.length → Desc k pos →
      (∀ x y, k ≤ x → x ≠ pos → childIdx x y → y < heap.length → y ≠ pos →
        (hget heap x).freq ≤ (hget heap y).freq) →
      (k < pos → ∀ y, childIdx pos y → y < heap.length →
        (hget heap ((pos - 1) / 2)).freq ≤ (hget heap y).freq) →
      (∀ x y, k ≤ x → x ≠ (siftupLoop fuel heap pos).2 → childIdx x y →
          y < heap.length → y ≠ (siftupLoop fuel heap pos).2 →
          (hget (siftupLoop fuel heap pos).1 x).freq ≤
            (hget (siftupLoop fuel heap pos).1 y).freq) ∧
      Desc k (siftupLoop fuel heap pos).2 ∧
      ¬ (2 * (siftupLoop fuel heap pos).2 + 1 < heap.length) := by
  intro fuel
  induction fuel with
  | zero =>
    intro heap k pos hfuel hpos hdesc hA _hB
    simp only [siftupLoop]
    exact ⟨hA, hdesc, by omega⟩
  | succ fuel ih =>
    intro heap k pos hfuel hpos hdesc hA hB
    simp only [siftupLoop]
    by_cases hc : 2 * pos + 1 < heap.length
    · rw [if_pos hc]
      set c := if 2 * pos + 1 + 1 < heap.length ∧
          ¬ (hget heap (2 * pos + 1)).freq < (hget heap (2 * pos + 1 + 1)).freq
        then 2 * pos + 1 + 1 else 2 * pos + 1 with hcdef
      have hclt : c < heap.length := by
        rw [hcdef]; split
        · omega
        · exact hc
      have hcpos : pos < c := by rw [hcdef]; split <;> omega
      have hcchild : childIdx pos c := by
        rw [hcdef]; split
        · exact Or.inr (by omega)
        · exact Or.inl rfl
      have hcmin : ∀ oc, childIdx pos oc → oc < heap.length → oc ≠ c →
          (hget heap c).freq ≤ (hget heap oc).freq := by
        intro oc hoc hoclen hocne
        rw [hcdef] at hocne ⊢
        by_cases hsplit : 2 * pos + 1 + 1 < heap.length ∧
            ¬ (hget heap (2 * pos + 1)).freq < (hget heap (2 * pos + 1 + 1)).freq
        · rw [if_pos hsplit] at hocne ⊢
          have hoc1 : oc = 2 * pos + 1 := by rcases hoc with h | h <;> omega
          rw [hoc1]
          omega
        · rw [if_neg hsplit] at hocne ⊢
          have hoc2 : oc = 2 * pos + 1 + 1 := by rcases hoc with h | h <;> omega
          rw [hoc2]
          rw [Classical.not_and_iff_or_not_not] at hsplit
          rcases hsplit with h | h
          · omega
          · rw [Classical.not_not] at h
            omega
      have hklec : k ≤ pos := desc_le hdesc
      have hdescc : Desc k c := hdesc.step hcchild
      have hA' : ∀ x y, k ≤ x → x ≠ c → childIdx x y →
          y < (heap.set pos (hget heap c)).length → y ≠ c →
          (hget (heap.set pos (hget heap c)) x).freq ≤
            (hget (heap.set pos (hget heap c)) y).freq := by
        intro x y hkx hxc hcxy hylen hyc
        rw [List.length_set] at hylen
        by_cases hx : x = pos
        · rw [hx] at hcxy ⊢
          rw [hget_set_self heap pos _ hpos]
          have hy : y ≠ pos := by have := childIdx_lt hcxy; omega
          rw [hget_set_ne heap pos y _ (by omega)]
          exact hcmin y hcxy hylen hyc
        · by_cases hy : y = pos
          · rw [hy] at hcxy ⊢
            have hpos1 : 1 ≤ pos := by
              have := childIdx_lt hcxy
              omega
            have hxpar := childIdx_parent hcxy
            rw [hget_set_ne heap pos x _ (by omega), hget_set_self heap pos _ hpos]
            have hkpos : k < pos := by omega
            have := hB hkpos c hcchild hclt
            rw [hxpar] at this
            exact this
          · rw [hget_set_ne heap pos x _ (by omega), hget_set_ne heap pos y _ (by omega)]
            exact hA x y hkx hx hcxy hylen hy
      have hB' : k < c → ∀ y, childIdx c y → y < (heap.set pos (hget heap c)).length →
          (hget (heap.set pos (hget heap c)) ((c - 1) / 2)).freq ≤
            (hget (heap.set pos (hget heap c)) y).freq := by
        intro _ y hcy hylen
        rw [List.length_set] at hylen
        rw [childIdx_parent hcchild]
        have hyc : c < y := childIdx_lt hcy
        rw [hget_set_self heap pos _ hpos, hget_set_ne heap pos y _ (by omega)]
        exact hA c y (by omega) (by omega) hcy hylen (by omega)
      have hres := ih (heap.set pos (hget heap c)) k c
        (by rw [List.length_set]; omega) (by rw [List.length_set]; exact hclt)
        hdescc hA' hB'
      rw [List.length_set] at hres
      exact hres
    · rw [if_neg hc]
      exact ⟨hA, hdesc, hc⟩

lemma pySiftup_heapOk {α : Type} (heap : List (PyNode α)) (i : Nat)
    (hi : i < heap.length) (hpre : PartialHeapGe heap (i + 1)) :
    PartialHeapGe (pySiftup heap i) i := by
  obtain ⟨hlen1, hlt1, -⟩ := siftupLoop_spec heap.length heap i hi
  have hA0 : ∀ x y, i ≤ x → x ≠ i → childIdx x y → y < heap.length → y ≠ i →
      (hget heap x).freq ≤ (hget heap y).freq := by
    intro x y hix hxi hcxy hylen _
    exact hpre x y (by omega) hcxy hylen
  have hB0 : i < i → ∀ y, childIdx i y → y < heap.length →
      (hget heap ((i - 1) / 2)).freq ≤ (hget heap y).freq := by
    intro h
    omega
  obtain ⟨hA1, hdesc1, hnoch⟩ := siftupLoop_heapOk heap.length heap i i
    (by omega) hi (Desc.refl i) hA0 hB0
  rw [pySiftup, pySiftdown]
  have hlen2 : ((siftupLoop heap.length heap i).1.set (siftupLoop heap.length heap i).2
      (hget heap i)).length = heap.length := by
    rw [List.length_set, hlen1]
  have hitem : hget ((siftupLoop heap.length heap i).1.set (siftupLoop heap.length heap i).2
      (hget heap i)) (siftupLoop heap.length heap i).2 = hget heap i :=
    hget_set_self _ _ _ (by omega)
  have hA2 : ∀ x y, i ≤ x → x ≠ (siftupLoop heap.length heap i).2 → childIdx x y →
      y < ((siftupLoop heap.length heap i).1.set (siftupLoop heap.length heap i).2
        (hget heap i)).length → y ≠ (siftupLoop heap.length heap i).2 →
      (hget ((siftupLoop heap.length heap i).1.set (siftupLoop heap.length heap i).2
        (hget heap i)) x).freq ≤
      (hget ((siftupLoop heap.length heap i).1.set (siftupLoop heap.length heap i).2
        (hget heap i)) y).freq := by
    intro x y hix hxs hcxy hylen hys
    rw [hlen2] at hylen
    rw [hget_set_ne _ _ x _ (by omega), hget_set_ne _ _ y _ (by omega)]
    exact hA1 x y hix hxs hcxy hylen hys
  have hB2 : ∀ y, childIdx (siftupLoop heap.length heap i).2 y →
      y < ((siftupLoop heap.length heap i).1.set (siftupLoop heap.length heap i).2
        (hget heap i)).length →
      (hget ((siftupLoop heap.length heap i).1.set (siftupLoop heap.length heap i).2
        (hget heap i)) (siftupLoop heap.length heap i).2).freq ≤
      (hget ((siftupLoop heap.length heap i).1.set (siftupLoop heap.length heap i).2
        (hget heap i)) y).freq := by
    intro y hcy hylen
    rw [hlen2] at hylen
    rcases hcy with h | h <;> omega
  have hC2 : i < (siftupLoop heap.length heap i).2 →
      ∀ y, childIdx (siftupLoop heap.length heap i).2 y →
      y < ((siftupLoop heap.length heap i).1.set (siftupLoop heap.length heap i).2
        (hget heap i)).length →
      (hget ((siftupLoop heap.length heap i).1.set (siftupLoop heap.length heap i).2
        (hget heap i)) (((siftupLoop heap.length heap i).2 - 1) / 2)).freq ≤
      (hget ((siftupLoop heap.length heap i).1.set (siftupLoop heap.length heap i).2
        (hget heap i)) y).freq := by
    intro _ y hcy hylen
    rw [hlen2] at hylen
    rcases hcy with h | h <;> omega
  exact siftdownLoop_heapOk (siftupLoop heap.length heap i).2 _ i
    (siftupLoop heap.length heap i).2 _ (Nat.le_refl _) (by omega) hdesc1 hA2
    (by rw [hitem] at hB2 ⊢; exact hB2) hC2

lemma heapifyLoop_isHeap {α : Type} :
    ∀ (i : Nat) (heap : List (PyNode α)), i ≤ heap.length → PartialHeapGe heap i →
      IsHeap (heapifyLoop i heap) := by
  intro i
  induction i with
  | zero => intro heap _ hpre; exact hpre
  | succ i ih =>
    intro heap hle hpre
    simp only [heapifyLoop]
    have hi : i < heap.length := by omega
    have hlen := pySiftup_length heap i hi
    exact ih (pySiftup heap i) (by omega) (pySiftup_heapOk heap i hi hpre)

lemma pyHeapify_isHeap {α : Type} (x : List (PyNode α)) : IsHeap (pyHeapify x) := by
  rw [pyHeapify]
  refine heapifyLoop_isHeap (x.length / 2) x (Nat.div_le_self _ _) ?_
  intro i j hki hcij hjlen
  rcases hcij with h | h <;> omega

lemma isHeap_root_min {α : Type} {l : List (PyNode α)} (hh : IsHeap l) :
    ∀ j, j < l.length → (hget l 0).freq ≤ (hget l j).freq := by
  intro j
  induction j using Nat.strong_induction_on with
  | _ j ih =>
    intro hjlen
    cases j with
    | zero => exact Nat.le_refl _
    | succ jj =>
      have hpar : childIdx ((jj + 1 - 1) / 2) (jj + 1) := parent_childIdx (by omega)
      have h1 := hh ((jj + 1 - 1) / 2) (jj + 1) (Nat.zero_le _) hpar hjlen
      have h2 := ih ((jj + 1 - 1) / 2) (by omega) (by omega)
      omega

lemma pyHeappop_fst_eq {α : Type} (heap : List (PyNode α)) (h : 0 < heap.length) :
    (pyHeappop heap).1 = hget heap 0 := by
  rw [pyHeappop]
  cases heap with
  | nil => simp at h
  | cons a as =>
    cases as with
    | nil => rfl
    | cons b bs => rfl

lemma pyHeappop_min {α : Type} {heap : List (PyNode α)} (hh : IsHeap heap)
    (h : 0 < heap.length) : ∀ x ∈ heap, ((pyHeappop heap).1).freq ≤ x.freq := by
  intro x hx
  rw [pyHeappop_fst_eq heap h]
  obtain ⟨j, hj, hxj⟩ := List.getElem_of_mem hx
  rw [← hxj, ← hget_eq_getElem hj]
  exact isHeap_root_min hh j hj

lemma pyHeappop_isHeap {α : Type} {heap : List (PyNode α)} (hh : IsHeap heap) :
    IsHeap (pyHeappop heap).2 := by
  rw [pyHeappop]
  cases hd : heap.dropLast with
  | nil =>
    intro i j _ hcij hjlen
    simp at hjlen
  | cons r0 rs =>
    simp only
    have hlen : heap.length = rs.length + 2 := by
      have := congrArg List.length hd
      simp only [List.length_dropLast, List.length_cons] at this
      have hne : heap ≠ [] := by
        intro hnil
        rw [hnil] at hd
        simp at hd
      have : 0 < heap.length := List.length_pos.mpr hne
      omega
    have h0 : (0 : Nat) < ((r0 :: rs).set 0 (hget heap (heap.length - 1))).length := by simp
    refine pySiftup_heapOk _ 0 h0 ?_
    intro i j h1i hcij hjlen
    have hji : i < j := childIdx_lt hcij
    rw [List.length_set, List.length_cons] at hjlen
    rw [hget_set_ne _ _ i _ (by omega), hget_set_ne _ _ j _ (by omega)]
    have hdl : ∀ m, m < rs.length + 1 → hget (r0 :: rs) m = hget heap m := by
      intro m hm
      rw [← hd]
      exact hget_dropLast heap m (by omega)
    rw [hdl i (by omega), hdl j (by omega)]
    exact hh i j (Nat.zero_le _) hcij (by omega)

/-! Exchange arithmetic for the optimality proof, on (weight, length)
lists: swapping the lengths of two items never increases the weighted
total when the lighter item receives the longer length, and the scaled
Kraft sum only depends on the multiset of lengths. -/

lemma wlSum_cons (a : Nat × Nat) (l : List (Nat × Nat)) :
    wlSum (a :: l) = a.1 * a.2 + wlSum l := by
  simp [wlSum]

lemma kSum_cons (L : Nat) (a : Nat × Nat) (l : List (Nat × Nat)) :
    kSum L (a :: l) = 2 ^ (L - a.2) + kSum L l := by
  simp [kSum]

lemma mem_le_maxLen : ∀ (items : List (Nat × Nat)), ∀ y ∈ items, y.2 ≤ maxLen items := by
  intro items
  induction items with
  | nil => intro y hy; simp at hy
  | cons a l ih =>
    intro y hy
    rcases List.mem_cons.mp hy with rfl | hy'
    · simp [maxLen]
    · have := ih y hy'
      simp only [maxLen, List.map_cons, List.foldr_cons] at this ⊢
      omega

lemma exists_maxLen : ∀ (items : List (Nat × Nat)), items ≠ [] →
    ∃ y ∈ items, y.2 = maxLen items := by
  intro items
  induction items with
  | nil => intro h; exact absurd rfl h
  | cons a l ih =>
    intro _
    cases l with
    | nil => exact ⟨a, List.mem_cons_self a [], by simp [maxLen]⟩
    | cons b bs =>
      by_cases hle : maxLen (b :: bs) ≤ a.2
      · refine ⟨a, List.mem_cons_self _ _, ?_⟩
        simp only [maxLen, List.map_cons, List.foldr_cons] at hle ⊢
        omega
      · obtain ⟨y, hy, hy2⟩ := ih (by simp)
        refine ⟨y, List.mem_cons_of_mem a hy, ?_⟩
        simp only [maxLen, List.map_cons, List.foldr_cons] at hy2 hle ⊢
        omega

lemma replaceLen_map_fst : ∀ (rest : List (Nat × Nat)) (M v : Nat),
    (replaceLen rest M v).map Prod.fst = rest.map Prod.fst := by
  intro rest
  induction rest with
  | nil => intro M v; rfl
  | cons a l ih =>
    intro M v
    obtain ⟨w, len⟩ := a
    simp only [replaceLen]
    split
    · simp
    · simp [ih M v]

lemma replaceLen_sum_len (f : Nat → Nat) :
    ∀ (rest : List (Nat × Nat)) (M v : Nat), (∃ y ∈ rest, y.2 = M) →
      ((replaceLen rest M v).map fun x => f x.2).sum + f M =
        (rest.map fun x => f x.2).sum + f v := by
  intro rest
  induction rest with
  | nil => intro M v h; simp at h
  | cons a l ih =>
    intro M v hwit
    obtain ⟨w, len⟩ := a
    simp only [replaceLen]
    by_cases hlm : len = M
    · rw [if_pos hlm, hlm]
      simp only [List.map_cons, List.sum_cons]
      omega
    · rw [if_neg hlm]
      simp only [List.map_cons, List.sum_cons]
      have hwit' : ∃ y ∈ l, y.2 = M := by
        obtain ⟨y, hy, hy2⟩ := hwit
        rcases List.mem_cons.mp hy with rfl | hy'
        · exact absurd hy2 hlm
        · exact ⟨y, hy', hy2⟩
      have := ih M v hwit'
      omega

lemma replaceLen_wlSum :
    ∀ (rest : List (Nat × Nat)) (M v w0 : Nat), (∃ y ∈ rest, y.2 = M) → v ≤ M →
      (∀ y ∈ rest, w0 ≤ y.1) →
      wlSum (replaceLen rest M v) + w0 * M ≤ wlSum rest + w0 * v := by
  intro rest
  induction rest with
  | nil => intro M v w0 h _ _; simp at h
  | cons a l ih =>
    intro M v w0 hwit hvM hw
    obtain ⟨w, len⟩ := a
    simp only [replaceLen]
    by_cases hlm : len = M
    · rw [if_pos hlm, hlm]
      rw [wlSum_cons, wlSum_cons]
      simp only
      have hw0w : w0 ≤ w := hw (w, len) (List.mem_cons_self _ _)
      have := mul_add_mul_le_mul_add_mul hw0w hvM
      omega
    · rw [if_neg hlm]
      rw [wlSum_cons, wlSum_cons]
      have hwit' : ∃ y ∈ l, y.2 = M := by
        obtain ⟨y, hy, hy2⟩ := hwit
        rcases List.mem_cons.mp hy with rfl | hy'
        · exact absurd hy2 hlm
        · exact ⟨y, hy', hy2⟩
      have := ih M v w0 hwit' hvM (fun y hy => hw y (List.mem_cons_of_mem _ hy))
      omega

lemma replaceLen_len_mem :
    ∀ (rest : List (Nat × Nat)) (M v : Nat), ∀ y ∈ replaceLen rest M v,
      y ∈ rest ∨ y.2 = v := by
  intro rest
  induction rest with
  | nil => intro M v y hy; simp [replaceLen] at hy
  | cons a l ih =>
    intro M v y hy
    obtain ⟨w, len⟩ := a
    simp only [replaceLen] at hy
    by_cases hlm : len = M
    · rw [if_pos hlm] at hy
      rcases List.mem_cons.mp hy with rfl | hy'
      · exact Or.inr rfl
      · exact Or.inl (List.mem_cons_of_mem _ hy')
    · rw [if_neg hlm] at hy
      rcases List.mem_cons.mp hy with rfl | hy'
      · exact Or.inl (List.mem_cons_self _ _)
      · rcases ih M v y hy' with h | h
        · exact Or.inl (List.mem_cons_of_mem _ h)
        · exact Or.inr h

lemma pullMax_spec (x : Nat × Nat) (rest : List (Nat × Nat)) :
    ∃ l1 tail, pullMax (x :: rest) = (x.1, l1) :: tail ∧
      x.2 ≤ l1 ∧
      tail.map Prod.fst = rest.map Prod.fst ∧
      (∀ y ∈ tail, y.2 ≤ l1) ∧
      (∀ y ∈ (x.1, l1) :: tail, ∃ z ∈ x :: rest, z.2 = y.2) ∧
      (∀ f : Nat → Nat, (((x.1, l1) :: tail).map fun z => f z.2).sum =
        ((x :: rest).map fun z => f z.2).sum) ∧
      ((∀ a ∈ rest.map Prod.fst, x.1 ≤ a) →
        wlSum ((x.1, l1) :: tail) ≤ wlSum (x :: rest)) := by
  obtain ⟨w, l⟩ := x
  simp only [pullMax]
  by_cases hlt : l < maxLen rest
  · rw [if_pos hlt]
    have hne : rest ≠ [] := by
      intro hnil
      rw [hnil] at hlt
      simp [maxLen] at hlt
    obtain ⟨ym, hym, hym2⟩ := exists_maxLen rest hne
    refine ⟨maxLen rest, replaceLen rest (maxLen rest) l, rfl, by omega,
      replaceLen_map_fst rest _ l, ?_, ?_, ?_, ?_⟩
    · intro y hy
      rcases replaceLen_len_mem rest _ l y hy with h | h
      · exact mem_le_maxLen rest y h
      · omega
    · intro y hy
      rcases List.mem_cons.mp hy with rfl | hy'
      · exact ⟨ym, List.mem_cons_of_mem _ hym, by simpa using hym2⟩
      · rcases replaceLen_len_mem rest _ l y hy' with h | h
        · exact ⟨y, List.mem_cons_of_mem _ h, rfl⟩
        · exact ⟨(w, l), List.mem_cons_self _ _, h.symm⟩
    · intro f
      have := replaceLen_sum_len f rest (maxLen rest) l ⟨ym, hym, hym2⟩
      simp only [List.map_cons, List.sum_cons]
      omega
    · intro hmin
      rw [wlSum_cons, wlSum_cons]
      simp only
      have := replaceLen_wlSum rest (maxLen rest) l w ⟨ym, hym, hym2⟩ (by omega)
        (fun y hy => hmin y.1 (List.mem_map_of_mem Prod.fst hy))
      omega
  · rw [if_neg hlt]
    refine ⟨l, rest, rfl, Nat.le_refl l, rfl, ?_, ?_, fun f => rfl, fun _ => Nat.le_refl _⟩
    · intro y hy
      have := mem_le_maxLen rest y hy
      omega
    · intro y hy
      exact ⟨y, hy, rfl⟩

lemma kSum_scale : ∀ (items : List (Nat × Nat)) (L d : Nat),
    (∀ y ∈ items, y.2 ≤ L) → kSum (L + d) items = 2 ^ d * kSum L items := by
  intro items
  induction items with
  | nil => intro L d _; simp [kSum]
  | cons a l ih =>
    intro L d hb
    rw [kSum_cons, kSum_cons, Nat.mul_add]
    have ha : a.2 ≤ L := hb a (List.mem_cons_self _ _)
    have h1 : L + d - a.2 = d + (L - a.2) := by omega
    rw [h1, pow_add, ih L d (fun y hy => hb y (List.mem_cons_of_mem _ hy))]

lemma kSum_le_of_le (items : List (Nat × Nat)) (M L : Nat)
    (hb : ∀ y ∈ items, y.2 ≤ M) (hML : M ≤ L) (hsum : kSum L items ≤ 2 ^ L) :
    kSum M items ≤ 2 ^ M := by
  have h1 : L = M + (L - M) := by omega
  rw [h1, kSum_scale items M (L - M) hb] at hsum
  have h2 : (2 : Nat) ^ (M + (L - M)) = 2 ^ (L - M) * 2 ^ M := by
    rw [pow_add]
    ring
  rw [h2] at hsum
  exact Nat.le_of_mul_le_mul_left hsum (Nat.pos_pow_of_pos _ (by omega))

lemma kSum_even (items : List (Nat × Nat)) (L : Nat)
    (hb : ∀ y ∈ items, y.2 < L) : 2 ∣ kSum L items := by
  induction items with
  | nil => simp [kSum]
  | cons a l ih =>
    rw [kSum_cons]
    have ha : a.2 < L := hb a (List.mem_cons_self _ _)
    have h1 : L - a.2 = (L - a.2 - 1) + 1 := by omega
    refine Nat.dvd_add ?_ (ih (fun y hy => hb y (List.mem_cons_of_mem _ hy)))
    rw [h1, pow_succ]
    exact Dvd.intro_left _ rfl

lemma feasible_len_pos (items : List (Nat × Nat)) (hf : FeasibleN items)
    (h2 : 2 ≤ items.length) : ∀ y ∈ items, 1 ≤ y.2 := by
  obtain ⟨L, hle, hsum⟩ := hf
  intro y hy
  by_contra h0
  have hy0 : y.2 = 0 := by omega
  match items, h2 with
  | a :: b :: t, _ =>
    rw [kSum_cons, kSum_cons] at hsum
    have hpos : ∀ z : Nat × Nat, 1 ≤ 2 ^ (L - z.2) := fun z => Nat.one_le_two_pow
    rcases List.mem_cons.mp hy with rfl | hy'
    · rw [hy0, Nat.sub_zero] at hsum
      have := hpos b
      omega
    · have hyL : 2 ^ (L - y.2) = 2 ^ L := by rw [hy0, Nat.sub_zero]
      have hmem : (2 : Nat) ^ L ∈ (b :: t).map fun z => 2 ^ (L - z.2) := by
        rw [← hyL]
        exact List.mem_map_of_mem _ hy'
      have hle2 : (2 : Nat) ^ L ≤ kSum L (b :: t) :=
        List.single_le_sum (fun z _ => Nat.zero_le z) _ hmem
      have := hpos a
      rw [kSum_cons] at hle2
      omega

lemma huffman_merge_step :
    ∀ (n : Nat) (w1 l1 w2 l2 : Nat) (rest : List (Nat × Nat)),
      l1 + l2 + (rest.map fun z => z.2).sum ≤ n →
      (∀ a ∈ ((w2, l2) :: rest).map Prod.fst, w1 ≤ a) →
      (∀ a ∈ rest.map Prod.fst, w2 ≤ a) →
      FeasibleN ((w1, l1) :: (w2, l2) :: rest) →
      ∃ m rest', rest'.map Prod.fst = rest.map Prod.fst ∧
        FeasibleN ((w1 + w2, m) :: rest') ∧
        (w1 + w2) * (m + 1) + wlSum rest' ≤ w1 * l1 + w2 * l2 + wlSum rest := by
  intro n
  induction n with
  | zero =>
    intro w1 l1 w2 l2 rest hmeas hmin1 hmin2 hfeas
    have h1 : 1 ≤ l1 :=
      feasible_len_pos _ hfeas (by simp) (w1, l1) (List.mem_cons_self _ _)
    omega
  | succ n ih =>
    intro w1 l1 w2 l2 rest hmeas hmin1 hmin2 hfeas
    have hl1pos : 1 ≤ l1 :=
      feasible_len_pos _ hfeas (by simp) (w1, l1) (List.mem_cons_self _ _)
    obtain ⟨la, t1, hp_eq, hl1le, hfst1, hmax1, hmem1, hsml1, hcost1⟩ :=
      pullMax_spec (w1, l1) ((w2, l2) :: rest)
    cases t1 with
    | nil =>
      rw [List.map_cons, List.map_nil] at hfst1
      exact absurd hfst1.symm (by simp)
    | cons hd1 tl1 =>
      rw [List.map_cons, List.map_cons] at hfst1
      have hhd : hd1.1 = w2 := by
        have := List.head_eq_of_cons_eq hfst1
        simpa using this
      have htl : tl1.map Prod.fst = rest.map Prod.fst :=
        List.tail_eq_of_cons_eq hfst1
      obtain ⟨lb, t2, hq_eq, hl2le, hfst2, hmax2, hmem2, hsml2, hcost2⟩ :=
        pullMax_spec hd1 tl1
      rw [hhd] at hq_eq hmem2 hsml2 hcost2
      -- the normalized list is (w1, la) :: (w2, lb) :: t2
      have hfstt2 : t2.map Prod.fst = rest.map Prod.fst := by rw [hfst2, htl]
      have hmaxq : ∀ y ∈ (w2, lb) :: t2, y.2 ≤ la := by
        intro y hy
        obtain ⟨z, hz, hz2⟩ := hmem2 y hy
        have := hmax1 z hz
        omega
      have hlbla : lb ≤ la := hmaxq (w2, lb) (List.mem_cons_self _ _)
      have ht2lb : ∀ y ∈ t2, y.2 ≤ lb := hmax2
      have hlapos : 1 ≤ la := by omega
      have hsumz : ∀ f : Nat → Nat,
          ((((w1, la) :: (w2, lb) :: t2).map fun z => f z.2)).sum =
          ((((w1, l1) :: (w2, l2) :: rest).map fun z => f z.2)).sum := by
        intro f
        have h2 := hsml2 f
        have h1 := hsml1 f
        simp only [List.map_cons, List.sum_cons] at h1 h2 ⊢
        omega
      have hmeasz : la + lb + (t2.map fun z => z.2).sum =
          l1 + l2 + (rest.map fun z => z.2).sum := by
        have := hsumz (fun t => t)
        simp only [List.map_cons, List.sum_cons] at this
        omega
      have hwz : wlSum ((w1, la) :: (w2, lb) :: t2) ≤
          w1 * l1 + w2 * l2 + wlSum rest := by
        have h2 := hcost2 (by rw [htl]; exact hmin2)
        have h1 := hcost1 hmin1
        simp only [wlSum_cons] at h1 h2 ⊢
        omega
      obtain ⟨L0, hle0, hsum0⟩ := hfeas
      have hzorig : ∀ y ∈ (w1, la) :: (w2, lb) :: t2,
          ∃ u ∈ (w1, l1) :: (w2, l2) :: rest, u.2 = y.2 := by
        intro y hy
        rcases List.mem_cons.mp hy with rfl | hy'
        · exact hmem1 (w1, la) (List.mem_cons_self _ _)
        · obtain ⟨z, hz, hz2⟩ := hmem2 y hy'
          have hz' : z ∈ ((w1, l1).1, la) :: hd1 :: tl1 := List.mem_cons_of_mem _ hz
          obtain ⟨u, hu, hu2⟩ := hmem1 z hz'
          exact ⟨u, hu, by omega⟩
      have hzle : ∀ y ∈ (w1, la) :: (w2, lb) :: t2, y.2 ≤ L0 := by
        intro y hy
        obtain ⟨u, hu, hu2⟩ := hzorig y hy
        have := hle0 u hu
        omega
      have hlaL0 : la ≤ L0 := hzle (w1, la) (List.mem_cons_self _ _)
      have hkz0 : kSum L0 ((w1, la) :: (w2, lb) :: t2) ≤ 2 ^ L0 := by
        have heq : kSum L0 ((w1, la) :: (w2, lb) :: t2) =
            kSum L0 ((w1, l1) :: (w2, l2) :: rest) := by
          have := hsumz (fun t => 2 ^ (L0 - t))
          simpa [kSum] using this
        rw [heq]
        exact hsum0
      rcases Nat.lt_or_ge lb la with hlt | hge
      · -- the head is the unique maximum: decrement it and recurse
        have hzla : ∀ y ∈ (w1, la) :: (w2, lb) :: t2, y.2 ≤ la := by
          intro y hy
          rcases List.mem_cons.mp hy with rfl | hy'
          · exact Nat.le_refl _
          · have := hmaxq y hy'
            omega
        have hkla : kSum la ((w1, la) :: (w2, lb) :: t2) ≤ 2 ^ la :=
          kSum_le_of_le _ la L0 hzla hlaL0 hkz0
        have htail_lt : ∀ y ∈ (w2, lb) :: t2, y.2 < la := by
          intro y hy
          rcases List.mem_cons.mp hy with rfl | hy'
          · exact hlt
          · have := ht2lb y hy'
            omega
        have heven : 2 ∣ kSum la ((w2, lb) :: t2) := kSum_even _ la htail_lt
        have hkla_expand : kSum la ((w1, la) :: (w2, lb) :: t2) =
            1 + kSum la ((w2, lb) :: t2) := by
          rw [kSum_cons]
          simp
        have hpow_even : 2 ∣ 2 ^ la := by
          have : la = (la - 1) + 1 := by omega
          rw [this, pow_succ]
          exact Dvd.intro_left _ rfl
        have hstrict : 2 + kSum la ((w2, lb) :: t2) ≤ 2 ^ la := by
          rw [hkla_expand] at hkla
          rcases Nat.lt_or_ge (1 + kSum la ((w2, lb) :: t2)) (2 ^ la) with h | h
          · omega
          · exfalso
            have heq : 1 + kSum la ((w2, lb) :: t2) = 2 ^ la := by omega
            obtain ⟨u, hu⟩ := heven
            obtain ⟨v, hv⟩ := hpow_even
            omega
        have hfeas' : FeasibleN ((w1, la - 1) :: (w2, lb) :: t2) := by
          refine ⟨la, ?_, ?_⟩
          · intro y hy
            rcases List.mem_cons.mp hy with rfl | hy'
            · simp only
              omega
            · have := htail_lt y hy'
              omega
          · rw [kSum_cons]
            have h1 : la - (la - 1) = 1 := by omega
            simp only [h1, pow_one]
            omega
        have hmin1' : ∀ a ∈ ((w2, lb) :: t2).map Prod.fst, w1 ≤ a := by
          intro a ha
          rw [List.map_cons, hfstt2] at ha
          apply hmin1
          rw [List.map_cons]
          exact ha
        have hmin2' : ∀ a ∈ t2.map Prod.fst, w2 ≤ a := by
          intro a ha
          rw [hfstt2] at ha
          exact hmin2 a ha
        obtain ⟨m, rest', hfst', hfeas'', hcost''⟩ := ih w1 (la - 1) w2 lb t2
          (by omega) hmin1' hmin2' hfeas'
        refine ⟨m, rest', by rw [hfst', hfstt2], hfeas'', ?_⟩
        have hmono : w1 * (la - 1) + w1 * 1 = w1 * la := by
          rw [← Nat.mul_add]
          congr 1
          omega
        rw [wlSum_cons, wlSum_cons] at hwz
        simp only at hwz
        omega
      · -- two maxima: merge them one level up
        have hlaeq : lb = la := by omega
        subst hlaeq
        refine ⟨lb - 1, t2, hfstt2, ?_, ?_⟩
        · refine ⟨L0, ?_, ?_⟩
          · intro y hy
            rcases List.mem_cons.mp hy with rfl | hy'
            · simp only
              omega
            · have := hzle y (List.mem_cons_of_mem _ (List.mem_cons_of_mem _ hy'))
              omega
          · rw [kSum_cons] at hkz0 ⊢
            rw [kSum_cons] at hkz0
            simp only at hkz0 ⊢
            have h1 : L0 - (lb - 1) = (L0 - lb) + 1 := by omega
            rw [h1, pow_succ]
            omega
        · rw [wlSum_cons, wlSum_cons] at hwz
          simp only at hwz
          have h2 : (w1 + w2) * (lb - 1 + 1) = w1 * lb + w2 * lb := by
            have : lb - 1 + 1 = lb := by omega
            rw [this, Nat.add_mul]
          omega

/-! The merge loop of `from_freq`, with the heap-order and Kraft facts
combined: the resulting tree's cost is bounded by the weighted total of
any feasible length assignment to the heap's trees. -/

lemma feasibleN_perm {l l' : List (Nat × Nat)} (hp : List.Perm l l')
    (hf : FeasibleN l) : FeasibleN l' := by
  obtain ⟨L, hle, hsum⟩ := hf
  refine ⟨L, fun y hy => hle y (hp.mem_iff.mpr hy), ?_⟩
  have := (hp.map fun x => 2 ^ (L - x.2)).sum_eq
  rw [kSum] at hsum ⊢
  omega

lemma costSum_split {α : Type} :
    ∀ (l : List (PyNode α × Nat)),
      (l.map fun p => treeCost p.1 + p.1.freq * p.2).sum =
        ((l.map Prod.fst).map treeCost).sum +
          wlSum (l.map fun p => (p.1.freq, p.2)) := by
  intro l
  induction l with
  | nil => simp [wlSum]
  | cons a t ih =>
    simp only [List.map_cons, List.sum_cons, wlSum_cons] at ih ⊢
    omega

lemma reattach_lengths {α : Type} :
    ∀ (as : List (PyNode α × Nat)) (rs : List (Nat × Nat)),
      rs.map Prod.fst = as.map (fun p => p.1.freq) →
      ∃ as2 : List (PyNode α × Nat), as2.map Prod.fst = as.map Prod.fst ∧
        as2.map (fun p => (p.1.freq, p.2)) = rs := by
  intro as
  induction as with
  | nil =>
    intro rs h
    rw [List.map_nil, List.map_eq_nil_iff] at h
    exact ⟨[], rfl, by rw [h]; rfl⟩
  | cons a t ih =>
    intro rs h
    cases rs with
    | nil => simp at h
    | cons r rt =>
      rw [List.map_cons, List.map_cons] at h
      have h1 : r.1 = a.1.freq := List.head_eq_of_cons_eq h
      have h2 : rt.map Prod.fst = t.map (fun p => p.1.freq) := List.tail_eq_of_cons_eq h
      obtain ⟨as2, hfst, hfl⟩ := ih rt h2
      refine ⟨(a.1, r.2) :: as2, ?_, ?_⟩
      · rw [List.map_cons, List.map_cons, hfst]
      · rw [List.map_cons, hfl]
        congr 1
        rw [← h1]

lemma extract_entry {β : Type} :
    ∀ {l : List β} {b : β}, b ∈ l → ∃ l', List.Perm l (b :: l') := by
  intro l
  induction l with
  | nil => intro b hb; simp at hb
  | cons x xs ih =>
    intro b hb
    rcases List.mem_cons.mp hb with rfl | hb'
    · exact ⟨xs, List.Perm.refl _⟩
    · obtain ⟨l'', hp⟩ := ih hb'
      exact ⟨x :: l'', (hp.cons x).trans (List.Perm.swap b x l'')⟩

lemma mergeLoop_cost_bound {α : Type} :
    ∀ (fuel : Nat) (heap : List (PyNode α)) (assign : List (PyNode α × Nat)),
      0 < heap.length → heap.length ≤ fuel + 1 →
      IsHeap heap →
      List.Perm (assign.map Prod.fst) heap →
      FeasibleN (assign.map fun p => (p.1.freq, p.2)) →
      treeCost (hget (mergeLoop fuel heap) 0) ≤
        (assign.map fun p => treeCost p.1 + p.1.freq * p.2).sum := by
  intro fuel
  induction fuel with
  | zero =>
    intro heap assign h0 h1 _hh hpm _hf
    simp only [mergeLoop]
    have hlen1 : heap.length = 1 := by omega
    cases heap with
    | nil => simp at hlen1
    | cons x xs =>
      cases xs with
      | cons y ys => simp at hlen1
      | nil =>
        rw [hget_cons_zero]
        have hone : assign.map Prod.fst = [x] := List.perm_singleton.mp hpm
        cases assign with
        | nil => simp at hone
        | cons e es =>
          cases es with
          | cons e2 es2 => simp at hone
          | nil =>
            rw [List.map_cons, List.map_nil] at hone
            have hex : e.1 = x := List.head_eq_of_cons_eq hone
            rw [List.map_cons, List.map_nil, List.sum_cons, List.sum_nil, hex]
            omega
  | succ fuel ih =>
    intro heap assign h0 hlen hh hpm hf
    simp only [mergeLoop]
    by_cases hbig : 1 < heap.length
    · rw [if_pos hbig]
      have hp1perm : List.Perm heap ((pyHeappop heap).1 :: (pyHeappop heap).2) :=
        pyHeappop_perm heap (by omega)
      have hp1len : (pyHeappop heap).2.length = heap.length - 1 :=
        pyHeappop_snd_length heap (by omega)
      have hp2perm : List.Perm (pyHeappop heap).2
          ((pyHeappop (pyHeappop heap).2).1 :: (pyHeappop (pyHeappop heap).2).2) :=
        pyHeappop_perm _ (by omega)
      have hp2len : (pyHeappop (pyHeappop heap).2).2.length = heap.length - 2 := by
        rw [pyHeappop_snd_length _ (by omega), hp1len]
        omega
      have hheap2 : IsHeap (pyHeappop heap).2 := pyHeappop_isHeap hh
      have hheap3 : IsHeap (pyHeappop (pyHeappop heap).2).2 := pyHeappop_isHeap hheap2
      have hmin1 : ∀ x ∈ heap, ((pyHeappop heap).1).freq ≤ x.freq :=
        pyHeappop_min hh (by omega)
      have hmin2 : ∀ x ∈ (pyHeappop heap).2,
          ((pyHeappop (pyHeappop heap).2).1).freq ≤ x.freq :=
        pyHeappop_min hheap2 (by omega)
      have hn2mem : (pyHeappop (pyHeappop heap).2).1 ∈ (pyHeappop heap).2 :=
        pyHeappop_fst_mem _ (by omega)
      -- extract the assignment entry matched to the first pop
      have hn1A : (pyHeappop heap).1 ∈ assign.map Prod.fst :=
        hpm.mem_iff.mpr (hp1perm.mem_iff.mpr (List.mem_cons_self _ _))
      obtain ⟨e1, he1, he1fst⟩ := List.mem_map.mp hn1A
      obtain ⟨A1, hA1perm⟩ := extract_entry he1
      have hA1fst : List.Perm (A1.map Prod.fst)
          ((pyHeappop (pyHeappop heap).2).1 :: (pyHeappop (pyHeappop heap).2).2) := by
        have hstep : List.Perm (assign.map Prod.fst)
            ((pyHeappop heap).1 :: A1.map Prod.fst) := by
          have := hA1perm.map Prod.fst
          rw [List.map_cons, he1fst] at this
          exact this
        exact ((hstep.symm.trans (hpm.trans (hp1perm.trans (hp2perm.cons _))))).cons_inv
      -- extract the entry matched to the second pop
      have hn2A : (pyHeappop (pyHeappop heap).2).1 ∈ A1.map Prod.fst :=
        hA1fst.mem_iff.mpr (List.mem_cons_self _ _)
      obtain ⟨e2, he2, he2fst⟩ := List.mem_map.mp hn2A
      obtain ⟨A2, hA2perm⟩ := extract_entry he2
      have hA2fst : List.Perm (A2.map Prod.fst) (pyHeappop (pyHeappop heap).2).2 := by
        have hstep : List.Perm (A1.map Prod.fst)
            ((pyHeappop (pyHeappop heap).2).1 :: A2.map Prod.fst) := by
          have := hA2perm.map Prod.fst
          rw [List.map_cons, he2fst] at this
          exact this
        exact (hstep.symm.trans hA1fst).cons_inv
      have hsplit : List.Perm assign (e1 :: e2 :: A2) := hA1perm.trans (hA2perm.cons e1)
      -- feasibility in the split order
      have hfs : FeasibleN ((((pyHeappop heap).1).freq, e1.2) ::
          (((pyHeappop (pyHeappop heap).2).1).freq, e2.2) ::
          A2.map fun p => (p.1.freq, p.2)) := by
        refine feasibleN_perm ?_ hf
        have := hsplit.map fun p => (p.1.freq, p.2)
        rw [List.map_cons, List.map_cons, he1fst, he2fst] at this
        exact this
      -- the two popped frequencies are minimal
      have hm1 : ∀ a ∈ (( ((pyHeappop (pyHeappop heap).2).1).freq, e2.2) ::
          A2.map fun p => (p.1.freq, p.2)).map Prod.fst,
          ((pyHeappop heap).1).freq ≤ a := by
        intro a ha
        rw [List.map_cons] at ha
        rcases List.mem_cons.mp ha with rfl | ha'
        · exact hmin1 _ (pyHeappop_snd_subset heap _ hn2mem)
        · rw [List.map_map] at ha'
          obtain ⟨p, hp, hpa⟩ := List.mem_map.mp ha'
          have hp2 : p.1 ∈ (pyHeappop (pyHeappop heap).2).2 :=
            hA2fst.mem_iff.mp (List.mem_map_of_mem Prod.fst hp)
          rw [← hpa]
          exact hmin1 _ (pyHeappop_snd_subset heap _ (pyHeappop_snd_subset _ _ hp2))
      have hm2 : ∀ a ∈ (A2.map fun p => (p.1.freq, p.2)).map Prod.fst,
          ((pyHeappop (pyHeappop heap).2).1).freq ≤ a := by
        intro a ha
        rw [List.map_map] at ha
        obtain ⟨p, hp, hpa⟩ := List.mem_map.mp ha
        have hp2 : p.1 ∈ (pyHeappop (pyHeappop heap).2).2 :=
          hA2fst.mem_iff.mp (List.mem_map_of_mem Prod.fst hp)
        rw [← hpa]
        exact hmin2 _ (pyHeappop_snd_subset _ _ hp2)
      obtain ⟨m, rest', hfst', hfeas', hcost'⟩ := huffman_merge_step
        (e1.2 + e2.2 + (((A2.map fun p => (p.1.freq, p.2)).map fun z => z.2).sum))
        (((pyHeappop heap).1).freq) e1.2
        (((pyHeappop (pyHeappop heap).2).1).freq) e2.2
        (A2.map fun p => (p.1.freq, p.2))
        (Nat.le_refl _) hm1 hm2 hfs
      obtain ⟨as2, has2fst, has2fl⟩ := reattach_lengths A2 rest'
        (by rw [hfst', List.map_map]; rfl)
      have hpushlen : (pyHeappush (pyHeappop (pyHeappop heap).2).2
          (PyNode.mk none
            (((pyHeappop heap).1).freq + ((pyHeappop (pyHeappop heap).2).1).freq)
            (pyHeappop heap).1 (pyHeappop (pyHeappop heap).2).1)).length
          = heap.length - 1 := by
        rw [pyHeappush_length, hp2len]
        omega
      have hpushheap : IsHeap (pyHeappush (pyHeappop (pyHeappop heap).2).2
          (PyNode.mk none
            (((pyHeappop heap).1).freq + ((pyHeappop (pyHeappop heap).2).1).freq)
            (pyHeappop heap).1 (pyHeappop (pyHeappop heap).2).1)) :=
        pyHeappush_isHeap _ _ hheap3
      have hpushperm : List.Perm (((PyNode.mk none
            (((pyHeappop heap).1).freq + ((pyHeappop (pyHeappop heap).2).1).freq)
            (pyHeappop heap).1 (pyHeappop (pyHeappop heap).2).1, m) :: as2).map Prod.fst)
          (pyHeappush (pyHeappop (pyHeappop heap).2).2
            (PyNode.mk none
              (((pyHeappop heap).1).freq + ((pyHeappop (pyHeappop heap).2).1).freq)
              (pyHeappop heap).1 (pyHeappop (pyHeappop heap).2).1)) := by
        rw [List.map_cons, has2fst]
        exact (hA2fst.cons _).trans (pyHeappush_perm _ _).symm
      have hfeaspush : FeasibleN ((((PyNode.mk none
            (((pyHeappop heap).1).freq + ((pyHeappop (pyHeappop heap).2).1).freq)
            (pyHeappop heap).1 (pyHeappop (pyHeappop heap).2).1, m) :: as2)).map
          fun p => (p.1.freq, p.2)) := by
        rw [List.map_cons, has2fl]
        simpa using hfeas'
      have hrec := ih (pyHeappush (pyHeappop (pyHeappop heap).2).2
          (PyNode.mk none
            (((pyHeappop heap).1).freq + ((pyHeappop (pyHeappop heap).2).1).freq)
            (pyHeappop heap).1 (pyHeappop (pyHeappop heap).2).1))
        ((PyNode.mk none
            (((pyHeappop heap).1).freq + ((pyHeappop (pyHeappop heap).2).1).freq)
            (pyHeappop heap).1 (pyHeappop (pyHeappop heap).2).1, m) :: as2)
        (by omega) (by omega) hpushheap hpushperm hfeaspush
      refine le_trans hrec ?_
      have hsum_orig : (assign.map fun p => treeCost p.1 + p.1.freq * p.2).sum =
          (treeCost e1.1 + e1.1.freq * e1.2) + ((treeCost e2.1 + e2.1.freq * e2.2) +
            (A2.map fun p => treeCost p.1 + p.1.freq * p.2).sum) := by
        have := (hsplit.map fun p => treeCost p.1 + p.1.freq * p.2).sum_eq
        rw [List.map_cons, List.map_cons, List.sum_cons, List.sum_cons] at this
        exact this
      rw [hsum_orig]
      simp only [List.map_cons, List.sum_cons]
      rw [costSum_split as2, has2fst, has2fl, costSum_split A2]
      have hmrg : treeCost (PyNode.mk (α := α) none
          (((pyHeappop heap).1).freq + ((pyHeappop (pyHeappop heap).2).1).freq)
          (pyHeappop heap).1 (pyHeappop (pyHeappop heap).2).1) =
          treeCost (pyHeappop heap).1 + treeCost (pyHeappop (pyHeappop heap).2).1 +
            ((pyHeappop heap).1).freq + ((pyHeappop (pyHeappop heap).2).1).freq := rfl
      have hmrgf : (PyNode.mk (α := α) none
          (((pyHeappop heap).1).freq + ((pyHeappop (pyHeappop heap).2).1).freq)
          (pyHeappop heap).1 (pyHeappop (pyHeappop heap).2).1).freq =
          ((pyHeappop heap).1).freq + ((pyHeappop (pyHeappop heap).2).1).freq := rfl
      rw [hmrg, hmrgf, he1fst, he2fst]
      have hexp : (((pyHeappop heap).1).freq + ((pyHeappop (pyHeappop heap).2).1).freq) *
          (m + 1) = (((pyHeappop heap).1).freq + ((pyHeappop (pyHeappop heap).2).1).freq)
            * m + (((pyHeappop heap).1).freq + ((pyHeappop (pyHeappop heap).2).1).freq) := by
        ring
      rw [hexp] at hcost'
      omega
    · rw [if_neg hbig]
      have hlen1 : heap.length = 1 := by omega
      cases heap with
      | nil => simp at hlen1
      | cons x xs =>
        cases xs with
        | cons y ys => simp at hlen1
        | nil =>
          rw [hget_cons_zero]
          have hone : assign.map Prod.fst = [x] := List.perm_singleton.mp hpm
          cases assign with
          | nil => simp at hone
          | cons e es =>
            cases es with
            | cons e2 es2 => simp at hone
            | nil =>
              rw [List.map_cons, List.map_nil] at hone
              have hex : e.1 = x := List.head_eq_of_cons_eq hone
              rw [List.map_cons, List.map_nil, List.sum_cons, List.sum_nil, hex]
              omega

/-! The merge loop builds a frequency-consistent tree whose leaves are
exactly the input table entries (as a multiset). -/

lemma goodTree_proper {α : Type} {t : PyNode α} (h : GoodTree t) : Proper t := by
  induction h with
  | leaf c f => exact Proper.leaf c f
  | node hl hr ihl ihr => exact Proper.node _ ihl ihr

lemma leavesAll_perm {α : Type} :
    ∀ {l l' : List (PyNode α)}, List.Perm l l' →
      List.Perm (leavesAll l) (leavesAll l') := by
  intro l l' hp
  induction hp with
  | nil => exact List.Perm.refl _
  | cons x _ ih => exact ih.append_left (leaves x)
  | swap x y l =>
    simp only [leavesAll]
    rw [← List.append_assoc, ← List.append_assoc]
    exact (List.perm_append_comm.append_right (leavesAll l))
  | trans _ _ ih1 ih2 => exact ih1.trans ih2

lemma mergeLoop_good_leaves {α : Type} :
    ∀ (fuel : Nat) (heap : List (PyNode α)), 0 < heap.length →
      heap.length ≤ fuel + 1 → (∀ x ∈ heap, GoodTree x) →
      (mergeLoop fuel heap).length = 1 ∧ (∀ x ∈ mergeLoop fuel heap, GoodTree x) ∧
        List.Perm (leavesAll (mergeLoop fuel heap)) (leavesAll heap) := by
  intro fuel
  induction fuel with
  | zero =>
    intro heap h1 h2 hg
    simp only [mergeLoop]
    exact ⟨by omega, hg, List.Perm.refl _⟩
  | succ fuel ih =>
    intro heap h1 h2 hg
    simp only [mergeLoop]
    by_cases hbig : 1 < heap.length
    · rw [if_pos hbig]
      have hp1perm : List.Perm heap ((pyHeappop heap).1 :: (pyHeappop heap).2) :=
        pyHeappop_perm heap (by omega)
      have hp1len : (pyHeappop heap).2.length = heap.length - 1 :=
        pyHeappop_snd_length heap (by omega)
      have hp2perm : List.Perm (pyHeappop heap).2
          ((pyHeappop (pyHeappop heap).2).1 :: (pyHeappop (pyHeappop heap).2).2) :=
        pyHeappop_perm _ (by omega)
      have hp2len : (pyHeappop (pyHeappop heap).2).2.length = heap.length - 2 := by
        rw [pyHeappop_snd_length _ (by omega), hp1len]
        omega
      have hg1 : GoodTree (pyHeappop heap).1 := hg _ (pyHeappop_fst_mem heap (by omega))
      have hg2 : GoodTree (pyHeappop (pyHeappop heap).2).1 :=
        hg _ (pyHeappop_snd_subset heap _ (pyHeappop_fst_mem _ (by omega)))
      have hgm : GoodTree (PyNode.mk (α := α) none
          (((pyHeappop heap).1).freq + ((pyHeappop (pyHeappop heap).2).1).freq)
          (pyHeappop heap).1 (pyHeappop (pyHeappop heap).2).1) :=
        GoodTree.node hg1 hg2
      have hgpush : ∀ x ∈ pyHeappush (pyHeappop (pyHeappop heap).2).2
          (PyNode.mk none
            (((pyHeappop heap).1).freq + ((pyHeappop (pyHeappop heap).2).1).freq)
            (pyHeappop heap).1 (pyHeappop (pyHeappop heap).2).1), GoodTree x := by
        intro x hx
        rcases pyHeappush_subset _ _ x hx with h | h
        · exact hg _ (pyHeappop_snd_subset heap _ (pyHeappop_snd_subset _ _ h))
        · rw [h]
          exact hgm
      have hlenpush : (pyHeappush (pyHeappop (pyHeappop heap).2).2
          (PyNode.mk none
            (((pyHeappop heap).1).freq + ((pyHeappop (pyHeappop heap).2).1).freq)
            (pyHeappop heap).1 (pyHeappop (pyHeappop heap).2).1)).length
          = heap.length - 1 := by
        rw [pyHeappush_length, hp2len]
        omega
      obtain ⟨hl1, hgall, hlperm⟩ := ih (pyHeappush (pyHeappop (pyHeappop heap).2).2
          (PyNode.mk none
            (((pyHeappop heap).1).freq + ((pyHeappop (pyHeappop heap).2).1).freq)
            (pyHeappop heap).1 (pyHeappop (pyHeappop heap).2).1))
        (by omega) (by omega) hgpush
      refine ⟨hl1, hgall, hlperm.trans ?_⟩
      have hpush := leavesAll_perm (α := α)
        (pyHeappush_perm (pyHeappop (pyHeappop heap).2).2
          (PyNode.mk none
            (((pyHeappop heap).1).freq + ((pyHeappop (pyHeappop heap).2).1).freq)
            (pyHeappop heap).1 (pyHeappop (pyHeappop heap).2).1))
      refine hpush.trans ?_
      have hstep2 := leavesAll_perm (α := α) hp2perm
      have hstep1 := leavesAll_perm (α := α) hp1perm
      simp only [leavesAll, leaves] at hstep1 hstep2 ⊢
      refine List.Perm.trans ?_ hstep1.symm
      refine List.Perm.trans ?_ (hstep2.append_left (leaves (pyHeappop heap).1)).symm
      rw [← List.append_assoc]
    · rw [if_neg hbig]
      exact ⟨by omega, hg, List.Perm.refl _⟩

lemma leavesAll_leaf_map {α : Type} :
    ∀ (fd : List (α × Nat)),
      leavesAll (fd.map fun p => PyNode.mk (some p.1) p.2 PyNode.nil PyNode.nil) = fd := by
  intro fd
  induction fd with
  | nil => rfl
  | cons p ps ih =>
    simp only [List.map_cons, leavesAll, leaves, ih]
    rfl

lemma from_freq_good {α : Type} (fd : List (α × Nat)) (h : fd ≠ []) :
    ∃ t, from_freq fd = some t ∧ GoodTree t ∧ List.Perm (leaves t) fd := by
  cases fd with
  | nil => exact absurd rfl h
  | cons f0 fds =>
    have hlen : (pyHeapify ((f0 :: fds).map fun p =>
        PyNode.mk (some p.1) p.2 PyNode.nil PyNode.nil)).length = fds.length + 1 := by
      rw [pyHeapify_length]
      simp
    have hgood : ∀ x ∈ pyHeapify ((f0 :: fds).map fun p =>
        PyNode.mk (some p.1) p.2 PyNode.nil PyNode.nil), GoodTree x := by
      intro x hx
      rcases List.mem_map.mp (pyHeapify_subset _ x hx) with ⟨p, -, rfl⟩
      exact GoodTree.leaf p.1 p.2
    obtain ⟨hfinal, hfgood, hfleaves⟩ := mergeLoop_good_leaves
      (pyHeapify ((f0 :: fds).map fun p =>
        PyNode.mk (some p.1) p.2 PyNode.nil PyNode.nil)).length
      (pyHeapify ((f0 :: fds).map fun p =>
        PyNode.mk (some p.1) p.2 PyNode.nil PyNode.nil))
      (by rw [hlen]; omega) (by omega) hgood
    refine ⟨_, rfl, hfgood _ (hget_mem (by rw [hfinal]; omega)), ?_⟩
    have hheapleaves : List.Perm (leavesAll (pyHeapify ((f0 :: fds).map fun p =>
        PyNode.mk (some p.1) p.2 PyNode.nil PyNode.nil))) (f0 :: fds) := by
      have := leavesAll_perm (α := α) (pyHeapify_perm ((f0 :: fds).map fun p =>
        PyNode.mk (some p.1) p.2 PyNode.nil PyNode.nil))
      rw [leavesAll_leaf_map] at this
      exact this
    have hfin := hfleaves.trans hheapleaves
    -- the final heap is the single tree returned
    set F := mergeLoop
      (pyHeapify ((f0 :: fds).map fun p =>
        PyNode.mk (some p.1) p.2 PyNode.nil PyNode.nil)).length
      (pyHeapify ((f0 :: fds).map fun p =>
        PyNode.mk (some p.1) p.2 PyNode.nil PyNode.nil)) with hF
    cases Fv : F with
    | nil => rw [Fv] at hfinal; simp at hfinal
    | cons x xs =>
      cases xs with
      | cons y ys => rw [Fv] at hfinal; simp at hfinal
      | nil =>
        rw [Fv] at hfin
        simp only [leavesAll, List.append_nil] at hfin
        rw [hget_cons_zero]
        exact hfin

/-! The weighted code length of the generated codebook equals the tree
cost, for frequency-consistent trees with an internal root. -/

lemma dictInsert_append {α β : Type} [DecidableEq α] :
    ∀ (book : List (α × β)) (k : α) (v : β), k ∉ book.map Prod.fst →
      dictInsert book k v = book ++ [(k, v)] := by
  intro book
  induction book with
  | nil => intro k v _; rfl
  | cons e es ih =>
    intro k v hk
    rw [List.map_cons, List.mem_cons] at hk
    obtain ⟨e1, e2⟩ := e
    simp only [dictInsert]
    rw [if_neg (by simpa using fun h => hk (Or.inl h.symm))]
    rw [List.cons_append, ih k v (fun h => hk (Or.inr h))]

lemma codeEntries_fst {α : Type} :
    ∀ (t : PyNode α) (pre : List Char),
      (codeEntries t pre).map Prod.fst = (leaves t).map Prod.fst := by
  intro t
  induction t with
  | nil => intro pre; rfl
  | mk c f l r ihl ihr =>
    intro pre
    cases c with
    | some c0 => rfl
    | none =>
      simp only [codeEntries, leaves, List.map_append, ihl, ihr]

lemma buildCodes_entries {α : Type} [DecidableEq α] :
    ∀ (t : PyNode α) (pre : List Char) (book : List (α × List Char)),
      ((leaves t).map Prod.fst).Nodup →
      (∀ s ∈ (leaves t).map Prod.fst, s ∉ book.map Prod.fst) →
      buildCodes t pre book = book ++ codeEntries t pre := by
  intro t
  induction t with
  | nil => intro pre book _ _; simp [buildCodes, codeEntries]
  | mk c f l r ihl ihr =>
    intro pre book hnd hdisj
    cases c with
    | some c0 =>
      simp only [buildCodes, codeEntries]
      exact dictInsert_append book c0 pre (hdisj c0 (by simp [leaves]))
    | none =>
      simp only [buildCodes, codeEntries]
      simp only [leaves, List.map_append] at hnd hdisj
      rw [List.nodup_append] at hnd
      obtain ⟨hndl, hndr, hdisjlr⟩ := hnd
      rw [ihl (pre ++ ['0']) book hndl
        (fun s hs => hdisj s (List.mem_append.mpr (Or.inl hs)))]
      rw [ihr (pre ++ ['1']) (book ++ codeEntries l (pre ++ ['0'])) hndr ?_]
      · rw [List.append_assoc]
      · intro s hs hmem
        rw [List.map_append, List.mem_append, codeEntries_fst] at hmem
        rcases hmem with h | h
        · exact hdisj s (List.mem_append.mpr (Or.inr hs)) h
        · exact hdisjlr h hs

lemma dictGet_append_left {α β : Type} [DecidableEq α] :
    ∀ (a b : List (α × β)) (s : α) (v : β), dictGet a s = some v →
      dictGet (a ++ b) s = some v := by
  intro a
  induction a with
  | nil => intro b s v h; simp [dictGet] at h
  | cons e es ih =>
    intro b s v h
    obtain ⟨e1, e2⟩ := e
    simp only [dictGet] at h ⊢
    by_cases he : e1 = s
    · rw [if_pos he] at h ⊢
      exact h
    · rw [if_neg he] at h ⊢
      exact ih b s v h

lemma dictGet_append_right {α β : Type} [DecidableEq α] :
    ∀ (a b : List (α × β)) (s : α), s ∉ a.map Prod.fst →
      dictGet (a ++ b) s = dictGet b s := by
  intro a
  induction a with
  | nil => intro b s _; rfl
  | cons e es ih =>
    intro b s hs
    rw [List.map_cons, List.mem_cons] at hs
    obtain ⟨e1, e2⟩ := e
    simp only [dictGet]
    rw [if_neg (by simpa using fun h => hs (Or.inl h.symm))]
    exact ih b s (fun h => hs (Or.inr h))

lemma dictGet_codeEntries {α : Type} [DecidableEq α] :
    ∀ (t : PyNode α) (pre : List Char) (s : α) (w : Nat),
      ((leaves t).map Prod.fst).Nodup → (s, w) ∈ leaves t →
      ∃ p, PathTo t p s ∧ dictGet (codeEntries t pre) s = some (pre ++ p) := by
  intro t
  induction t with
  | nil => intro pre s w _ hm; simp [leaves] at hm
  | mk c f l r ihl ihr =>
    intro pre s w hnd hm
    cases c with
    | some c0 =>
      simp only [leaves, List.mem_singleton] at hm
      have hs : s = c0 := by
        have := congrArg Prod.fst hm
        simpa using this
      subst hs
      refine ⟨[], PathTo.here, ?_⟩
      simp [codeEntries, dictGet]
    | none =>
      simp only [leaves, List.mem_append] at hm
      simp only [leaves, List.map_append] at hnd
      rw [List.nodup_append] at hnd
      obtain ⟨hndl, hndr, hdisjlr⟩ := hnd
      simp only [codeEntries]
      rcases hm with hm | hm
      · obtain ⟨p, hpath, hget⟩ := ihl (pre ++ ['0']) s w hndl hm
        refine ⟨'0' :: p, PathTo.stepL hpath, ?_⟩
        rw [dictGet_append_left _ _ s _ hget, List.append_assoc]
        rfl
      · have hsnotl : s ∉ (codeEntries l (pre ++ ['0'])).map Prod.fst := by
          rw [codeEntries_fst]
          intro hsl
          exact hdisjlr hsl (List.mem_map_of_mem Prod.fst hm)
        obtain ⟨p, hpath, hget⟩ := ihr (pre ++ ['1']) s w hndr hm
        refine ⟨'1' :: p, PathTo.stepR hpath, ?_⟩
        rw [dictGet_append_right _ _ s hsnotl, hget, List.append_assoc]
        rfl

lemma pathTo_mem_leaves {α : Type} :
    ∀ {t : PyNode α} {p : List Char} {s : α}, PathTo t p s →
      s ∈ (leaves t).map Prod.fst := by
  intro t p s h
  induction h with
  | here => simp [leaves]
  | stepL h ih =>
    simp only [leaves, List.map_append, List.mem_append]
    exact Or.inl ih
  | stepR h ih =>
    simp only [leaves, List.map_append, List.mem_append]
    exact Or.inr ih

lemma pathTo_unique_path {α : Type} :
    ∀ {t : PyNode α} {p q : List Char} {s : α},
      ((leaves t).map Prod.fst).Nodup → PathTo t p s → PathTo t q s → p = q := by
  intro t p q s hnd hp
  induction hp generalizing q with
  | here =>
    intro hq
    cases hq with
    | here => rfl
  | stepL h ih =>
    intro hq
    rename_i t0 f0 l0 r0 p0
    simp only [leaves, List.map_append] at hnd
    rw [List.nodup_append] at hnd
    obtain ⟨hndl, hndr, hdisjlr⟩ := hnd
    cases hq with
    | stepL h' => exact congrArg (List.cons '0') (ih hndl h')
    | stepR h' => exact absurd (pathTo_mem_leaves h') (hdisjlr (pathTo_mem_leaves h))
  | stepR h ih =>
    intro hq
    rename_i t0 f0 l0 r0 p0
    simp only [leaves, List.map_append] at hnd
    rw [List.nodup_append] at hnd
    obtain ⟨hndl, hndr, hdisjlr⟩ := hnd
    cases hq with
    | stepL h' => exact absurd (pathTo_mem_leaves h) (hdisjlr (pathTo_mem_leaves h'))
    | stepR h' => exact congrArg (List.cons '1') (ih hndr h')

lemma treeCost_leaves {α : Type} :
    ∀ {t : PyNode α}, GoodTree t → ∀ (g : α → Nat) (d : Nat),
      (∀ s w, (s, w) ∈ leaves t → ∀ p, PathTo t p s → g s = d + p.length) →
      ((leaves t).map fun q => q.2 * g q.1).sum = treeCost t + d * t.freq := by
  intro t hg
  induction hg with
  | leaf c f =>
    intro g d hlen
    have hgc : g c = d := by
      have := hlen c f (by simp [leaves]) [] PathTo.here
      simpa using this
    simp [leaves, treeCost, hgc, Nat.mul_comm]
  | node hl hr ihl ihr =>
    intro g d hlen
    rename_i l r
    have hsl : ((leaves l).map fun q => q.2 * g q.1).sum = treeCost l + (d + 1) * l.freq := by
      refine ihl g (d + 1) ?_
      intro s w hm p hp
      have := hlen s w (by simp only [leaves, List.mem_append]; exact Or.inl hm)
        ('0' :: p) (PathTo.stepL hp)
      simp only [List.length_cons] at this
      omega
    have hsr : ((leaves r).map fun q => q.2 * g q.1).sum = treeCost r + (d + 1) * r.freq := by
      refine ihr g (d + 1) ?_
      intro s w hm p hp
      have := hlen s w (by simp only [leaves, List.mem_append]; exact Or.inr hm)
        ('1' :: p) (PathTo.stepR hp)
      simp only [List.length_cons] at this
      omega
    simp only [leaves, List.map_append, List.sum_append, hsl, hsr, treeCost,
      PyNode.freq_mk]
    ring

lemma weightedLength_eq_treeCost {α : Type} [DecidableEq α]
    (t : PyNode α) (fd : List (α × Nat)) (hg : GoodTree t) (hchar : t.char = none)
    (hperm : List.Perm (leaves t) fd) (hnd : (fd.map Prod.fst).Nodup) :
    weightedLength fd (generate_codes t) = treeCost t := by
  have hndl : ((leaves t).map Prod.fst).Nodup := by
    have := (hperm.map Prod.fst).nodup_iff
    exact this.mpr hnd
  have hbook : generate_codes t = codeEntries t [] := by
    rw [generate_codes, hchar]
    rw [buildCodes_entries t [] [] hndl (by simp)]
    rfl
  rw [weightedLength, hbook]
  have hsum := (hperm.map fun p =>
    p.2 * ((dictGet (codeEntries t []) p.1).getD []).length).sum_eq
  rw [← hsum]
  have := treeCost_leaves hg
    (fun s => ((dictGet (codeEntries t []) s).getD []).length) 0 ?_
  · rw [this]
    omega
  · intro s w hm p hp
    obtain ⟨p0, hpath0, hget0⟩ := dictGet_codeEntries t [] s w hndl hm
    have hpp : p0 = p := pathTo_unique_path hndl hpath0 hp
    simp only []
    rw [hget0]
    simp [hpp]

/-! Every prefix-free set of binary codes satisfies the Kraft inequality
(in the form scaled by `2 ^ L`). -/

lemma headSplit_eq (b : Char) :
    ∀ (c t : List Char),
      (if c.head? = some b then some c.tail else none) = some t → c = b :: t := by
  intro c t h
  cases c with
  | nil => simp at h
  | cons x t' =>
    simp only [List.head?_cons, List.tail_cons] at h
    by_cases hx : x = b
    · rw [if_pos (by rw [hx])] at h
      injection h with h'
      rw [hx, h']
    · rw [if_neg (by simpa using hx)] at h
      exact absurd h (by simp)

lemma kraft_split (L : Nat) :
    ∀ (codes : List (List Char)),
      (∀ c ∈ codes, c ≠ []) →
      (∀ c ∈ codes, ∀ ch ∈ c, ch = '0' ∨ ch = '1') →
      (∀ c ∈ codes, c.length ≤ L + 1) →
      (codes.map fun c => 2 ^ (L + 1 - c.length)).sum =
        ((codes.filterMap fun c =>
            if c.head? = some '0' then some c.tail else none).map
          fun t => 2 ^ (L - t.length)).sum +
        ((codes.filterMap fun c =>
            if c.head? = some '1' then some c.tail else none).map
          fun t => 2 ^ (L - t.length)).sum := by
  intro codes
  induction codes with
  | nil => intro _ _ _; simp
  | cons c cs ih =>
    intro hne hbin hlen
    have hihs := ih (fun d hd => hne d (List.mem_cons_of_mem _ hd))
      (fun d hd => hbin d (List.mem_cons_of_mem _ hd))
      (fun d hd => hlen d (List.mem_cons_of_mem _ hd))
    match hc : c with
    | [] => exact absurd rfl (hne [] (List.mem_cons_self _ _))
    | x :: t =>
      have hxb : x = '0' ∨ x = '1' :=
        hbin (x :: t) (List.mem_cons_self _ _) x (List.mem_cons_self _ _)
      have hexp : 2 ^ (L + 1 - (x :: t).length) = 2 ^ (L - t.length) := by
        have := hlen (x :: t) (List.mem_cons_self _ _)
        simp only [List.length_cons] at this ⊢
        congr 1
        omega
      rcases hxb with rfl | rfl
      · have hsome0 : List.filterMap
            (fun c => if c.head? = some '0' then some c.tail else none)
            (('0' :: t) :: cs) = t :: List.filterMap
            (fun c => if c.head? = some '0' then some c.tail else none) cs := by
          simp [List.filterMap_cons]
        have hnone1 : List.filterMap
            (fun c => if c.head? = some '1' then some c.tail else none)
            (('0' :: t) :: cs) = List.filterMap
            (fun c => if c.head? = some '1' then some c.tail else none) cs := by
          simp [List.filterMap_cons]
        rw [List.map_cons, List.sum_cons, hexp, hihs, hsome0, hnone1,
          List.map_cons, List.sum_cons]
        omega
      · have hnone0 : List.filterMap
            (fun c => if c.head? = some '0' then some c.tail else none)
            (('1' :: t) :: cs) = List.filterMap
            (fun c => if c.head? = some '0' then some c.tail else none) cs := by
          simp [List.filterMap_cons]
        have hsome1 : List.filterMap
            (fun c => if c.head? = some '1' then some c.tail else none)
            (('1' :: t) :: cs) = t :: List.filterMap
            (fun c => if c.head? = some '1' then some c.tail else none) cs := by
          simp [List.filterMap_cons]
        rw [List.map_cons, List.sum_cons, hexp, hihs, hnone0, hsome1,
          List.map_cons, List.sum_cons]
        omega

lemma kraft_binary :
    ∀ (L : Nat) (codes : List (List Char)),
      (∀ c ∈ codes, c.length ≤ L) →
      (∀ c ∈ codes, ∀ ch ∈ c, ch = '0' ∨ ch = '1') →
      codes.Pairwise (fun a b => (¬ ∃ s, a ++ s = b) ∧ ¬ ∃ s, b ++ s = a) →
      (codes.map fun c => 2 ^ (L - c.length)).sum ≤ 2 ^ L := by
  intro L
  induction L with
  | zero =>
    intro codes hlen _ hpw
    cases codes with
    | nil => simp
    | cons c1 cs =>
      cases cs with
      | nil =>
        have h1 : c1.length = 0 := by
          have := hlen c1 (List.mem_cons_self _ _)
          omega
        simp [h1]
      | cons c2 cs2 =>
        exfalso
        have hrel := (List.pairwise_cons.mp hpw).1 c2 (List.mem_cons_self _ _)
        have h1 : c1 = [] := List.length_eq_zero.mp (by
          have := hlen c1 (List.mem_cons_self _ _)
          omega)
        have h2 : c2 = [] := List.length_eq_zero.mp (by
          have := hlen c2 (List.mem_cons_of_mem _ (List.mem_cons_self _ _))
          omega)
        exact hrel.1 ⟨[], by simp [h1, h2]⟩
  | succ L ih =>
    intro codes hlen hbin hpw
    by_cases hnil : ([] : List Char) ∈ codes
    · have hsym : Symmetric (fun a b : List Char =>
          (¬ ∃ s, a ++ s = b) ∧ ¬ ∃ s, b ++ s = a) := by
        intro a b hab
        exact ⟨hab.2, hab.1⟩
      have hall : ∀ c ∈ codes, c = [] := by
        intro c hc
        by_contra hne
        have hrel := List.Pairwise.forall hsym hpw hnil hc (fun h => hne h.symm)
        exact hrel.1 ⟨c, by simp⟩
      cases codes with
      | nil => simp
      | cons c1 cs =>
        cases cs with
        | nil =>
          simp only [List.map_cons, List.map_nil, List.sum_cons, List.sum_nil]
          have : 2 ^ (L + 1 - c1.length) ≤ 2 ^ (L + 1) :=
            Nat.pow_le_pow_right (by omega) (by omega)
          omega
        | cons c2 cs2 =>
          exfalso
          have hrel := (List.pairwise_cons.mp hpw).1 c2 (List.mem_cons_self _ _)
          have h1 : c1 = [] := hall c1 (List.mem_cons_self _ _)
          have h2 : c2 = [] := hall c2 (List.mem_cons_of_mem _ (List.mem_cons_self _ _))
          exact hrel.1 ⟨[], by simp [h1, h2]⟩
    · have hne : ∀ c ∈ codes, c ≠ [] := by
        intro c hc hceq
        rw [hceq] at hc
        exact hnil hc
      rw [kraft_split L codes hne hbin hlen]
      have hmem0 : ∀ t ∈ codes.filterMap fun c =>
          (if c.head? = some '0' then some c.tail else none), ('0' :: t) ∈ codes := by
        intro t ht
        obtain ⟨c, hc, hfc⟩ := List.mem_filterMap.mp ht
        rw [← headSplit_eq '0' c t hfc]
        exact hc
      have hmem1 : ∀ t ∈ codes.filterMap fun c =>
          (if c.head? = some '1' then some c.tail else none), ('1' :: t) ∈ codes := by
        intro t ht
        obtain ⟨c, hc, hfc⟩ := List.mem_filterMap.mp ht
        rw [← headSplit_eq '1' c t hfc]
        exact hc
      have hpw0 : (codes.filterMap fun c =>
          (if c.head? = some '0' then some c.tail else none)).Pairwise
          (fun a b => (¬ ∃ s, a ++ s = b) ∧ ¬ ∃ s, b ++ s = a) := by
        refine List.pairwise_filterMap.mpr (hpw.imp ?_)
        intro a b hab x hx y hy
        rw [headSplit_eq '0' a x hx, headSplit_eq '0' b y hy] at hab
        constructor
        · rintro ⟨s, hs⟩
          exact hab.1 ⟨s, by rw [← hs]; rfl⟩
        · rintro ⟨s, hs⟩
          exact hab.2 ⟨s, by rw [← hs]; rfl⟩
      have hpw1 : (codes.filterMap fun c =>
          (if c.head? = some '1' then some c.tail else none)).Pairwise
          (fun a b => (¬ ∃ s, a ++ s = b) ∧ ¬ ∃ s, b ++ s = a) := by
        refine List.pairwise_filterMap.mpr (hpw.imp ?_)
        intro a b hab x hx y hy
        rw [headSplit_eq '1' a x hx, headSplit_eq '1' b y hy] at hab
        constructor
        · rintro ⟨s, hs⟩
          exact hab.1 ⟨s, by rw [← hs]; rfl⟩
        · rintro ⟨s, hs⟩
          exact hab.2 ⟨s, by rw [← hs]; rfl⟩
      have hb0 := ih (codes.filterMap fun c =>
          (if c.head? = some '0' then some c.tail else none))
        (fun t ht => by
          have := hlen ('0' :: t) (hmem0 t ht)
          simp only [List.length_cons] at this
          omega)
        (fun t ht ch hch => hbin ('0' :: t) (hmem0 t ht) ch (List.mem_cons_of_mem _ hch))
        hpw0
      have hb1 := ih (codes.filterMap fun c =>
          (if c.head? = some '1' then some c.tail else none))
        (fun t ht => by
          have := hlen ('1' :: t) (hmem1 t ht)
          simp only [List.length_cons] at this
          omega)
        (fun t ht ch hch => hbin ('1' :: t) (hmem1 t ht) ch (List.mem_cons_of_mem _ hch))
        hpw1
      have hpow : (2 : Nat) ^ (L + 1) = 2 ^ L + 2 ^ L := by
        rw [pow_succ]
        omega
      omega

/-! Assembly: the tree built by `from_freq` yields a codebook of minimal
weighted total length among all binary prefix codes for the table. -/

lemma goodTree_leaves_ne_nil {α : Type} {t : PyNode α} (hg : GoodTree t) :
    leaves t ≠ [] := by
  induction hg with
  | leaf c f => simp [leaves]
  | node hl hr ihl ihr =>
    simp only [leaves]
    intro h
    rcases List.append_eq_nil.mp h with ⟨h1, -⟩
    exact ihl h1

lemma from_freq_min_cost {α : Type} [DecidableEq α]
    (fd : List (α × Nat)) (t : PyNode α) (cb : List (α × List Char))
    (hne : fd ≠ []) (hnd : (fd.map Prod.fst).Nodup)
    (ht : from_freq fd = some t)
    (hcov : ∀ p ∈ fd, ∃ c, dictGet cb p.1 = some c ∧ c ≠ [] ∧
      ∀ ch ∈ c, ch = '0' ∨ ch = '1')
    (hpf : ∀ p ∈ fd, ∀ q ∈ fd, p.1 ≠ q.1 → ∀ cp cq, dictGet cb p.1 = some cp →
      dictGet cb q.1 = some cq → ¬ ∃ s, cp ++ s = cq) :
    weightedLength fd (generate_codes t) ≤ weightedLength fd cb := by
  obtain ⟨t', ht', hg, hperm⟩ := from_freq_good fd hne
  rw [ht] at ht'
  injection ht' with htt
  subst htt
  cases fd with
  | nil => exact absurd rfl hne
  | cons f0 fds =>
    cases fds with
    | nil =>
      -- single-symbol table: the leaf gets the special one-bit code "0"
      have hlv : leaves t = [f0] := List.perm_singleton.mp hperm
      cases hg with
      | node hl hr =>
        exfalso
        simp only [leaves] at hlv
        rename_i l r
        have hlnil := goodTree_leaves_ne_nil hl
        have hrnil := goodTree_leaves_ne_nil hr
        cases hll : leaves l with
        | nil => exact hlnil hll
        | cons a as =>
          cases hrr : leaves r with
          | nil => exact hrnil hrr
          | cons b bs =>
            rw [hll, hrr] at hlv
            simp at hlv
      | leaf c f =>
        simp only [leaves, List.cons.injEq] at hlv
        obtain ⟨hcf, -⟩ := hlv
        obtain ⟨code, hcode, hcne, -⟩ := hcov f0 (List.mem_cons_self _ _)
        rw [← hcf] at hcode ⊢
        have hcode' : dictGet cb c = some code := hcode
        have hL : weightedLength [(c, f)] (generate_codes
            (PyNode.mk (some c) f PyNode.nil PyNode.nil)) = f := by
          simp [weightedLength, generate_codes, dictGet]
        have hR : weightedLength [(c, f)] cb = f * code.length := by
          simp [weightedLength, hcode']
        rw [hL, hR]
        have h1 : 1 ≤ code.length := by
          cases code with
          | nil => exact absurd rfl hcne
          | cons a as => simp
        calc f = f * 1 := by omega
          _ ≤ f * code.length := Nat.mul_le_mul_left f h1
    | cons f1 fds1 =>
      -- at least two symbols: the root is internal
      have hchar : t.char = none := by
        cases hg with
        | leaf c f =>
          have := hperm.length_eq
          simp [leaves] at this
        | node hl hr => simp
      rw [weightedLength_eq_treeCost t (f0 :: f1 :: fds1) hg hchar hperm hnd]
      -- run the cost-bound engine against the competitor's code lengths
      have hungen : from_freq (f0 :: f1 :: fds1) = some (hget (mergeLoop
          (pyHeapify ((f0 :: f1 :: fds1).map fun p =>
            PyNode.mk (some p.1) p.2 PyNode.nil PyNode.nil)).length
          (pyHeapify ((f0 :: f1 :: fds1).map fun p =>
            PyNode.mk (some p.1) p.2 PyNode.nil PyNode.nil))) 0) := rfl
      rw [ht] at hungen
      injection hungen with hteq
      have hhlen : (pyHeapify ((f0 :: f1 :: fds1).map fun p =>
          PyNode.mk (some p.1) p.2 PyNode.nil PyNode.nil)).length
          = fds1.length + 2 := by
        rw [pyHeapify_length]
        simp
      have hcodes_of : ∀ p ∈ f0 :: f1 :: fds1,
          dictGet cb p.1 = some ((dictGet cb p.1).getD []) ∧
          ((dictGet cb p.1).getD [] ≠ []) ∧
          ∀ ch ∈ (dictGet cb p.1).getD [], ch = '0' ∨ ch = '1' := by
        intro p hp
        obtain ⟨c, hc, hcne, hcbin⟩ := hcov p hp
        rw [hc, Option.getD_some]
        exact ⟨rfl, hcne, hcbin⟩
      have hfeas : FeasibleN (((f0 :: f1 :: fds1).map fun p =>
          (PyNode.mk (α := α) (some p.1) p.2 PyNode.nil PyNode.nil,
            ((dictGet cb p.1).getD []).length)).map fun q => (q.1.freq, q.2)) := by
        rw [List.map_map]
        have heq : (((f0 :: f1 :: fds1).map fun p =>
            ((fun q : PyNode α × Nat => (q.1.freq, q.2)) ∘ fun p =>
              (PyNode.mk (α := α) (some p.1) p.2 PyNode.nil PyNode.nil,
                ((dictGet cb p.1).getD []).length)) p)) =
            ((f0 :: f1 :: fds1).map fun p =>
              (p.2, ((dictGet cb p.1).getD []).length)) := rfl
        rw [show ((fun q : PyNode α × Nat => (q.1.freq, q.2)) ∘ fun p : α × Nat =>
            (PyNode.mk (α := α) (some p.1) p.2 PyNode.nil PyNode.nil,
              ((dictGet cb p.1).getD []).length)) = fun p : α × Nat =>
            (p.2, ((dictGet cb p.1).getD []).length) from rfl]
        refine ⟨maxLen ((f0 :: f1 :: fds1).map fun p =>
          (p.2, ((dictGet cb p.1).getD []).length)), ?_, ?_⟩
        · intro y hy
          exact mem_le_maxLen _ y hy
        · have hksum : kSum (maxLen ((f0 :: f1 :: fds1).map fun p =>
              (p.2, ((dictGet cb p.1).getD []).length)))
              ((f0 :: f1 :: fds1).map fun p =>
                (p.2, ((dictGet cb p.1).getD []).length)) =
              (((f0 :: f1 :: fds1).map fun p => (dictGet cb p.1).getD []).map
                fun c => 2 ^ ((maxLen ((f0 :: f1 :: fds1).map fun p =>
                  (p.2, ((dictGet cb p.1).getD []).length))) - c.length)).sum := by
            rw [kSum, List.map_map, List.map_map]
            rfl
          rw [hksum]
          refine kraft_binary _ _ ?_ ?_ ?_
          · intro c hc
            obtain ⟨p, hp, hpc⟩ := List.mem_map.mp hc
            have : (p.2, ((dictGet cb p.1).getD []).length) ∈
                (f0 :: f1 :: fds1).map fun p =>
                  (p.2, ((dictGet cb p.1).getD []).length) :=
              List.mem_map_of_mem _ hp
            have hb := mem_le_maxLen _ _ this
            rw [← hpc]
            exact hb
          · intro c hc ch hch
            obtain ⟨p, hp, hpc⟩ := List.mem_map.mp hc
            obtain ⟨-, -, hbin⟩ := hcodes_of p hp
            rw [← hpc] at hch
            exact hbin ch hch
          · refine List.pairwise_map.mpr ?_
            have hpwfd : (f0 :: f1 :: fds1).Pairwise (fun a b => a.1 ≠ b.1) :=
              List.pairwise_map.mp hnd
            refine hpwfd.imp_of_mem ?_
            intro p q hp hq hpq
            obtain ⟨hpgetc, -, -⟩ := hcodes_of p hp
            obtain ⟨hqgetc, -, -⟩ := hcodes_of q hq
            constructor
            · exact hpf p hp q hq hpq _ _ hpgetc hqgetc
            · exact hpf q hq p hp (fun h => hpq h.symm) _ _ hqgetc hpgetc
      have hassignperm : List.Perm (((f0 :: f1 :: fds1).map fun p =>
          (PyNode.mk (α := α) (some p.1) p.2 PyNode.nil PyNode.nil,
            ((dictGet cb p.1).getD []).length)).map Prod.fst)
          (pyHeapify ((f0 :: f1 :: fds1).map fun p =>
            PyNode.mk (some p.1) p.2 PyNode.nil PyNode.nil)) := by
        rw [List.map_map]
        rw [show (Prod.fst ∘ fun p : α × Nat =>
            (PyNode.mk (α := α) (some p.1) p.2 PyNode.nil PyNode.nil,
              ((dictGet cb p.1).getD []).length)) = fun p : α × Nat =>
            PyNode.mk (α := α) (some p.1) p.2 PyNode.nil PyNode.nil from rfl]
        exact (pyHeapify_perm _).symm
      have hbound := mergeLoop_cost_bound
        (pyHeapify ((f0 :: f1 :: fds1).map fun p =>
          PyNode.mk (some p.1) p.2 PyNode.nil PyNode.nil)).length
        (pyHeapify ((f0 :: f1 :: fds1).map fun p =>
          PyNode.mk (some p.1) p.2 PyNode.nil PyNode.nil))
        ((f0 :: f1 :: fds1).map fun p =>
          (PyNode.mk (α := α) (some p.1) p.2 PyNode.nil PyNode.nil,
            ((dictGet cb p.1).getD []).length))
        (by rw [hhlen]; omega) (by omega) (pyHeapify_isHeap _) hassignperm hfeas
      rw [← hteq] at hbound
      refine le_trans hbound ?_
      rw [weightedLength]
      rw [List.map_map]
      have hfuneq : ((fun q : PyNode α × Nat => treeCost q.1 + q.1.freq * q.2) ∘
          fun p : α × Nat => (PyNode.mk (α := α) (some p.1) p.2 PyNode.nil PyNode.nil,
            ((dictGet cb p.1).getD []).length)) =
          fun p : α × Nat => p.2 * ((dictGet cb p.1).getD []).length := by
        funext p
        simp only [Function.comp_apply, treeCost, PyNode.freq_nil, PyNode.freq_mk]
        omega
      rw [hfuneq]

/-- C7: for every non-empty frequency table with distinct symbols, the
weighted total code length (sum over the table of frequency times code
length) of the codebook generated from the tree `from_freq` builds is
minimal among all binary prefix codes for that table — all assignments of
a non-empty binary code to each symbol in which no symbol's code extends
another symbol's code; and on the Huffman-paper fixture
{a:20,b:18,c:10,d:10,e:10,f:6,g:6,h:4,i:4,j:4,k:4,l:3,m:1} the weighted
total length is exactly 342. -/
theorem from_freq_minimal_weighted_length :
    (∀ (α : Type) [DecidableEq α] (fd : List (α × Nat)) (t : PyNode α)
        (cb : List (α × List Char)),
      fd ≠ [] → (fd.map Prod.fst).Nodup → from_freq fd = some t →
      (∀ p ∈ fd, ∃ c, dictGet cb p.1 = some c ∧ c ≠ [] ∧
        ∀ ch ∈ c, ch = '0' ∨ ch = '1') →
      (∀ p ∈ fd, ∀ q ∈ fd, p.1 ≠ q.1 → ∀ cp cq, dictGet cb p.1 = some cp →
        dictGet cb q.1 = some cq → ¬ ∃ s, cp ++ s = cq) →
      weightedLength fd (generate_codes t) ≤ weightedLength fd cb) ∧
    ex2Total = 342 := by
  constructor
  · intro α _ fd t cb hne hnd ht hcov hpf
    exact from_freq_min_cost fd t cb hne hnd ht hcov hpf
  · decide

/-- Witness instantiating the C7 theorem: on the table {a:3, b:1} the
generated codebook's weighted total (4) is at most that of the competing
prefix code {a: "00", b: "01"} (8). -/
theorem from_freq_minimal_weighted_length_witness :
    weightedLength [(('a' : Char), 3), ('b', 1)]
        (generate_codes (PyNode.mk none 4
          (PyNode.mk (some 'b') 1 PyNode.nil PyNode.nil)
          (PyNode.mk (some 'a') 3 PyNode.nil PyNode.nil))) ≤
      weightedLength [(('a' : Char), 3), ('b', 1)]
        [('a', ['0', '0']), ('b', ['0', '1'])] := by
  refine from_freq_minimal_weighted_length.1 Char [(('a' : Char), 3), ('b', 1)]
    (PyNode.mk none 4
      (PyNode.mk (some 'b') 1 PyNode.nil PyNode.nil)
      (PyNode.mk (some 'a') 3 PyNode.nil PyNode.nil))
    [('a', ['0', '0']), ('b', ['0', '1'])]
    (by decide) (by decide) (by decide) ?_ ?_
  · intro p hp
    rcases List.mem_cons.mp hp with rfl | hp1
    · exact ⟨['0', '0'], by decide, by decide, by decide⟩
    · rcases List.mem_cons.mp hp1 with rfl | hp2
      · exact ⟨['0', '1'], by decide, by decide, by decide⟩
      · simp at hp2
  · intro p hp q hq hpq cp cq hcp hcq
    rintro ⟨s, hs⟩
    rcases List.mem_cons.mp hp with rfl | hp1
    · rcases List.mem_cons.mp hq with rfl | hq1
      · exact hpq rfl
      · rcases List.mem_cons.mp hq1 with rfl | hq2
        · have hcp2 : (some ['0', '0'] : Option (List Char)) = some cp := hcp
          have hcq2 : (some ['0', '1'] : Option (List Char)) = some cq := hcq
          injection hcp2 with h1
          injection hcq2 with h2
          rw [← h1, ← h2] at hs
          simp at hs
        · simp at hq2
    · rcases List.mem_cons.mp hp1 with rfl | hp2
      · rcases List.mem_cons.mp hq with rfl | hq1
        · have hcp2 : (some ['0', '1'] : Option (List Char)) = some cp := hcp
          have hcq2 : (some ['0', '0'] : Option (List Char)) = some cq := hcq
          injection hcp2 with h1
          injection hcq2 with h2
          rw [← h1, ← h2] at hs
          simp at hs
        · rcases List.mem_cons.mp hq1 with rfl | hq2
          · exact hpq rfl
          · simp at hq2
      · simp at hp2
